import Mathlib

/-!
Verification of the ignition-lint component-reference and fix-safety subsystem.

This file is a shallow embedding of the Python sources:
  - `common/path_translator.py`   (PathTranslator)
  - `common/fix_operations.py`    (FixOperation, Fix)
  - `common/fix_engine.py`        (FixEngine)
  - `common/reference_finder.py`  (ComponentReferenceFinder)
  - `rules/structure/component_reference_validation.py`
    (ComponentReferenceValidationRule)

JSON documents are modelled by the inductive `Json`; Python's in-place
mutation is modelled by explicit state passing; Python exceptions are
modelled by the `Except PyErr` monad.  Exception message text is kept
schematic (the claims only inspect message prefixes such as "error: ").
-/

namespace IgnitionLint

/-- A single step of a JSON document path: a dict key or a list index. -/
inductive JKey where
  | k (s : String)
  | i (n : Nat)
deriving DecidableEq, Repr

/-- A document path: the ordered key/index sequence used by `PathTranslator`
`get_value`/`set_value` (called `json_path` throughout the source). -/
abbrev DocPath := List JKey

/-- JSON values.  Python dicts preserve insertion order and have unique
keys, hence the association-list representation of objects. -/
inductive Json where
  | null
  | bool (b : Bool)
  | num (n : Int)
  | str (s : String)
  | arr (items : List Json)
  | obj (fields : List (String × Json))

/-- The Python exception classes that can escape a `PathTranslator`
read/write.  `apply_fixes` catches `KeyError`, `TypeError` and
`ValueError` but not `IndexError`. -/
inductive PyErr where
  | keyError (msg : String)
  | typeError (msg : String)
  | valueError (msg : String)
  | indexError (msg : String)
deriving DecidableEq, Repr

/-- Whether `except (KeyError, TypeError, ValueError)` catches the error. -/
def PyErr.caught : PyErr → Bool
  | .keyError _ => true
  | .typeError _ => true
  | .valueError _ => true
  | .indexError _ => false

/-- The text interpolated into `f"error: {e}"`. -/
def PyErr.message : PyErr → String
  | .keyError m => m
  | .typeError m => m
  | .valueError m => m
  | .indexError m => m

/-- First-match association-list lookup: Python `dict` indexing (dict keys
are unique, so first match is the only match). -/
def lookupField : List (String × Json) → String → Option Json
  | [], _ => none
  | (k, v) :: rest, s => if k = s then some v else lookupField rest s

/-- Python `dict` assignment: update the value in place if the key exists
(keeping its position), otherwise append a new entry. -/
def assocSet : List (String × Json) → String → Json → List (String × Json)
  | [], s, v => [(s, v)]
  | (k, w) :: rest, s, v =>
    if k = s then (k, v) :: rest else (k, w) :: assocSet rest s v

/-- `PathTranslator.get_value`: walk the document along a `json_path`.
A missing dict key (or an int key on a dict) raises `KeyError`; an
out-of-range list index raises `IndexError`; a string key on a list
raises `TypeError`; navigating into a scalar raises the translator's own
`KeyError("Cannot navigate into ...")`. -/
def getValue : Json → DocPath → Except PyErr Json
  | j, [] => .ok j
  | .obj fields, .k s :: rest =>
    match lookupField fields s with
    | some v => getValue v rest
    | none => .error (.keyError ("'" ++ s ++ "'"))
  | .obj _, .i n :: _ => .error (.keyError (Nat.repr n))
  | .arr items, .i n :: rest =>
    match items[n]? with
    | some v => getValue v rest
    | none => .error (.indexError "list index out of range")
  | .arr _, .k _ :: _ =>
    .error (.typeError "list indices must be integers or slices, not str")
  | _, _ :: _ => .error (.keyError "Cannot navigate into scalar")

/-- `PathTranslator.set_value`: navigate `json_path[:-1]` exactly as
`get_value` does, then assign at the final key.  A dict assignment may
insert a fresh key; a list assignment past the end raises `IndexError`
("list assignment index out of range").  JSON objects only have string
keys, so assigning an integer key to a dict (which plain Python would
accept, leaving the JSON realm) is modelled as the dict `KeyError`. -/
def setValue : Json → DocPath → Json → Except PyErr Json
  | _, [], _ => .error (.indexError "list index out of range")
  | j, [key], v =>
    match j, key with
    | .obj fields, .k s => .ok (.obj (assocSet fields s v))
    | .obj _, .i n => .error (.keyError (Nat.repr n))
    | .arr items, .i n =>
      if n < items.length then .ok (.arr (items.set n v))
      else .error (.indexError "list assignment index out of range")
    | .arr _, .k _ =>
      .error (.typeError "list indices must be integers or slices, not str")
    | _, _ => .error (.keyError "Cannot set value in scalar")
  | j, key :: rest, v =>
    match j, key with
    | .obj fields, .k s =>
      match lookupField fields s with
      | some child => (setValue child rest v).map (fun c => .obj (assocSet fields s c))
      | none => .error (.keyError ("'" ++ s ++ "'"))
    | .obj _, .i n => .error (.keyError (Nat.repr n))
    | .arr items, .i n =>
      match items[n]? with
      | some child => (setValue child rest v).map (fun c => .arr (items.set n c))
      | none => .error (.indexError "list index out of range")
    | .arr _, .k _ =>
      .error (.typeError "list indices must be integers or slices, not str")
    | _, _ => .error (.keyError "Cannot navigate into scalar")

/-- `PathTranslator.string_replace_at`: read the value; if it is not a
string, or does not contain `old_substring`, return `False` without
writing; otherwise write back the value with every occurrence replaced
and return `True`. -/
def stringReplaceAt (doc : Json) (path : DocPath) (old new : String) :
    Except PyErr (Bool × Json) :=
  match getValue doc path with
  | .error e => .error e
  | .ok (.str s) =>
    if old.data <:+: s.data then
      (setValue doc path (.str (s.replace old new))).map (fun d => (true, d))
    else .ok (false, doc)
  | .ok _ => .ok (false, doc)

/-! ## Fix model (`fix_operations.py`) -/

/-- `FixOperationType`. -/
inductive FixOperationType where
  | set_value
  | string_replace
deriving DecidableEq, Repr

/-- `FixOperation`: one atomic edit.  `old_value` and `description` are
carried by the source dataclass for auditability only and do not affect
behavior, so they are omitted here. -/
structure FixOperation where
  operation : FixOperationType
  json_path : DocPath
  new_value : Json := .null
  old_substring : String := ""
  new_substring : String := ""

/-- `FixOperation.format_path`. -/
def format_path (path : DocPath) : String :=
  (path.foldl
    (fun parts seg =>
      match seg with
      | .i n => parts ++ ["[" ++ Nat.repr n ++ "]"]
      | .k s => if parts = [] then [s] else parts ++ [" > " ++ s])
    []).foldl (· ++ ·) ""

/-- `Fix`: the behaviorally relevant fields (`violation_message` and
`description` are diagnostics only). -/
structure Fix where
  rule_name : String
  operations : List FixOperation := []
  is_safe : Bool := true
  safety_notes : Option String := none

/-! ## Fix engine (`fix_engine.py`)

Python compares fixes by object identity (`id(fix)`, `is not`); the
embedding works with the position of each fix in the input list, which
is in bijection with the identities since each list element is a
distinct object.  Conflict paths are compared by `str(json_path)` in the
source; for key lists free of quote characters `str` is injective, so
this is modelled by `DocPath` equality. -/

/-- Enumerate a list with indices starting at `start` (Python
`enumerate`); the index plays the role of the fix's object identity. -/
def enumFrom (start : Nat) : List α → List (Nat × α)
  | [] => []
  | x :: xs => (start, x) :: enumFrom (start + 1) xs

/-- `FixConflict` with fixes named by their input-list index. -/
structure FixConflict where
  fix_a : Nat
  fix_b : Nat
  conflicting_path : DocPath
  description : String

/-- Inner loop of `detect_conflicts` over one fix's operations: scan
`claimed_paths` for an entry with the same path and a different owning
fix; on a hit emit a conflict (and do not claim), otherwise append a
claim. -/
def claimOps (i : Nat) :
    List FixOperation → List (DocPath × Nat) → List FixConflict × List (DocPath × Nat)
  | [], claimed => ([], claimed)
  | op :: rest, claimed =>
    match claimed.find? (fun e => decide (e.1 = op.json_path) && decide (e.2 ≠ i)) with
    | some e =>
      ((⟨e.2, i, op.json_path,
          "Both fixes modify path " ++ format_path op.json_path⟩ : FixConflict)
          :: (claimOps i rest claimed).1,
        (claimOps i rest claimed).2)
    | none =>
      claimOps i rest (claimed ++ [(op.json_path, i)])

/-- Outer loop of `detect_conflicts` over the enumerated fixes. -/
def detectConflictsGo : List (Nat × Fix) → List (DocPath × Nat) → List FixConflict
  | [], _ => []
  | (i, fx) :: rest, claimed =>
    (claimOps i fx.operations claimed).1 ++
      detectConflictsGo rest (claimOps i fx.operations claimed).2

/-- `FixEngine.detect_conflicts`. -/
def detect_conflicts (fixes : List Fix) : List FixConflict :=
  detectConflictsGo (enumFrom 0 fixes) []

/-- The `claimed_paths` state after `detect_conflicts` has processed a
prefix of the enumerated fixes. -/
def claimedAfter : List (Nat × Fix) → List (DocPath × Nat) → List (DocPath × Nat)
  | [], cl => cl
  | (i, fx) :: rest, cl => claimedAfter rest (claimOps i fx.operations cl).2

/-- Conflicts involving path `p`. -/
def conflictsOn (p : DocPath) (cs : List FixConflict) : List FixConflict :=
  cs.filter (fun c => decide (c.conflicting_path = p))

/-- How many of a fix's operations target a given path. -/
def countOpsOn (fx : Fix) (p : DocPath) : Nat :=
  fx.operations.countP (fun op => decide (op.json_path = p))

/-- `FixResult`, with applied/skipped fixes named by index and skipped
fixes paired with their `skip_reason`. -/
structure FixResult where
  applied : List Nat := []
  skipped : List (Nat × String) := []
  conflicts : List FixConflict := []

/-- Outcome of `apply_fixes` on the mutable document: the result record,
the final document state, and an exception that escaped the engine (the
source catches only `KeyError`/`TypeError`/`ValueError`, so e.g. an
`IndexError` propagates to the caller, who then never receives the
`FixResult`; the partial record is still carried here for
specification purposes). -/
structure ApplyOutcome where
  result : FixResult
  doc : Json
  escaped : Option PyErr := none

/-- One operation of `FixEngine._apply_single_fix`. -/
def applyOperation (doc : Json) (op : FixOperation) : Except PyErr Json :=
  match op.operation with
  | .set_value => setValue doc op.json_path op.new_value
  | .string_replace =>
    (stringReplaceAt doc op.json_path op.old_substring op.new_substring).map (·.2)

/-- `FixEngine._apply_single_fix`: run the operations in order; on an
exception keep the mutations made so far (no rollback) and surface the
exception. -/
def apply_single_fix (doc : Json) : List FixOperation → Json × Option PyErr
  | [] => (doc, none)
  | op :: rest =>
    match applyOperation doc op with
    | .ok doc' => apply_single_fix doc' rest
    | .error e => (doc, some e)

/-- The skip reason used for an unsafe fix: `f"unsafe: {notes}"` when
`safety_notes` is truthy, the generic message otherwise. -/
def unsafeSkipReason (notes : Option String) : String :=
  match notes with
  | some s => if s = "" then "unsafe fix (use --fix-unsafe)" else "unsafe: " ++ s
  | none => "unsafe fix (use --fix-unsafe)"

/-- Per-fix loop of `apply_fixes`: rule filter, then safety, then
conflict membership, then execution (catching only
`KeyError`/`TypeError`/`ValueError`). -/
def applyFixesGo (conflictIds : List Nat) (safe_only : Bool) (rule_filter : List String) :
    List (Nat × Fix) → Json → ApplyOutcome
  | [], doc => ⟨{}, doc, none⟩
  | (i, fx) :: rest, doc =>
    if rule_filter ≠ [] ∧ ¬ rule_filter.contains fx.rule_name then
      let o := applyFixesGo conflictIds safe_only rule_filter rest doc
      { o with result := { o.result with
          skipped := (i, "filtered by --fix-rules") :: o.result.skipped } }
    else if safe_only ∧ fx.is_safe = false then
      let o := applyFixesGo conflictIds safe_only rule_filter rest doc
      { o with result := { o.result with
          skipped := (i, unsafeSkipReason fx.safety_notes) :: o.result.skipped } }
    else if conflictIds.contains i then
      let o := applyFixesGo conflictIds safe_only rule_filter rest doc
      { o with result := { o.result with
          skipped := (i, "conflicts with another fix") :: o.result.skipped } }
    else
      match apply_single_fix doc fx.operations with
      | (doc', none) =>
        let o := applyFixesGo conflictIds safe_only rule_filter rest doc'
        { o with result := { o.result with applied := i :: o.result.applied } }
      | (doc', some e) =>
        if e.caught then
          let o := applyFixesGo conflictIds safe_only rule_filter rest doc'
          { o with result := { o.result with
              skipped := (i, "error: " ++ e.message) :: o.result.skipped } }
        else
          ⟨{}, doc', some e⟩

/-- `FixEngine.apply_fixes`.  `rule_filter = []` models Python's falsy
default `rule_filter=None` (and the equally falsy empty list). -/
def apply_fixes (doc : Json) (fixes : List Fix) (safe_only : Bool := true)
    (rule_filter : List String := []) : ApplyOutcome :=
  let conflicts := detect_conflicts fixes
  let o := applyFixesGo (conflicts.map (·.fix_b)) safe_only rule_filter (enumFrom 0 fixes) doc
  { o with result := { o.result with conflicts := conflicts } }

/-- Per-fix loop of `dry_run`: identical gatekeeping, but a fix that
passes every check is marked applied without executing anything. -/
def dryRunGo (conflictIds : List Nat) (safe_only : Bool) (rule_filter : List String) :
    List (Nat × Fix) → FixResult
  | [] => {}
  | (i, fx) :: rest =>
    if rule_filter ≠ [] ∧ ¬ rule_filter.contains fx.rule_name then
      let r := dryRunGo conflictIds safe_only rule_filter rest
      { r with skipped := (i, "filtered by --fix-rules") :: r.skipped }
    else if safe_only ∧ fx.is_safe = false then
      let r := dryRunGo conflictIds safe_only rule_filter rest
      { r with skipped := (i, unsafeSkipReason fx.safety_notes) :: r.skipped }
    else if conflictIds.contains i then
      let r := dryRunGo conflictIds safe_only rule_filter rest
      { r with skipped := (i, "conflicts with another fix") :: r.skipped }
    else
      let r := dryRunGo conflictIds safe_only rule_filter rest
      { r with applied := i :: r.applied }

/-- `FixEngine.dry_run`: previews `apply_fixes` without touching the
document. -/
def dry_run (fixes : List Fix) (safe_only : Bool := true)
    (rule_filter : List String := []) : FixResult :=
  let conflicts := detect_conflicts fixes
  let r := dryRunGo (conflicts.map (·.fix_b)) safe_only rule_filter (enumFrom 0 fixes)
  { r with conflicts := conflicts }

/-- The conflict record `detect_conflicts` emits when fix `i`'s
operation targets path `p` already claimed by fix `i₀`. -/
def pathConflict (i₀ i : Nat) (p : DocPath) : FixConflict :=
  ⟨i₀, i, p, "Both fixes modify path " ++ format_path p⟩

/-- The gate a fix must pass before its operations execute: the rule
filter, then the safety check, then conflict membership; `some reason`
when the fix is skipped at one of these gates. -/
def gateReason (conflictIds : List Nat) (safe_only : Bool) (rule_filter : List String)
    (i : Nat) (fx : Fix) : Option String :=
  if rule_filter ≠ [] ∧ ¬ rule_filter.contains fx.rule_name then
    some "filtered by --fix-rules"
  else if safe_only ∧ fx.is_safe = false then
    some (unsafeSkipReason fx.safety_notes)
  else if conflictIds.contains i then
    some "conflicts with another fix"
  else none

/-! ## Reference resolver (`rules/structure/component_reference_validation.py`)

The rule builds three dicts over the component nodes
(`component_tree : path → Component`, `parent_map : path → parent path`,
`children_map : parent path → [child paths]`); the validation functions
below take that index as a parameter.  A `Component` enters validation
only through its display name, so `component_tree` maps a path to the
name. -/

/-- Worker for `pySplit`, fuelled for structural recursion (the fuel is
always sufficient: each step consumes at least one input character). -/
def pySplitAux (sep : List Char) : Nat → List Char → List Char → List (List Char)
  | 0, _, acc => [acc.reverse]
  | _ + 1, [], acc => [acc.reverse]
  | fuel + 1, c :: rest, acc =>
    if sep <+: (c :: rest) then
      acc.reverse :: pySplitAux sep fuel (List.drop (sep.length - 1) rest) []
    else pySplitAux sep fuel rest (c :: acc)

/-- Python `str.split(sep)` for a nonempty separator: split on every
non-overlapping occurrence, left to right, keeping empty parts. -/
def pySplit (sep s : String) : List String :=
  (pySplitAux sep.data (s.data.length + 1) s.data []).map String.mk

/-- Python `dict.get`: the value of the last assignment to the key. -/
def dictGet {α : Type} (l : List (String × α)) (k : String) : Option α :=
  (l.reverse.find? (fun e => decide (e.1 = k))).map (fun e => e.2)

/-- `dict.get` combined with Python truthiness (`if not parent`): `None`
and the empty string are both falsy. -/
def getTruthy (l : List (String × String)) (k : String) : Option String :=
  match dictGet l k with
  | none => none
  | some v => if v = "" then none else some v

/-- The component index the rule builds in `_build_component_index`. -/
structure ComponentIndex where
  component_tree : List (String × String)
  parent_map : List (String × String)
  children_map : List (String × List String)

/-- `ComponentReferenceValidationRule._find_child`: first child of
`parent_path` (in `children_map` order) whose component name equals
`child_name`. -/
def find_child (idx : ComponentIndex) (parent_path child_name : String) : Option String :=
  ((dictGet idx.children_map parent_path).getD []).find?
    (fun child_path =>
      match dictGet idx.component_tree child_path with
      | some nm => decide (nm = child_name)
      | none => false)

/-- `ComponentReferenceValidationRule._find_sibling`: like `_find_child`
on the parent's children but skipping the component itself. -/
def find_sibling (idx : ComponentIndex) (component_path sibling_name : String) :
    Option String :=
  match getTruthy idx.parent_map component_path with
  | none => none
  | some parent =>
    ((dictGet idx.children_map parent).getD []).find?
      (fun sibling_path =>
        if sibling_path = component_path then false
        else
          match dictGet idx.component_tree sibling_path with
          | some nm => decide (nm = sibling_name)
          | none => false)

/-- `ComponentReferenceValidationRule._navigate_down_path`. -/
def navigate_down_path (idx : ComponentIndex) : String → List String → Option String
  | cur, [] => some cur
  | cur, seg :: rest =>
    match find_child idx cur seg with
    | none => none
    | some found => navigate_down_path idx found rest

/-- The `for _ in range(levels_up)` parent walk shared by
`_validate_relative_reference` and `_validate_chained_navigation`;
`none` when some step has no (truthy) parent. -/
def walkUp (idx : ComponentIndex) : Nat → String → Option String
  | 0, cur => some cur
  | n + 1, cur =>
    match getTruthy idx.parent_map cur with
    | none => none
    | some parent => walkUp idx n parent

/-- `ComponentReferenceValidationRule._extract_component_reference`:
strip everything from the first property suffix on, trying the suffixes
in the source's list order. -/
def extract_component_reference (ref_path : String) : String :=
  if ".props.".data <:+: ref_path.data then (pySplit ".props." ref_path).headD ""
  else if ".position.".data <:+: ref_path.data then (pySplit ".position." ref_path).headD ""
  else if ".meta.".data <:+: ref_path.data then (pySplit ".meta." ref_path).headD ""
  else if ".custom.".data <:+: ref_path.data then (pySplit ".custom." ref_path).headD ""
  else ref_path

/-- `ComponentReferenceValidationRule._get_component_path_from_source`:
recover the owning component of a binding/script path; `propConfig`
first, then the marker list, then the longest component path that is a
prefix of the source path (Python's stable `sorted(keys, key=len,
reverse=True)`), else `"root"`. -/
def get_component_path_from_source (idx : ComponentIndex) (source_path : String) : String :=
  if ".propConfig.".data <:+: source_path.data then
    (pySplit ".propConfig." source_path).headD ""
  else if ".props.".data <:+: source_path.data then (pySplit ".props." source_path).headD ""
  else if ".events.".data <:+: source_path.data then (pySplit ".events." source_path).headD ""
  else if ".scripts.".data <:+: source_path.data then (pySplit ".scripts." source_path).headD ""
  else
    match ((idx.component_tree.map (fun e => e.1)).mergeSort
        (fun a b => b.length ≤ a.length)).find? (fun cp => decide (cp.data <+: source_path.data)) with
    | some cp => cp
    | none => "root"

/-- Python `str.title()` as used on the rule's `ref_type` arguments
("expression", "property binding"): capitalize each space-separated
word. -/
def pyTitle (s : String) : String :=
  String.intercalate " " ((pySplit " " s).map (fun w => w.capitalize))

/-- The descent step of `_validate_relative_reference`: navigate the
slash-separated segments when the reference contains `/`, otherwise
look the single name up as a child of the cursor. -/
def resolve_descent (idx : ComponentIndex) (current component_ref : String) : Option String :=
  if component_ref.data.contains '/' then
    navigate_down_path idx current (pySplit "/" component_ref)
  else
    find_child idx current component_ref

/-- `ComponentReferenceValidationRule._validate_relative_reference`:
walk `levels_up` parents from the owning component of `source_path`,
then descend through the slash-separated names of `component_ref`; at
most one violation string results. -/
def validate_relative_reference (idx : ComponentIndex) (source_path component_ref : String)
    (levels_up : Nat) (full_ref ref_type : String) : Option String :=
  let component_path := get_component_path_from_source idx source_path
  match walkUp idx levels_up component_path with
  | none =>
    some (source_path ++ ": Relative " ++ ref_type ++ " '" ++ full_ref ++
      "' navigates above root component")
  | some current =>
    match resolve_descent idx current component_ref with
    | some _ => none
    | none =>
      some (source_path ++ ": " ++ pyTitle ref_type ++
        " references non-existent component '" ++ component_ref ++ "' in: " ++ full_ref)

/-- The regex `^(\.\.+)/(.+)$` of `visit_property_binding` (and of
`PROPERTY_BINDING_PATTERN`): at least two leading dots, a slash, then a
nonempty remainder; Python's `.` does not match a newline and `$`
tolerates one trailing newline. -/
def parse_relative_token (s : String) : Option (Nat × String) :=
  let dots := (s.data.takeWhile (fun c => c = '.')).length
  if dots < 2 then none
  else
    match s.data.drop dots with
    | '/' :: rest =>
      let body := if rest.getLast? = some '\n' then rest.dropLast else rest
      if body = [] ∨ '\n' ∈ body then none
      else some (dots, String.mk body)
    | _ => none

/-- `ComponentReferenceValidationRule.visit_property_binding` on a
relative target path: parse the token, set `levels_up = dots - 1`,
extract the component reference and validate. -/
def visit_property_binding (idx : ComponentIndex) (source_path target_path : String) :
    Option String :=
  match parse_relative_token target_path with
  | none => none
  | some (dots, body) =>
    validate_relative_reference idx source_path (extract_component_reference body)
      (dots - 1) target_path "property binding"

/-- The expression-binding pattern `r'\x7b(\.\.+)/([^\x7d]+)\x7d'` of
`visit_expression_binding`, tried at the head of the character list: one
opening brace, a maximal run of at least two dots, a slash, a maximal
nonempty run of non-`'\x7d'` characters, then the closing brace.
Returns the dot count (group 1's length), the second capture group, and
the remainder after the match.  The greedy maximal runs are faithful to
the regex: shrinking the dot run leaves a dot where `/` is required, and
shrinking the character run leaves a non-`'\x7d'` character where the
closing brace is required, so backtracking never succeeds where this
fails. -/
def matchBraceTokenAt : List Char → Option (Nat × List Char × List Char)
  | [] => none
  | c :: cs1 =>
    if c = '{' then
      let dots := cs1.takeWhile (fun c => c == '.')
      if dots.length < 2 then none
      else
        match cs1.drop dots.length with
        | c2 :: rest =>
          if c2 = '/' then
            let g2 := rest.takeWhile (fun c => c != '}')
            if g2 = [] then none
            else
              match rest.drop g2.length with
              | c3 :: rest2 =>
                if c3 = '}' then some (dots.length, g2, rest2) else none
              | [] => none
          else none
        | [] => none
    else none

/-- `re.finditer` of the expression-binding pattern: try the pattern at
every position, resuming after each match; fuelled for structural
recursion (each step consumes at least one character). -/
def braceTokensF : Nat → List Char → List (Nat × List Char)
  | 0, _ => []
  | _ + 1, [] => []
  | fuel + 1, c :: rest =>
    match matchBraceTokenAt (c :: rest) with
    | some (d, g2, after) => (d, g2) :: braceTokensF fuel after
    | none => braceTokensF fuel rest

/-- `ComponentReferenceValidationRule.visit_expression_binding` (with
expression validation enabled, as for the other visitors): for each
`\x7b(\.\.+)/([^\x7d]+)\x7d` token of the expression in scan order, set
`levels_up = len(dots) - 1`, extract the component reference from group 2
and validate it against the owning component of `source_path`, passing
the whole expression as `full_ref` and `"expression"` as `ref_type`; the
list collects each token's violation outcome in order (a `None`
expression has no tokens and reports nothing). -/
def visit_expression_binding (idx : ComponentIndex) (source_path expression : String) :
    List (Option String) :=
  (braceTokensF expression.data.length expression.data).map
    (fun t => validate_relative_reference idx source_path
      (extract_component_reference (String.mk t.2)) (t.1 - 1) expression "expression")

/-- `ComponentReferenceValidationRule._validate_sibling_reference`: a
bare `self.getSibling('name')` occurrence. -/
def validate_sibling_reference (idx : ComponentIndex) (script_path sibling_name : String) :
    Option String :=
  match find_sibling idx (get_component_path_from_source idx script_path) sibling_name with
  | some _ => none
  | none =>
    some (script_path ++ ": Script references non-existent sibling component '" ++
      sibling_name ++ "'")

/-- One step of a parsed navigation chain: the regex extracts any
`.method('arg')` call; only `getSibling`/`getChild` move the cursor. -/
inductive ChainStep where
  | getSibling (arg : String)
  | getChild (arg : String)
  | other (method arg : String)
deriving DecidableEq, Repr

/-- The method-call phase of
`ComponentReferenceValidationRule._validate_chained_navigation`. -/
def stepMethods (idx : ComponentIndex) (script_path chain : String) :
    String → List ChainStep → Option String
  | _, [] => none
  | cur, .getSibling arg :: rest =>
    match find_sibling idx cur arg with
    | some nxt => stepMethods idx script_path chain nxt rest
    | none =>
      some (script_path ++ ": Component '" ++ arg ++ "' not found as sibling in: " ++ chain)
  | cur, .getChild arg :: rest =>
    match find_child idx cur arg with
    | some nxt => stepMethods idx script_path chain nxt rest
    | none =>
      some (script_path ++ ": Component '" ++ arg ++ "' not found as child in: " ++ chain)
  | cur, .other _ _ :: rest => stepMethods idx script_path chain cur rest

/-- The per-chain body of `_validate_chained_navigation`, applied to the
regex-extracted `parent_count = chain.count('.parent')` and method
list: no method calls means no validation; otherwise walk up and step
through the methods.  An untouched falsy cursor (`if not current_path:
continue`) skips silently. -/
def validate_chain (idx : ComponentIndex) (script_path chain : String)
    (parent_count : Nat) (methods : List ChainStep) : Option String :=
  if methods = [] then none
  else
    match walkUp idx parent_count (get_component_path_from_source idx script_path) with
    | none => some (script_path ++ ": Navigation chain goes beyond root: " ++ chain)
    | some cur =>
      if cur = "" then none
      else stepMethods idx script_path chain cur methods

/-! ## Reference finder (`common/reference_finder.py`)

`ComponentReferenceFinder._has_expression_reference` scans a string for
`EXPRESSION_PATTERN = r'\{{1,2}(\.\.+)/([^}]+)\}{1,2}'` and tests
whether the component name occurs among `re.split(r'[./]', group(2))`.
The regex is deterministic on this grammar: the 1-or-2-brace and
1-or-2-closing-brace alternatives are resolved greedily, dot-runs are
maximal, and `([^}]+)` runs to the first closing brace, so backtracking
never changes the outcome and the matcher below computes exactly the
leftmost match at a position. -/

/-- Match `(\.\.+)/([^}]+)\}{1,2}` after the opening brace(s): a maximal
run of at least two dots, a slash, a maximal nonempty run of
non-`'\x7d'` characters, then one or two closing braces (greedy).
Returns the second capture group and the remainder after the match. -/
def matchFromDots (cs2 : List Char) : Option (List Char × List Char) :=
  let dots := cs2.takeWhile (fun c => c == '.')
  if dots.length < 2 then none
  else
    match cs2.drop dots.length with
    | c :: rest =>
      if c = '/' then
        let g2 := rest.takeWhile (fun c => c != '}')
        if g2 = [] then none
        else
          match rest.drop g2.length with
          | c2 :: rest2 =>
            if c2 = '}' then
              if rest2.head? = some '}' then some (g2, rest2.tail) else some (g2, rest2)
            else none
          | [] => none
      else none
    | [] => none

/-- Attempt `EXPRESSION_PATTERN` at the head of the string: one or two
opening braces (greedy; when the second character is also `'\x7b'` the
one-brace alternative would require a dot there and fail, so committing
to two braces is faithful), then `matchFromDots`. -/
def matchExprAt : List Char → Option (List Char × List Char)
  | [] => none
  | c :: cs1 =>
    if c = '{' then
      if cs1.head? = some '{' then matchFromDots cs1.tail else matchFromDots cs1
    else none

/-- `re.finditer` over the string: try the pattern at every position,
resuming after each match; fuelled for structural recursion (each step
consumes at least one character). -/
def exprMatchesF : Nat → List Char → List (List Char)
  | 0, _ => []
  | _ + 1, [] => []
  | fuel + 1, c :: rest =>
    match matchExprAt (c :: rest) with
    | some (g2, after) => g2 :: exprMatchesF fuel after
    | none => exprMatchesF fuel rest

/-- `re.split(r'[./]', s)`: split on every single dot or slash. -/
def splitDotSlash : List Char → List (List Char)
  | [] => [[]]
  | c :: rest =>
    if c = '.' ∨ c = '/' then [] :: splitDotSlash rest
    else
      match splitDotSlash rest with
      | [] => [[c]]
      | seg :: segs => (c :: seg) :: segs

/-- `ComponentReferenceFinder._has_expression_reference`: true when some
expression match's path (capture group 2) has the component name among
its dot-or-slash-separated segments. -/
def has_expression_reference (value component_name : String) : Bool :=
  (exprMatchesF value.data.length value.data).any
    (fun g2 => (splitDotSlash g2).contains component_name.data)

/-- The spec's description of expression-reference matching, stated from
its words for comparison with `has_expression_reference`: the name must be
one of the slash-delimited segments of the captured path after the
trailing property suffix (`.props.`, `.position.`, `.meta.`, `.custom.`)
has been stripped. -/
def spec_expression_reference (value component_name : String) : Bool :=
  (exprMatchesF value.data.length value.data).any
    (fun g2 => (pySplit "/" (extract_component_reference (String.mk g2))).contains
      component_name)

/-! ## Path translator build walk (`PathTranslator._build_mappings`)

Model paths are plain strings assembled with f-strings, so the walk and
its lookup live in string space; the build walk is fuelled for structural
recursion (each recursive call consumes one unit, so any fuel larger
than the node count of the document gives the Python walk). -/

/-- `f"{model_path}.{key}" if model_path else key`. -/
def joinDot (mp k : String) : String :=
  if mp = "" then k else mp ++ "." ++ k

/-- `f"{model_path}[{index}]"`. -/
def idxSeg (mp : String) (i : Nat) : String :=
  mp ++ "[" ++ Nat.repr i ++ "]"

/-- `data.get('meta', {}).get('name')` followed by the truthiness test
`if component_name:`. The embedding covers documents whose `meta` fields
are objects and whose `name` fields are strings: on a non-dict `meta`
the Python expression raises `AttributeError` (the constructor crashes),
and a truthy non-string `name` would be stringified into the model path;
`metaOK` below excludes both corners and every walk theorem assumes it. -/
def metaName (fields : List (String × Json)) : Option String :=
  match lookupField fields "meta" with
  | some (.obj mfields) =>
    match lookupField mfields "name" with
    | some (.str s) => if s = "" then none else some s
    | _ => none
  | _ => none

/-- The state `_build_mappings` fills: `_model_to_json` as the ordered
list of dict assignments (`dictGet` reads the last one), and the
component records `(new_model_path, json_path, component dict)` made at
each truthy-`meta.name` object; Python's `_component_name_paths` is
`component_name_paths` below. -/
structure BuildState where
  model_to_json : List (String × DocPath)
  components : List (String × DocPath × Json)

mutual

/-- `PathTranslator._build_mappings`: a dict first records its component
mapping when `meta.name` is truthy (appending the name to the model path
it was reached by) and then walks its items; a list walks its items; a
scalar argument falls through both `isinstance` checks and records
nothing. -/
def buildM : Nat → Json → String → DocPath → BuildState → BuildState
  | 0, _, _, _, st => st
  | fuel + 1, .obj fields, mp, jp, st =>
    match metaName fields with
    | some name =>
      buildFieldsM fuel fields (joinDot mp name) jp
        ⟨st.model_to_json ++ [(joinDot mp name, jp)],
         st.components ++ [(joinDot mp name, jp, .obj fields)]⟩
    | none => buildFieldsM fuel fields mp jp st
  | fuel + 1, .arr items, mp, jp, st => buildItemsM fuel 0 items mp jp st
  | _ + 1, _, _, _, st => st

/-- The `for key, value in data.items()` loop of `_build_mappings`:
dict and list children recurse, scalar children record their mapping. -/
def buildFieldsM : Nat → List (String × Json) → String → DocPath → BuildState → BuildState
  | 0, _, _, _, st => st
  | _ + 1, [], _, _, st => st
  | fuel + 1, (k, v) :: rest, mp, jp, st =>
    buildFieldsM fuel rest mp jp
      (match v with
       | .obj f2 => buildM fuel (.obj f2) (joinDot mp k) (jp ++ [.k k]) st
       | .arr l2 => buildM fuel (.arr l2) (joinDot mp k) (jp ++ [.k k]) st
       | _ => ⟨st.model_to_json ++ [(joinDot mp k, jp ++ [.k k])], st.components⟩)

/-- `PathTranslator._build_list_mappings`: dict and list items recurse,
scalar items record their mapping. -/
def buildItemsM : Nat → Nat → List Json → String → DocPath → BuildState → BuildState
  | 0, _, _, _, _, st => st
  | _ + 1, _, [], _, _, st => st
  | fuel + 1, i, item :: rest, mp, jp, st =>
    buildItemsM fuel (i + 1) rest mp jp
      (match item with
       | .obj f2 => buildM fuel (.obj f2) (idxSeg mp i) (jp ++ [.i i]) st
       | .arr l2 => buildM fuel (.arr l2) (idxSeg mp i) (jp ++ [.i i]) st
       | _ => ⟨st.model_to_json ++ [(idxSeg mp i, jp ++ [.i i])], st.components⟩)

end

/-- `PathTranslator.__init__`: walk the document root with empty model
path and empty `json_path`. -/
def build_mappings (fuel : Nat) (doc : Json) : BuildState :=
  buildM fuel doc "" [] ⟨[], []⟩

/-- `PathTranslator.model_path_to_json_path`: `self._model_to_json.get`. -/
def model_path_to_json_path (st : BuildState) (mp : String) : Option DocPath :=
  dictGet st.model_to_json mp

/-- `PathTranslator._component_name_paths`: each component's model path
mapped to `json_path + ['meta', 'name']`. -/
def component_name_paths (st : BuildState) : List (String × DocPath) :=
  st.components.map (fun e => (e.1, e.2.1 ++ [.k "meta", .k "name"]))

/-- A model-path-safe string: nonempty and free of the separator
characters `'.'` and `'['` that the walk inserts between segments. -/
def cleanSeg (s : String) : Bool :=
  !s.data.isEmpty && s.data.all (fun c => !(c = '.' || c = '['))

/-- The `meta`/`name` corner of well-formedness: a `meta` field, if
present, is an object, and its `name` field, if any, is a string free of
separator characters (an empty name is falsy and records nothing). -/
def metaOK (fields : List (String × Json)) : Bool :=
  match lookupField fields "meta" with
  | none => true
  | some (.obj mfields) =>
    match lookupField mfields "name" with
    | none => true
    | some (.str s) => s.data.all (fun c => !(c = '.' || c = '['))
    | some _ => false
  | some _ => false

/-- Distinctness of an object's keys (a Python dict cannot carry
duplicates; the association list can). -/
def nodupKeys : List String → Bool
  | [] => true
  | k :: rest => !rest.contains k && nodupKeys rest

mutual

/-- Well-formed documents for the amended C1: every object's keys are
distinct, nonempty and free of `'.'`/`'['`, and its `meta`/`name` fields
satisfy `metaOK`; fuelled in lockstep with `buildM`. -/
def wfM : Nat → Json → Bool
  | 0, _ => false
  | fuel + 1, .obj fields =>
    metaOK fields && nodupKeys (fields.map Prod.fst) &&
      (fields.map Prod.fst).all cleanSeg && wfFieldsM fuel fields
  | fuel + 1, .arr items => wfItemsM fuel items
  | _ + 1, _ => true

def wfFieldsM : Nat → List (String × Json) → Bool
  | 0, _ => false
  | _ + 1, [] => true
  | fuel + 1, e :: rest => wfM fuel e.2 && wfFieldsM fuel rest

def wfItemsM : Nat → List Json → Bool
  | 0, _ => false
  | _ + 1, [] => true
  | fuel + 1, item :: rest => wfM fuel item && wfItemsM fuel rest

end

/-- `key` extends the model path `mp` by a (possibly empty) suffix that,
when nonempty, starts with a separator the walk inserted. -/
def sepExt (mp key : String) : Prop :=
  ∃ t, key.data = mp.data ++ t ∧
    (t = [] ∨ t.head? = some '.' ∨ t.head? = some '[')

/-- `key` strictly extends the model path `mp` by a separator-headed
suffix. -/
def sepExtS (mp key : String) : Prop :=
  ∃ t, key.data = mp.data ++ t ∧ t ≠ [] ∧
    (t.head? = some '.' ∨ t.head? = some '[')

/-- The C1 counterexample document: the dict at key `"a"` carries
`meta.name = "b"`, so its component model path is the string `"a.b"`,
which collides with the literal sibling key `"a.b"`. -/
def c1Doc : Json :=
  .obj [("a", .obj [("meta", .obj [("name", .str "b")])]), ("a.b", .num 0)]

/-! ## Theorems -/

/-! ### Enumeration lemmas -/

theorem enumFrom_append (n : Nat) (a b : List α) :
    enumFrom n (a ++ b) = enumFrom n a ++ enumFrom (n + a.length) b := by
  induction a generalizing n with
  | nil => simp [enumFrom]
  | cons x xs ih =>
    show (n, x) :: enumFrom (n + 1) (xs ++ b) =
      (n, x) :: (enumFrom (n + 1) xs ++ enumFrom (n + (xs.length + 1)) b)
    rw [ih, show n + (xs.length + 1) = n + 1 + xs.length by omega]

theorem mem_enumFrom {l : List α} {n i : Nat} {x : α}
    (h : (i, x) ∈ enumFrom n l) :
    n ≤ i ∧ l.get? (i - n) = some x := by
  induction l generalizing n with
  | nil => simp [enumFrom] at h
  | cons y ys ih =>
    simp only [enumFrom, List.mem_cons, Prod.mk.injEq] at h
    rcases h with ⟨h1, h2⟩ | h
    · subst h1; subst h2; simp
    · obtain ⟨hle, hget⟩ := ih h
      refine ⟨by omega, ?_⟩
      rw [show i - n = (i - (n + 1)) + 1 by omega]
      simpa using hget

theorem mem_enumFrom_ge {l : List α} {n : Nat} {e : Nat × α}
    (h : e ∈ enumFrom n l) : n ≤ e.1 := by
  obtain ⟨i, x⟩ := e
  exact (mem_enumFrom h).1

theorem flatMap_congr_of_mem {l : List α} {f g : α → List β}
    (h : ∀ x ∈ l, f x = g x) : l.flatMap f = l.flatMap g := by
  induction l with
  | nil => rfl
  | cons x xs ih =>
    simp only [List.flatMap_cons, h x (List.mem_cons_self x xs)]
    rw [ih (fun y hy => h y (List.mem_cons_of_mem x hy))]

/-! ### Conflict-detection lemmas -/

theorem claimOps_cons_found {i : Nat} {op : FixOperation} {rest : List FixOperation}
    {cl : List (DocPath × Nat)} {e : DocPath × Nat}
    (hfind : cl.find? (fun e => decide (e.1 = op.json_path) && decide (e.2 ≠ i)) = some e) :
    claimOps i (op :: rest) cl =
      ((⟨e.2, i, op.json_path,
          "Both fixes modify path " ++ format_path op.json_path⟩ : FixConflict)
          :: (claimOps i rest cl).1,
        (claimOps i rest cl).2) := by
  simp only [claimOps, hfind]

theorem claimOps_cons_none {i : Nat} {op : FixOperation} {rest : List FixOperation}
    {cl : List (DocPath × Nat)}
    (hfind : cl.find? (fun e => decide (e.1 = op.json_path) && decide (e.2 ≠ i)) = none) :
    claimOps i (op :: rest) cl = claimOps i rest (cl ++ [(op.json_path, i)]) := by
  simp only [claimOps, hfind]

theorem conflictsOn_cons_ne {p q : DocPath} {c : FixConflict} {cs : List FixConflict}
    (hc : c.conflicting_path = q) (hq : q ≠ p) :
    conflictsOn p (c :: cs) = conflictsOn p cs := by
  simp [conflictsOn, List.filter_cons, hc, hq]

theorem conflictsOn_cons_eq {p : DocPath} {c : FixConflict} {cs : List FixConflict}
    (hc : c.conflicting_path = p) :
    conflictsOn p (c :: cs) = c :: conflictsOn p cs := by
  simp [conflictsOn, List.filter_cons, hc]

theorem claimOps_pre {p : DocPath} {i : Nat} {ops : List FixOperation}
    {cl : List (DocPath × Nat)}
    (hcl : ∀ e ∈ cl, e.1 ≠ p) (hops : ∀ op ∈ ops, op.json_path ≠ p) :
    conflictsOn p (claimOps i ops cl).1 = [] ∧
      ∀ e ∈ (claimOps i ops cl).2, e.1 ≠ p := by
  induction ops generalizing cl with
  | nil => exact ⟨rfl, hcl⟩
  | cons op rest ih =>
    have hop : op.json_path ≠ p := hops op (List.mem_cons_self _ _)
    have hrest : ∀ o ∈ rest, o.json_path ≠ p := fun o ho => hops o (List.mem_cons_of_mem _ ho)
    cases hfind : cl.find? (fun e => decide (e.1 = op.json_path) && decide (e.2 ≠ i)) with
    | some e =>
      obtain ⟨h1, h2⟩ := ih hcl hrest
      rw [claimOps_cons_found hfind]
      exact ⟨by rw [conflictsOn_cons_ne rfl hop]; exact h1, h2⟩
    | none =>
      have hcl' : ∀ e ∈ cl ++ [(op.json_path, i)], e.1 ≠ p := by
        intro e he
        rcases List.mem_append.mp he with h | h
        · exact hcl e h
        · simp only [List.mem_singleton] at h
          subst h
          exact hop
      obtain ⟨h1, h2⟩ := ih hcl' hrest
      rw [claimOps_cons_none hfind]
      exact ⟨h1, h2⟩

theorem claimOps_first {p : DocPath} {i₀ : Nat} {ops : List FixOperation}
    {cl : List (DocPath × Nat)}
    (hcl : ∀ e ∈ cl, e.1 = p → e.2 = i₀) :
    conflictsOn p (claimOps i₀ ops cl).1 = [] ∧
      (∀ e ∈ (claimOps i₀ ops cl).2, e.1 = p → e.2 = i₀) ∧
      ((∃ e ∈ cl, e.1 = p) ∨ 0 < ops.countP (fun op => decide (op.json_path = p)) →
        ∃ e ∈ (claimOps i₀ ops cl).2, e.1 = p) := by
  induction ops generalizing cl with
  | nil =>
    refine ⟨rfl, hcl, ?_⟩
    rintro (h | h)
    · exact h
    · simp [List.countP_nil] at h
  | cons op rest ih =>
    cases hfind : cl.find? (fun e => decide (e.1 = op.json_path) && decide (e.2 ≠ i₀)) with
    | some e =>
      have hpe := List.find?_some hfind
      have hme := List.mem_of_find?_eq_some hfind
      simp only [Bool.and_eq_true, decide_eq_true_eq] at hpe
      have hop : op.json_path ≠ p := by
        intro hop
        exact hpe.2 (hcl e hme (hop ▸ hpe.1))
      obtain ⟨h1, h2, h3⟩ := ih hcl
      rw [claimOps_cons_found hfind]
      refine ⟨by rw [conflictsOn_cons_ne rfl hop]; exact h1, h2, ?_⟩
      intro hd
      refine h3 ?_
      rcases hd with hd | hd
      · exact Or.inl hd
      · refine Or.inr ?_
        simpa [List.countP_cons, hop] using hd
    | none =>
      have hcl' : ∀ e ∈ cl ++ [(op.json_path, i₀)], e.1 = p → e.2 = i₀ := by
        intro e he h
        rcases List.mem_append.mp he with hm | hm
        · exact hcl e hm h
        · simp only [List.mem_singleton] at hm
          subst hm
          rfl
      obtain ⟨h1, h2, h3⟩ := ih hcl'
      rw [claimOps_cons_none hfind]
      refine ⟨h1, h2, ?_⟩
      intro hd
      by_cases hop : op.json_path = p
      · refine h3 (Or.inl ?_)
        exact ⟨(op.json_path, i₀), List.mem_append_right _ (List.mem_singleton_self _), hop⟩
      · refine h3 ?_
        rcases hd with hd | hd
        · obtain ⟨e, he, hep⟩ := hd
          exact Or.inl ⟨e, List.mem_append_left _ he, hep⟩
        · refine Or.inr ?_
          simpa [List.countP_cons, hop] using hd

theorem claimOps_later {p : DocPath} {i₀ i : Nat} {ops : List FixOperation}
    {cl : List (DocPath × Nat)}
    (hcl : ∀ e ∈ cl, e.1 = p → e.2 = i₀)
    (hex : ∃ e ∈ cl, e.1 = p) (hne : i ≠ i₀) :
    conflictsOn p (claimOps i ops cl).1 =
        List.replicate (ops.countP (fun op => decide (op.json_path = p)))
          (pathConflict i₀ i p) ∧
      (∀ e ∈ (claimOps i ops cl).2, e.1 = p → e.2 = i₀) ∧
      ∃ e ∈ (claimOps i ops cl).2, e.1 = p := by
  induction ops generalizing cl with
  | nil => exact ⟨rfl, hcl, hex⟩
  | cons op rest ih =>
    by_cases hop : op.json_path = p
    · cases hfind : cl.find? (fun e => decide (e.1 = op.json_path) && decide (e.2 ≠ i)) with
      | none =>
        exfalso
        obtain ⟨e, he, hep⟩ := hex
        have := List.find?_eq_none.mp hfind e he
        simp only [Bool.and_eq_true, decide_eq_true_eq, not_and] at this
        exact (this (hop ▸ hep)) (by rw [hcl e he hep]; omega)
      | some e =>
        have hpe := List.find?_some hfind
        have hme := List.mem_of_find?_eq_some hfind
        simp only [Bool.and_eq_true, decide_eq_true_eq] at hpe
        have he2 : e.2 = i₀ := hcl e hme (hop ▸ hpe.1)
        obtain ⟨h1, h2, h3⟩ := ih hcl hex
        rw [claimOps_cons_found hfind]
        refine ⟨?_, h2, h3⟩
        have hcount : (op :: rest).countP (fun op => decide (op.json_path = p)) =
            rest.countP (fun op => decide (op.json_path = p)) + 1 := by
          simp [List.countP_cons, hop]
        rw [hcount, List.replicate_succ, conflictsOn_cons_eq hop, h1]
        simp [pathConflict, hop, he2]
    · cases hfind : cl.find? (fun e => decide (e.1 = op.json_path) && decide (e.2 ≠ i)) with
      | some e =>
        obtain ⟨h1, h2, h3⟩ := ih hcl hex
        rw [claimOps_cons_found hfind]
        refine ⟨?_, h2, h3⟩
        rw [conflictsOn_cons_ne rfl hop, h1]
        simp [List.countP_cons, hop]
      | none =>
        have hcl' : ∀ e ∈ cl ++ [(op.json_path, i)], e.1 = p → e.2 = i₀ := by
          intro e he h
          rcases List.mem_append.mp he with hm | hm
          · exact hcl e hm h
          · simp only [List.mem_singleton] at hm
            subst hm
            exact absurd h hop
        have hex' : ∃ e ∈ cl ++ [(op.json_path, i)], e.1 = p := by
          obtain ⟨e, he, hep⟩ := hex
          exact ⟨e, List.mem_append_left _ he, hep⟩
        obtain ⟨h1, h2, h3⟩ := ih hcl' hex'
        rw [claimOps_cons_none hfind]
        refine ⟨?_, h2, h3⟩
        rw [h1]
        simp [List.countP_cons, hop]

theorem mem_enumFrom_snd {l : List α} {n : Nat} {e : Nat × α}
    (h : e ∈ enumFrom n l) : e.2 ∈ l := by
  induction l generalizing n with
  | nil => simp [enumFrom] at h
  | cons y ys ih =>
    simp only [enumFrom, List.mem_cons] at h
    rcases h with h | h
    · subst h
      exact List.mem_cons_self _ _
    · exact List.mem_cons_of_mem _ (ih h)

theorem conflictsOn_append (p : DocPath) (a b : List FixConflict) :
    conflictsOn p (a ++ b) = conflictsOn p a ++ conflictsOn p b :=
  List.filter_append _ _

theorem detectConflictsGo_append (a b : List (Nat × Fix)) (cl : List (DocPath × Nat)) :
    detectConflictsGo (a ++ b) cl =
      detectConflictsGo a cl ++ detectConflictsGo b (claimedAfter a cl) := by
  induction a generalizing cl with
  | nil => rfl
  | cons e rest ih =>
    obtain ⟨i, fx⟩ := e
    show (claimOps i fx.operations cl).1 ++
        detectConflictsGo (rest ++ b) (claimOps i fx.operations cl).2 = _
    rw [ih]
    simp [detectConflictsGo, claimedAfter, List.append_assoc]

theorem go_pre {p : DocPath} {l : List (Nat × Fix)} {cl : List (DocPath × Nat)}
    (hl : ∀ e ∈ l, countOpsOn (Prod.snd e) p = 0)
    (hcl : ∀ e ∈ cl, e.1 ≠ p) :
    conflictsOn p (detectConflictsGo l cl) = [] ∧
      ∀ e ∈ claimedAfter l cl, e.1 ≠ p := by
  induction l generalizing cl with
  | nil => exact ⟨rfl, hcl⟩
  | cons e rest ih =>
    obtain ⟨i, fx⟩ := e
    have h0 : fx.operations.countP (fun op => decide (op.json_path = p)) = 0 :=
      hl (i, fx) (List.mem_cons_self _ _)
    have hops : ∀ op ∈ fx.operations, op.json_path ≠ p := by
      intro op hm hcontra
      have := List.countP_eq_zero.mp h0 op hm
      simp [hcontra] at this
    obtain ⟨h1, h2⟩ := @claimOps_pre _ i _ _ hcl hops
    obtain ⟨h3, h4⟩ := ih (fun e he => hl e (List.mem_cons_of_mem _ he)) h2
    refine ⟨?_, h4⟩
    show conflictsOn p ((claimOps i fx.operations cl).1 ++
      detectConflictsGo rest (claimOps i fx.operations cl).2) = []
    rw [conflictsOn_append, h1, h3]
    rfl

theorem go_post {p : DocPath} {i₀ : Nat} {l : List (Nat × Fix)} {cl : List (DocPath × Nat)}
    (hcl : ∀ e ∈ cl, e.1 = p → e.2 = i₀)
    (hex : ∃ e ∈ cl, e.1 = p)
    (hl : ∀ e ∈ l, Prod.fst e ≠ i₀) :
    conflictsOn p (detectConflictsGo l cl) =
      l.flatMap (fun e =>
        if e.1 = i₀ then []
        else List.replicate (countOpsOn e.2 p) (pathConflict i₀ e.1 p)) := by
  induction l generalizing cl with
  | nil => rfl
  | cons e rest ih =>
    obtain ⟨i, fx⟩ := e
    have hne : i ≠ i₀ := hl (i, fx) (List.mem_cons_self _ _)
    obtain ⟨h1, h2, h3⟩ := claimOps_later hcl hex hne
    show conflictsOn p ((claimOps i fx.operations cl).1 ++
      detectConflictsGo rest (claimOps i fx.operations cl).2) = _
    rw [conflictsOn_append, h1, ih h2 h3 (fun e he => hl e (List.mem_cons_of_mem _ he))]
    simp [List.flatMap_cons, hne, countOpsOn]

/-- What `detect_conflicts` reports for a path `p` first claimed by `f₀`:
one conflict per operation on `p` from each fix after `f₀`, each pairing
`f₀` (as `fix_a`) with that fix (as `fix_b`). -/
theorem detect_conflicts_split (t : List Fix) (f₀ : Fix) (d : List Fix) (p : DocPath)
    (hfst : countOpsOn f₀ p ≠ 0)
    (hpre : ∀ f ∈ t, countOpsOn f p = 0) :
    conflictsOn p (detect_conflicts (t ++ f₀ :: d)) =
      (enumFrom 0 (t ++ f₀ :: d)).flatMap
        (fun e => if e.1 = t.length then []
          else List.replicate (countOpsOn e.2 p) (pathConflict t.length e.1 p)) := by
  have henum : enumFrom 0 (t ++ f₀ :: d) =
      enumFrom 0 t ++ (t.length, f₀) :: enumFrom (t.length + 1) d := by
    rw [enumFrom_append]
    simp [enumFrom]
  show conflictsOn p (detectConflictsGo (enumFrom 0 (t ++ f₀ :: d)) []) = _
  rw [henum, detectConflictsGo_append, conflictsOn_append]
  have hpre' : ∀ e ∈ enumFrom 0 t, countOpsOn (Prod.snd e) p = 0 :=
    fun e he => hpre e.2 (mem_enumFrom_snd he)
  obtain ⟨h1, h2⟩ := @go_pre _ _ [] hpre' (by intro e he; simp at he)
  rw [h1]
  have hcl₁ : ∀ e ∈ claimedAfter (enumFrom 0 t) [], e.1 = p → e.2 = t.length :=
    fun e he hp => absurd hp (h2 e he)
  obtain ⟨h3, h4, h5⟩ := @claimOps_first _ t.length _ _ hcl₁
  have hex : ∃ e ∈ (claimOps t.length f₀.operations (claimedAfter (enumFrom 0 t) [])).2,
      e.1 = p := h5 (Or.inr (Nat.pos_of_ne_zero hfst))
  show [] ++ conflictsOn p (detectConflictsGo ((t.length, f₀) :: enumFrom (t.length + 1) d)
    (claimedAfter (enumFrom 0 t) [])) = _
  show [] ++ conflictsOn p ((claimOps t.length f₀.operations (claimedAfter (enumFrom 0 t) [])).1
    ++ detectConflictsGo (enumFrom (t.length + 1) d)
      (claimOps t.length f₀.operations (claimedAfter (enumFrom 0 t) [])).2) = _
  rw [List.nil_append, conflictsOn_append, h3, List.nil_append]
  have hgt : ∀ e ∈ enumFrom (t.length + 1) d, Prod.fst e ≠ t.length := by
    intro e he
    have := mem_enumFrom_ge he
    omega
  rw [go_post h4 hex hgt]
  rw [List.flatMap_append]
  have hleft : (enumFrom 0 t).flatMap
      (fun e => if e.1 = t.length then []
        else List.replicate (countOpsOn e.2 p) (pathConflict t.length e.1 p)) = [] := by
    rw [@flatMap_congr_of_mem _ _ _ _ (fun _ => []) ?_]
    · simp
    · intro e he
      rw [hpre e.2 (mem_enumFrom_snd he)]
      simp
  rw [hleft, List.nil_append, List.flatMap_cons]
  simp

/-! ### Apply-loop lemmas -/

theorem get?_mem_enumFrom {l : List α} {j : Nat} {x : α} (n : Nat)
    (h : l.get? j = some x) : (n + j, x) ∈ enumFrom n l := by
  induction l generalizing j n with
  | nil => simp at h
  | cons y ys ih =>
    cases j with
    | zero =>
      simp only [List.get?] at h
      injection h with h
      subst h
      simp [enumFrom]
    | succ j =>
      simp only [List.get?] at h
      have := ih (n + 1) h
      rw [show n + (j + 1) = n + 1 + j by omega]
      exact List.mem_cons_of_mem _ this

theorem applyFixesGo_cons_gate {ids : List Nat} {so : Bool} {rf : List String}
    {i : Nat} {fx : Fix} {rest : List (Nat × Fix)} {doc : Json} {r : String}
    (h : gateReason ids so rf i fx = some r) :
    applyFixesGo ids so rf ((i, fx) :: rest) doc =
      ⟨⟨(applyFixesGo ids so rf rest doc).result.applied,
        (i, r) :: (applyFixesGo ids so rf rest doc).result.skipped,
        (applyFixesGo ids so rf rest doc).result.conflicts⟩,
       (applyFixesGo ids so rf rest doc).doc,
       (applyFixesGo ids so rf rest doc).escaped⟩ := by
  simp only [gateReason] at h
  split at h
  · injection h with h
    subst h
    rename_i h1
    simp only [applyFixesGo, if_pos h1]
  · split at h
    · injection h with h
      subst h
      rename_i h1 h2
      simp only [applyFixesGo, if_neg h1, if_pos h2]
    · split at h
      · injection h with h
        subst h
        rename_i h1 h2 h3
        simp only [applyFixesGo, if_neg h1, if_neg h2, if_pos h3]
      · exact absurd h (by simp)

theorem gateReason_none_parts {ids : List Nat} {so : Bool} {rf : List String}
    {i : Nat} {fx : Fix} (h : gateReason ids so rf i fx = none) :
    ¬(rf ≠ [] ∧ ¬ rf.contains fx.rule_name) ∧ ¬(so ∧ fx.is_safe = false) ∧
      ¬(ids.contains i = true) := by
  simp only [gateReason] at h
  split at h
  · exact absurd h (by simp)
  · split at h
    · exact absurd h (by simp)
    · split at h
      · exact absurd h (by simp)
      · rename_i h1 h2 h3
        exact ⟨h1, h2, h3⟩

theorem applyFixesGo_cons_exec {ids : List Nat} {so : Bool} {rf : List String}
    {i : Nat} {fx : Fix} {rest : List (Nat × Fix)} {doc : Json}
    (h : gateReason ids so rf i fx = none) :
    applyFixesGo ids so rf ((i, fx) :: rest) doc =
      match apply_single_fix doc fx.operations with
      | (doc', none) =>
        ⟨⟨i :: (applyFixesGo ids so rf rest doc').result.applied,
          (applyFixesGo ids so rf rest doc').result.skipped,
          (applyFixesGo ids so rf rest doc').result.conflicts⟩,
         (applyFixesGo ids so rf rest doc').doc,
         (applyFixesGo ids so rf rest doc').escaped⟩
      | (doc', some e) =>
        if e.caught then
          ⟨⟨(applyFixesGo ids so rf rest doc').result.applied,
            (i, "error: " ++ e.message) :: (applyFixesGo ids so rf rest doc').result.skipped,
            (applyFixesGo ids so rf rest doc').result.conflicts⟩,
           (applyFixesGo ids so rf rest doc').doc,
           (applyFixesGo ids so rf rest doc').escaped⟩
        else ⟨{}, doc', some e⟩ := by
  obtain ⟨h1, h2, h3⟩ := gateReason_none_parts h
  simp only [applyFixesGo, if_neg h1, if_neg h2, if_neg h3]

theorem dryRunGo_cons_gate {ids : List Nat} {so : Bool} {rf : List String}
    {i : Nat} {fx : Fix} {rest : List (Nat × Fix)} {r : String}
    (h : gateReason ids so rf i fx = some r) :
    dryRunGo ids so rf ((i, fx) :: rest) =
      ⟨(dryRunGo ids so rf rest).applied,
       (i, r) :: (dryRunGo ids so rf rest).skipped,
       (dryRunGo ids so rf rest).conflicts⟩ := by
  simp only [gateReason] at h
  split at h
  · injection h with h
    subst h
    rename_i h1
    simp only [dryRunGo, if_pos h1]
  · split at h
    · injection h with h
      subst h
      rename_i h1 h2
      simp only [dryRunGo, if_neg h1, if_pos h2]
    · split at h
      · injection h with h
        subst h
        rename_i h1 h2 h3
        simp only [dryRunGo, if_neg h1, if_neg h2, if_pos h3]
      · exact absurd h (by simp)

theorem dryRunGo_cons_exec {ids : List Nat} {so : Bool} {rf : List String}
    {i : Nat} {fx : Fix} {rest : List (Nat × Fix)}
    (h : gateReason ids so rf i fx = none) :
    dryRunGo ids so rf ((i, fx) :: rest) =
      ⟨i :: (dryRunGo ids so rf rest).applied,
       (dryRunGo ids so rf rest).skipped,
       (dryRunGo ids so rf rest).conflicts⟩ := by
  obtain ⟨h1, h2, h3⟩ := gateReason_none_parts h
  simp only [dryRunGo, if_neg h1, if_neg h2, if_neg h3]

theorem go_skipped_gate {ids : List Nat} {so : Bool} {rf : List String}
    {l : List (Nat × Fix)} {doc : Json} {i : Nat} {fx : Fix} {r : String}
    (hesc : (applyFixesGo ids so rf l doc).escaped = none)
    (hm : (i, fx) ∈ l) (hg : gateReason ids so rf i fx = some r) :
    (i, r) ∈ (applyFixesGo ids so rf l doc).result.skipped := by
  induction l generalizing doc with
  | nil => simp at hm
  | cons e rest ih =>
    obtain ⟨j, fy⟩ := e
    rcases List.mem_cons.mp hm with heq | hm'
    · cases heq
      rw [applyFixesGo_cons_gate hg]
      exact List.mem_cons_self _ _
    · cases hgy : gateReason ids so rf j fy with
      | some r' =>
        rw [applyFixesGo_cons_gate hgy] at hesc ⊢
        exact List.mem_cons_of_mem _ (ih hesc hm')
      | none =>
        rw [applyFixesGo_cons_exec hgy] at hesc ⊢
        cases hx : apply_single_fix doc fy.operations with
        | mk doc' me =>
          cases me with
          | none =>
            simp only [hx] at hesc ⊢
            exact ih hesc hm'
          | some e =>
            by_cases hc : e.caught
            · simp only [hx, if_pos hc] at hesc ⊢
              exact List.mem_cons_of_mem _ (ih hesc hm')
            · simp only [hx, if_neg hc] at hesc
              simp at hesc

theorem go_not_applied {ids : List Nat} {so : Bool} {rf : List String}
    {l : List (Nat × Fix)} {doc : Json} {i : Nat}
    (h : i ∈ (applyFixesGo ids so rf l doc).result.applied) :
    ∃ fx, (i, fx) ∈ l ∧ gateReason ids so rf i fx = none := by
  induction l generalizing doc with
  | nil => simp [applyFixesGo] at h
  | cons e rest ih =>
    obtain ⟨j, fy⟩ := e
    cases hgy : gateReason ids so rf j fy with
    | some r' =>
      rw [applyFixesGo_cons_gate hgy] at h
      obtain ⟨fx, hm, hgz⟩ := ih h
      exact ⟨fx, List.mem_cons_of_mem _ hm, hgz⟩
    | none =>
      rw [applyFixesGo_cons_exec hgy] at h
      cases hx : apply_single_fix doc fy.operations with
      | mk doc' me =>
        cases me with
        | none =>
          simp only [hx] at h
          rcases List.mem_cons.mp h with heq | h'
          · subst heq
            exact ⟨fy, List.mem_cons_self _ _, hgy⟩
          · obtain ⟨fx, hm, hgz⟩ := ih h'
            exact ⟨fx, List.mem_cons_of_mem _ hm, hgz⟩
        | some e =>
          by_cases hc : e.caught
          · simp only [hx, if_pos hc] at h
            obtain ⟨fx, hm, hgz⟩ := ih h
            exact ⟨fx, List.mem_cons_of_mem _ hm, hgz⟩
          · simp only [hx, if_neg hc] at h
            simp at h

theorem dryRunGo_eq_applyGo {ids : List Nat} {so : Bool} {rf : List String}
    {l : List (Nat × Fix)} {doc : Json}
    (hesc : (applyFixesGo ids so rf l doc).escaped = none)
    (hskip : ∀ (i : Nat) (m : String),
      (i, "error: " ++ m) ∉ (applyFixesGo ids so rf l doc).result.skipped) :
    dryRunGo ids so rf l = (applyFixesGo ids so rf l doc).result := by
  induction l generalizing doc with
  | nil => rfl
  | cons e rest ih =>
    obtain ⟨j, fy⟩ := e
    cases hgy : gateReason ids so rf j fy with
    | some r' =>
      rw [applyFixesGo_cons_gate hgy] at hesc hskip ⊢
      rw [dryRunGo_cons_gate hgy,
        ih hesc (fun i m hm => hskip i m (List.mem_cons_of_mem _ hm))]
    | none =>
      rw [applyFixesGo_cons_exec hgy] at hesc hskip ⊢
      rw [dryRunGo_cons_exec hgy]
      cases hx : apply_single_fix doc fy.operations with
      | mk doc' me =>
        cases me with
        | none =>
          simp only [hx] at hesc hskip ⊢
          rw [ih hesc (fun i m hm => hskip i m hm)]
        | some e =>
          by_cases hc : e.caught
          · simp only [hx, if_pos hc] at hskip
            exact absurd (List.mem_cons_self _ _) (hskip j e.message)
          · simp only [hx, if_neg hc] at hesc
            simp at hesc

/-! ### Frame lemmas: a write at a path leaves prefix-incomparable paths alone -/

theorem lookupField_assocSet_self (fields : List (String × Json)) (s : String) (v : Json) :
    lookupField (assocSet fields s v) s = some v := by
  induction fields with
  | nil => simp [assocSet, lookupField]
  | cons e rest ih =>
    obtain ⟨k, w⟩ := e
    by_cases hk : k = s
    · subst hk
      simp [assocSet, lookupField]
    · simp [assocSet, lookupField, hk, ih]

theorem lookupField_assocSet_ne (fields : List (String × Json)) {s s' : String} (v : Json)
    (h : s' ≠ s) : lookupField (assocSet fields s v) s' = lookupField fields s' := by
  induction fields with
  | nil =>
    simp only [assocSet, lookupField]
    rw [if_neg (fun hh => h hh.symm)]
  | cons e rest ih =>
    obtain ⟨k, w⟩ := e
    by_cases hk : k = s
    · subst hk
      simp only [assocSet, if_pos rfl, lookupField]
      rw [if_neg (fun hh => h hh.symm), if_neg (fun hh => h hh.symm)]
    · simp only [assocSet, if_neg hk, lookupField]
      by_cases hks : k = s'
      · simp [hks]
      · simp [hks, ih]

theorem getValue_obj_assocSet_other {fields : List (String × Json)} {s : String} {x : Json}
    {key : JKey} {q : DocPath} (h : key ≠ JKey.k s) :
    getValue (.obj (assocSet fields s x)) (key :: q) = getValue (.obj fields) (key :: q) := by
  cases key with
  | k s' =>
    have hs : s' ≠ s := fun hh => h (by rw [hh])
    simp only [getValue, lookupField_assocSet_ne _ _ hs]
  | i n => simp [getValue]

theorem getValue_arr_set_other {items : List Json} {n : Nat} {x : Json}
    {key : JKey} {q : DocPath} (h : key ≠ JKey.i n) :
    getValue (.arr (items.set n x)) (key :: q) = getValue (.arr items) (key :: q) := by
  cases key with
  | i m =>
    have hm : n ≠ m := fun hh => h (by rw [hh])
    simp only [getValue, List.getElem?_set_ne hm]
  | k s => simp [getValue]

theorem getValue_setValue_frame {p : DocPath} {v : Json} :
    ∀ {doc doc' : Json} {q : DocPath},
    setValue doc p v = .ok doc' → ¬ p <+: q → ¬ q <+: p →
    getValue doc' q = getValue doc q := by
  induction p with
  | nil =>
    intro doc doc' q hset _ _
    simp [setValue] at hset
  | cons key rest ih =>
    intro doc doc' q hset hpq hqp
    cases q with
    | nil => exact absurd List.nil_prefix hqp
    | cons key' q' =>
      by_cases hkk : key' = key
      · subst hkk
        have hpq' : ¬ rest <+: q' := fun h => hpq (List.cons_prefix_cons.mpr ⟨rfl, h⟩)
        have hqp' : ¬ q' <+: rest := fun h => hqp (List.cons_prefix_cons.mpr ⟨rfl, h⟩)
        cases rest with
        | nil => exact absurd List.nil_prefix hpq'
        | cons k2 rest' =>
          cases doc with
          | obj fields =>
            cases key' with
            | k s =>
              cases hlk : lookupField fields s with
              | none => simp [setValue, hlk] at hset
              | some child =>
                simp only [setValue, hlk] at hset
                cases hsv : setValue child (k2 :: rest') v with
                | error e => rw [hsv] at hset; simp [Except.map] at hset
                | ok c =>
                  rw [hsv] at hset
                  simp only [Except.map, Except.ok.injEq] at hset
                  subst hset
                  simp only [getValue, lookupField_assocSet_self, hlk]
                  exact ih hsv hpq' hqp'
            | i n => simp [setValue] at hset
          | arr items =>
            cases key' with
            | i n =>
              cases hget : items[n]? with
              | none => simp [setValue, hget] at hset
              | some child =>
                simp only [setValue, hget] at hset
                cases hsv : setValue child (k2 :: rest') v with
                | error e => rw [hsv] at hset; simp [Except.map] at hset
                | ok c =>
                  rw [hsv] at hset
                  simp only [Except.map, Except.ok.injEq] at hset
                  subst hset
                  have hn : n < items.length := (List.getElem?_eq_some.mp hget).1
                  simp only [getValue, List.getElem?_set_self hn, hget]
                  exact ih hsv hpq' hqp'
            | k s => simp [setValue] at hset
          | null => simp [setValue] at hset
          | bool b => simp [setValue] at hset
          | num m => simp [setValue] at hset
          | str s => simp [setValue] at hset
      · cases doc with
        | obj fields =>
          cases key with
          | k s =>
            cases rest with
            | nil =>
              simp only [setValue, Except.ok.injEq] at hset
              subst hset
              exact getValue_obj_assocSet_other (fun hh => hkk hh)
            | cons k2 rest' =>
              cases hlk : lookupField fields s with
              | none => simp [setValue, hlk] at hset
              | some child =>
                simp only [setValue, hlk] at hset
                cases hsv : setValue child (k2 :: rest') v with
                | error e => rw [hsv] at hset; simp [Except.map] at hset
                | ok c =>
                  rw [hsv] at hset
                  simp only [Except.map, Except.ok.injEq] at hset
                  subst hset
                  exact getValue_obj_assocSet_other (fun hh => hkk hh)
          | i n =>
            cases rest with
            | nil => simp [setValue] at hset
            | cons k2 rest' => simp [setValue] at hset
        | arr items =>
          cases key with
          | i n =>
            cases rest with
            | nil =>
              simp only [setValue] at hset
              by_cases hlen : n < items.length
              · rw [if_pos hlen] at hset
                simp only [Except.ok.injEq] at hset
                subst hset
                exact getValue_arr_set_other (fun hh => hkk hh)
              · rw [if_neg hlen] at hset
                simp at hset
            | cons k2 rest' =>
              cases hget : items[n]? with
              | none => simp [setValue, hget] at hset
              | some child =>
                simp only [setValue, hget] at hset
                cases hsv : setValue child (k2 :: rest') v with
                | error e => rw [hsv] at hset; simp [Except.map] at hset
                | ok c =>
                  rw [hsv] at hset
                  simp only [Except.map, Except.ok.injEq] at hset
                  subst hset
                  exact getValue_arr_set_other (fun hh => hkk hh)
          | k s =>
            cases rest with
            | nil => simp [setValue] at hset
            | cons k2 rest' => simp [setValue] at hset
        | null =>
          cases rest with
          | nil => simp [setValue] at hset
          | cons k2 rest' => simp [setValue] at hset
        | bool b =>
          cases rest with
          | nil => simp [setValue] at hset
          | cons k2 rest' => simp [setValue] at hset
        | num m =>
          cases rest with
          | nil => simp [setValue] at hset
          | cons k2 rest' => simp [setValue] at hset
        | str s =>
          cases rest with
          | nil => simp [setValue] at hset
          | cons k2 rest' => simp [setValue] at hset

theorem getValue_stringReplaceAt_frame {doc : Json} {p : DocPath} {old new : String}
    {b : Bool} {doc' : Json} {q : DocPath}
    (hsr : stringReplaceAt doc p old new = .ok (b, doc'))
    (hpq : ¬ p <+: q) (hqp : ¬ q <+: p) :
    getValue doc' q = getValue doc q := by
  cases hget : getValue doc p with
  | error e =>
    unfold stringReplaceAt at hsr
    rw [hget] at hsr
    exact absurd hsr (by simp)
  | ok v =>
    cases v with
    | str s =>
      unfold stringReplaceAt at hsr
      simp only [hget] at hsr
      by_cases hin : old.data <:+: s.data
      · rw [if_pos hin] at hsr
        cases hsv : setValue doc p (.str (s.replace old new)) with
        | error e => rw [hsv] at hsr; simp [Except.map] at hsr
        | ok d2 =>
          rw [hsv] at hsr
          simp only [Except.map, Except.ok.injEq, Prod.mk.injEq] at hsr
          obtain ⟨hb, hd⟩ := hsr
          subst hd
          exact getValue_setValue_frame hsv hpq hqp
      · rw [if_neg hin] at hsr
        simp only [Except.ok.injEq, Prod.mk.injEq] at hsr
        obtain ⟨hb, hd⟩ := hsr
        subst hd
        rfl
    | null =>
      unfold stringReplaceAt at hsr
      simp only [hget, Except.ok.injEq, Prod.mk.injEq] at hsr
      obtain ⟨hb, hd⟩ := hsr
      subst hd
      rfl
    | bool b2 =>
      unfold stringReplaceAt at hsr
      simp only [hget, Except.ok.injEq, Prod.mk.injEq] at hsr
      obtain ⟨hb, hd⟩ := hsr
      subst hd
      rfl
    | num m =>
      unfold stringReplaceAt at hsr
      simp only [hget, Except.ok.injEq, Prod.mk.injEq] at hsr
      obtain ⟨hb, hd⟩ := hsr
      subst hd
      rfl
    | arr items =>
      unfold stringReplaceAt at hsr
      simp only [hget, Except.ok.injEq, Prod.mk.injEq] at hsr
      obtain ⟨hb, hd⟩ := hsr
      subst hd
      rfl
    | obj fields =>
      unfold stringReplaceAt at hsr
      simp only [hget, Except.ok.injEq, Prod.mk.injEq] at hsr
      obtain ⟨hb, hd⟩ := hsr
      subst hd
      rfl

theorem getValue_applyOperation_frame {doc doc' : Json} {op : FixOperation} {q : DocPath}
    (hap : applyOperation doc op = .ok doc')
    (hpq : ¬ op.json_path <+: q) (hqp : ¬ q <+: op.json_path) :
    getValue doc' q = getValue doc q := by
  unfold applyOperation at hap
  cases hop : op.operation with
  | set_value =>
    simp only [hop] at hap
    exact getValue_setValue_frame hap hpq hqp
  | string_replace =>
    simp only [hop] at hap
    cases hsr : stringReplaceAt doc op.json_path op.old_substring op.new_substring with
    | error e => rw [hsr] at hap; simp [Except.map] at hap
    | ok bd =>
      rw [hsr] at hap
      simp only [Except.map, Except.ok.injEq] at hap
      obtain ⟨b2, d2⟩ := bd
      subst hap
      exact getValue_stringReplaceAt_frame hsr hpq hqp

theorem getValue_applySingleFix_frame {ops : List FixOperation} {q : DocPath}
    (hops : ∀ op ∈ ops, ¬ op.json_path <+: q ∧ ¬ q <+: op.json_path) :
    ∀ {doc : Json}, getValue (apply_single_fix doc ops).1 q = getValue doc q := by
  induction ops with
  | nil => intro doc; rfl
  | cons op rest ih =>
    intro doc
    obtain ⟨hpq, hqp⟩ := hops op (List.mem_cons_self _ _)
    cases hap : applyOperation doc op with
    | ok doc' =>
      simp only [apply_single_fix, hap]
      rw [ih (fun o ho => hops o (List.mem_cons_of_mem _ ho))]
      exact getValue_applyOperation_frame hap hpq hqp
    | error e =>
      simp only [apply_single_fix, hap]

theorem getValue_applyFixesGo_frame {ids : List Nat} {rf : List String}
    {l : List (Nat × Fix)} {q : DocPath}
    (h : ∀ e ∈ l, (Prod.snd e).is_safe = true →
      ∀ op ∈ (Prod.snd e).operations, ¬ op.json_path <+: q ∧ ¬ q <+: op.json_path) :
    ∀ {doc : Json}, getValue (applyFixesGo ids true rf l doc).doc q = getValue doc q := by
  induction l with
  | nil => intro doc; rfl
  | cons e rest ih =>
    obtain ⟨j, fy⟩ := e
    intro doc
    have hrest := fun e he => h e (List.mem_cons_of_mem _ he)
    cases hgy : gateReason ids true rf j fy with
    | some r' =>
      rw [applyFixesGo_cons_gate hgy]
      exact ih hrest
    | none =>
      have hsafe : fy.is_safe = true := by
        obtain ⟨_, h2, _⟩ := gateReason_none_parts hgy
        by_contra hc
        exact h2 ⟨rfl, by simpa using hc⟩
      have hops := h (j, fy) (List.mem_cons_self _ _) hsafe
      rw [applyFixesGo_cons_exec hgy]
      cases hx : apply_single_fix doc fy.operations with
      | mk doc' me =>
        have hdoc' : getValue doc' q = getValue doc q := by
          have := @getValue_applySingleFix_frame _ _ hops doc
          rw [hx] at this
          exact this
        cases me with
        | none =>
          simp only [hx]
          rw [ih hrest, hdoc']
        | some e2 =>
          by_cases hc : e2.caught
          · simp only [hx, if_pos hc]
            rw [ih hrest, hdoc']
          · simp only [hx, if_neg hc]
            exact hdoc'

/-! ### Claim theorems: fix engine -/

/-- C3 (amended): two fixes with one operation each on the same path
produce exactly one conflict, earlier fix as `fix_a` and later as
`fix_b`; in general, a path first claimed by `f₀` produces one conflict
per operation on that path from each fix after `f₀` (so a later fix with
k operations on the path yields k conflicts), each pairing `f₀` with
that fix. -/
theorem c3_duplicate_path_conflicts
    (f₁ f₂ : Fix) (op₁ op₂ : FixOperation) (p : DocPath)
    (t : List Fix) (f₀ : Fix) (d : List Fix) (q : DocPath)
    (h₁ : f₁.operations = [op₁]) (h₂ : f₂.operations = [op₂])
    (hp₁ : op₁.json_path = p) (hp₂ : op₂.json_path = p)
    (hfst : countOpsOn f₀ q ≠ 0) (hpre : ∀ f ∈ t, countOpsOn f q = 0) :
    detect_conflicts [f₁, f₂] = [pathConflict 0 1 p] ∧
    conflictsOn q (detect_conflicts (t ++ f₀ :: d)) =
      (enumFrom 0 (t ++ f₀ :: d)).flatMap
        (fun e => if e.1 = t.length then []
          else List.replicate (countOpsOn e.2 q) (pathConflict t.length e.1 q)) := by
  refine ⟨?_, detect_conflicts_split t f₀ d q hfst hpre⟩
  show detectConflictsGo (enumFrom 0 [f₁, f₂]) [] = _
  simp only [enumFrom, detectConflictsGo, h₁, h₂, claimOps, List.find?, pathConflict]
  simp [hp₁, hp₂, pathConflict]

/-- C3 witness: one fix with a single operation on `["a"]` followed by a
fix with two operations there yields two conflicts, both pairing fix 0
with fix 1. -/
theorem c3_duplicate_path_conflicts_witness :
    detect_conflicts
        [⟨"r1", [⟨.set_value, [.k "a"], .num 2, "", ""⟩], true, none⟩,
         ⟨"r2", [⟨.set_value, [.k "a"], .num 3, "", ""⟩], true, none⟩] =
      [pathConflict 0 1 [.k "a"]] ∧
    conflictsOn [.k "a"]
        (detect_conflicts
          ([] ++ (⟨"r1", [⟨.set_value, [.k "a"], .num 2, "", ""⟩], true, none⟩ : Fix) ::
            [⟨"r2", [⟨.set_value, [.k "a"], .num 3, "", ""⟩,
                     ⟨.set_value, [.k "a"], .num 4, "", ""⟩], true, none⟩])) =
      (enumFrom 0
          ([] ++ (⟨"r1", [⟨.set_value, [.k "a"], .num 2, "", ""⟩], true, none⟩ : Fix) ::
            [⟨"r2", [⟨.set_value, [.k "a"], .num 3, "", ""⟩,
                     ⟨.set_value, [.k "a"], .num 4, "", ""⟩], true, none⟩])).flatMap
        (fun e => if e.1 = ([] : List Fix).length then []
          else List.replicate (countOpsOn e.2 [.k "a"])
            (pathConflict ([] : List Fix).length e.1 [.k "a"])) :=
  c3_duplicate_path_conflicts _ _ _ _ [.k "a"] [] _ _ [.k "a"]
    rfl rfl rfl rfl (by decide) (by intro f hf; simp at hf)

/-- C3 counterexample: two distinct fixes claim `["a"]` (one extra
claimant), but the later fix carries two operations on that path, so
`detect_conflicts` returns two conflicts, not one per extra claimant. -/
theorem c3_counterexample :
    detect_conflicts
        [⟨"r1", [⟨.set_value, [.k "a"], .num 2, "", ""⟩], true, none⟩,
         ⟨"r2", [⟨.set_value, [.k "a"], .num 3, "", ""⟩,
                 ⟨.set_value, [.k "a"], .num 4, "", ""⟩], true, none⟩] =
      [pathConflict 0 1 [.k "a"], pathConflict 0 1 [.k "a"]] := by
  rfl

/-- C4 (code_bug): `apply_fixes` catches only `KeyError`/`TypeError`/
`ValueError`; a `SET_VALUE` at an out-of-range list index raises
`IndexError`, which escapes the engine: the batch aborts, the failing
fix is never recorded in `skipped`, and the caller receives no
`FixResult`. -/
theorem c4_index_error_escapes :
    apply_fixes (.obj [("items", .arr [.num 0])])
        [⟨"r", [⟨.set_value, [.k "items", .i 1], .num 5, "", ""⟩], true, none⟩] true [] =
      ⟨⟨[], [], []⟩, .obj [("items", .arr [.num 0])],
        some (.indexError "list assignment index out of range")⟩ := by
  rfl

/-- C5 (amended): when no operation of any surviving fix fails,
`dry_run` returns exactly the partition `apply_fixes` computes; the two
diverge exactly on fixes whose operations raise, which `apply_fixes`
skips with "error: …" while `dry_run` counts them applied. -/
theorem c5_dry_run_matches_apply_without_failures
    (doc : Json) (fixes : List Fix) (so : Bool) (rf : List String)
    (hesc : (apply_fixes doc fixes so rf).escaped = none)
    (hskip : ∀ (i : Nat) (m : String),
      (i, "error: " ++ m) ∉ (apply_fixes doc fixes so rf).result.skipped) :
    dry_run fixes so rf = (apply_fixes doc fixes so rf).result := by
  have hesc' : (applyFixesGo ((detect_conflicts fixes).map (fun c => c.fix_b)) so rf
      (enumFrom 0 fixes) doc).escaped = none := hesc
  have hskip' : ∀ (i : Nat) (m : String),
      (i, "error: " ++ m) ∉ (applyFixesGo ((detect_conflicts fixes).map (fun c => c.fix_b))
        so rf (enumFrom 0 fixes) doc).result.skipped := hskip
  have heq := dryRunGo_eq_applyGo hesc' hskip'
  show ({ dryRunGo ((detect_conflicts fixes).map (fun c => c.fix_b)) so rf
      (enumFrom 0 fixes) with conflicts := detect_conflicts fixes } : FixResult) =
    ({ (applyFixesGo ((detect_conflicts fixes).map (fun c => c.fix_b)) so rf
      (enumFrom 0 fixes) doc).result with conflicts := detect_conflicts fixes } : FixResult)
  rw [heq]

/-- C5 witness: a batch whose single fix succeeds satisfies the
no-failure hypotheses, and dry run and application then agree. -/
theorem c5_dry_run_matches_apply_witness :
    dry_run [⟨"r", [⟨.set_value, [.k "a"], .num 2, "", ""⟩], true, none⟩] true [] =
      (apply_fixes (.obj [("a", .num 1)])
        [⟨"r", [⟨.set_value, [.k "a"], .num 2, "", ""⟩], true, none⟩] true []).result :=
  c5_dry_run_matches_apply_without_failures _ _ _ _ rfl
    (by
      intro i m hm
      have : (apply_fixes (.obj [("a", .num 1)])
          [⟨"r", [⟨.set_value, [.k "a"], .num 2, "", ""⟩], true, none⟩] true
          []).result.skipped = [] := rfl
      rw [this] at hm
      exact List.not_mem_nil _ hm)

/-- C5 counterexample: a fix whose operation raises a caught `KeyError`
is skipped with "error: …" by `apply_fixes` but counted applied by
`dry_run`, so the partitions differ. -/
theorem c5_counterexample :
    (dry_run [⟨"r", [⟨.set_value, [.k "b", .k "c"], .num 3, "", ""⟩], true, none⟩]
        true []).applied = [0] ∧
    (dry_run [⟨"r", [⟨.set_value, [.k "b", .k "c"], .num 3, "", ""⟩], true, none⟩]
        true []).skipped = [] ∧
    (apply_fixes (.obj [("a", .num 1)])
        [⟨"r", [⟨.set_value, [.k "b", .k "c"], .num 3, "", ""⟩], true, none⟩]
        true []).result.applied = [] ∧
    (apply_fixes (.obj [("a", .num 1)])
        [⟨"r", [⟨.set_value, [.k "b", .k "c"], .num 3, "", ""⟩], true, none⟩]
        true []).result.skipped = [(0, "error: 'b'")] :=
  ⟨rfl, rfl, rfl, rfl⟩

/-- C9: fix application is not atomic per fix — when a fix's first
operation succeeds and its second raises, the fix lands in `skipped`
with an "error: …" reason, yet the first operation's write persists in
the document (no rollback). -/
theorem c9_partial_fix_mutation_persists :
    apply_fixes (.obj [("a", .num 1)])
        [⟨"r", [⟨.set_value, [.k "a"], .num 2, "", ""⟩,
                ⟨.set_value, [.k "b", .k "c"], .num 3, "", ""⟩], true, none⟩] true [] =
      ⟨⟨[], [(0, "error: 'b'")], []⟩, .obj [("a", .num 2)], none⟩ := by
  rfl

/-- C6 (amended): under `safe_only=true` (default rule filter), every
unsafe fix is skipped with a reason beginning "unsafe", and — provided
the batch does not abort and every operation path of every safe fix is
prefix-incomparable with `q` — the document value at `q` is unchanged. -/
theorem c6_safe_only_skips_unsafe
    (doc : Json) (fixes : List Fix) (q : DocPath)
    (hesc : (apply_fixes doc fixes true []).escaped = none)
    (hq : ∀ f ∈ fixes, f.is_safe = true →
      ∀ op ∈ f.operations, ¬ op.json_path <+: q ∧ ¬ q <+: op.json_path) :
    (∀ (i : Nat) (fx : Fix), fixes.get? i = some fx → fx.is_safe = false →
      (i, unsafeSkipReason fx.safety_notes) ∈ (apply_fixes doc fixes true []).result.skipped) ∧
    getValue (apply_fixes doc fixes true []).doc q = getValue doc q := by
  constructor
  · intro i fx hget hunsafe
    have hmem : (i, fx) ∈ enumFrom 0 fixes := by
      have := get?_mem_enumFrom 0 hget
      simpa using this
    have hgate : gateReason ((detect_conflicts fixes).map (fun c => c.fix_b)) true [] i fx
        = some (unsafeSkipReason fx.safety_notes) := by
      simp [gateReason, hunsafe]
    have hesc' : (applyFixesGo ((detect_conflicts fixes).map (fun c => c.fix_b)) true []
        (enumFrom 0 fixes) doc).escaped = none := hesc
    exact go_skipped_gate hesc' hmem hgate
  · exact getValue_applyFixesGo_frame (fun e he hs => hq e.2 (mem_enumFrom_snd he) hs)

/-- C6 witness: a safe fix writing `["a"]` and an unsafe fix targeting
`["b"]`; the unsafe fix is skipped with an "unsafe" reason and the value
at `["b"]` is untouched. -/
theorem c6_safe_only_skips_unsafe_witness :
    (1, unsafeSkipReason (some "touches refs")) ∈
      (apply_fixes (.obj [("a", .num 1), ("b", .num 2)])
        [⟨"r1", [⟨.set_value, [.k "a"], .num 9, "", ""⟩], true, none⟩,
         ⟨"r2", [⟨.set_value, [.k "b"], .num 9, "", ""⟩], false, some "touches refs"⟩]
        true []).result.skipped ∧
    getValue (apply_fixes (.obj [("a", .num 1), ("b", .num 2)])
        [⟨"r1", [⟨.set_value, [.k "a"], .num 9, "", ""⟩], true, none⟩,
         ⟨"r2", [⟨.set_value, [.k "b"], .num 9, "", ""⟩], false, some "touches refs"⟩]
        true []).doc [.k "b"] =
      getValue (.obj [("a", .num 1), ("b", .num 2)]) [.k "b"] := by
  have hq : ∀ f ∈ [(⟨"r1", [⟨.set_value, [.k "a"], .num 9, "", ""⟩], true, none⟩ : Fix),
      ⟨"r2", [⟨.set_value, [.k "b"], .num 9, "", ""⟩], false, some "touches refs"⟩],
      f.is_safe = true → ∀ op ∈ f.operations,
        ¬ op.json_path <+: [JKey.k "b"] ∧ ¬ [JKey.k "b"] <+: op.json_path := by
    intro f hf hs op hop
    simp only [List.mem_cons, List.mem_singleton] at hf
    rcases hf with hf | hf | hf
    · subst hf
      simp only [List.mem_singleton] at hop
      subst hop
      exact ⟨by decide, by decide⟩
    · subst hf
      simp at hs
    · simp at hf
  have h := c6_safe_only_skips_unsafe (.obj [("a", .num 1), ("b", .num 2)])
    [⟨"r1", [⟨.set_value, [.k "a"], .num 9, "", ""⟩], true, none⟩,
     ⟨"r2", [⟨.set_value, [.k "b"], .num 9, "", ""⟩], false, some "touches refs"⟩]
    [.k "b"] rfl hq
  exact ⟨h.1 1 _ rfl rfl, h.2⟩

/-- C6 counterexample: a safe fix replaces the whole subtree at `["a"]`
while an unsafe fix targets `["a","b"]`; the unsafe fix is duly skipped,
yet the value at its target path (claimed unchanged) is destroyed by the
applied safe fix. -/
theorem c6_counterexample :
    (apply_fixes (.obj [("a", .obj [("b", .num 1)])])
        [⟨"r1", [⟨.set_value, [.k "a"], .num 2, "", ""⟩], true, none⟩,
         ⟨"r2", [⟨.set_value, [.k "a", .k "b"], .num 3, "", ""⟩], false, none⟩]
        true []).result.skipped = [(1, "unsafe fix (use --fix-unsafe)")] ∧
    getValue (.obj [("a", .obj [("b", .num 1)])]) [.k "a", .k "b"] = .ok (.num 1) ∧
    getValue (apply_fixes (.obj [("a", .obj [("b", .num 1)])])
        [⟨"r1", [⟨.set_value, [.k "a"], .num 2, "", ""⟩], true, none⟩,
         ⟨"r2", [⟨.set_value, [.k "a", .k "b"], .num 3, "", ""⟩], false, none⟩]
        true []).doc [.k "a", .k "b"] =
      .error (.keyError "Cannot navigate into scalar") :=
  ⟨rfl, rfl, rfl⟩

/-- C10 (amended): conflicts are computed over the raw fix list, so even
when the first claimant of a path is itself skipped (filtered or
unsafe), a later fix on the same path that passes the filter and safety
checks is still skipped with "conflicts with another fix", and neither
fix is applied. -/
theorem c10_conflicts_precede_filtering
    (doc : Json) (t : List Fix) (f₀ : Fix) (d : List Fix) (p : DocPath)
    (so : Bool) (rf : List String) (j : Nat) (fxj : Fix)
    (hfst : countOpsOn f₀ p ≠ 0)
    (hpre : ∀ f ∈ t, countOpsOn f p = 0)
    (hesc : (apply_fixes doc (t ++ f₀ :: d) so rf).escaped = none)
    (hj : (t ++ f₀ :: d).get? j = some fxj)
    (hjgt : t.length < j)
    (hjops : countOpsOn fxj p ≠ 0)
    (hjpass : ¬(rf ≠ [] ∧ ¬ rf.contains fxj.rule_name) ∧ ¬(so ∧ fxj.is_safe = false))
    (h₀skip : (rf ≠ [] ∧ ¬ rf.contains f₀.rule_name) ∨ (so ∧ f₀.is_safe = false)) :
    (j, "conflicts with another fix") ∈
      (apply_fixes doc (t ++ f₀ :: d) so rf).result.skipped ∧
    t.length ∉ (apply_fixes doc (t ++ f₀ :: d) so rf).result.applied ∧
    j ∉ (apply_fixes doc (t ++ f₀ :: d) so rf).result.applied := by
  have hesc' : (applyFixesGo ((detect_conflicts (t ++ f₀ :: d)).map (fun c => c.fix_b)) so rf
      (enumFrom 0 (t ++ f₀ :: d)) doc).escaped = none := hesc
  have hjmem : (j, fxj) ∈ enumFrom 0 (t ++ f₀ :: d) := by
    have := get?_mem_enumFrom 0 hj
    simpa using this
  have hcmem : pathConflict t.length j p ∈ detect_conflicts (t ++ f₀ :: d) := by
    have hchar := detect_conflicts_split t f₀ d p hfst hpre
    have hmem2 : pathConflict t.length j p ∈
        conflictsOn p (detect_conflicts (t ++ f₀ :: d)) := by
      rw [hchar]
      rw [List.mem_flatMap]
      refine ⟨(j, fxj), hjmem, ?_⟩
      rw [if_neg (by omega)]
      exact List.mem_replicate.mpr ⟨hjops, rfl⟩
    exact (List.mem_filter.mp hmem2).1
  have hjid : ((detect_conflicts (t ++ f₀ :: d)).map (fun c => c.fix_b)).contains j = true := by
    have : j ∈ (detect_conflicts (t ++ f₀ :: d)).map (fun c => c.fix_b) :=
      List.mem_map.mpr ⟨pathConflict t.length j p, hcmem, rfl⟩
    exact List.elem_iff.mpr this
  have hgate : gateReason ((detect_conflicts (t ++ f₀ :: d)).map (fun c => c.fix_b)) so rf j fxj
      = some "conflicts with another fix" := by
    simp only [gateReason, if_neg hjpass.1, if_neg hjpass.2, if_pos hjid]
  refine ⟨go_skipped_gate hesc' hjmem hgate, ?_, ?_⟩
  · intro hap
    obtain ⟨fx, hmm, hnone⟩ := go_not_applied hap
    have hfx : fx = f₀ := by
      have hget := (mem_enumFrom hmm).2
      simp only [Nat.sub_zero] at hget
      rw [List.get?_append_right (Nat.le_refl _)] at hget
      simp at hget
      exact hget.symm
    subst hfx
    obtain ⟨hng1, hng2, _⟩ := gateReason_none_parts hnone
    rcases h₀skip with h | h
    · exact hng1 h
    · exact hng2 h
  · intro hap
    obtain ⟨fx, hmm, hnone⟩ := go_not_applied hap
    have hfx : fx = fxj := by
      have hget := (mem_enumFrom hmm).2
      simp only [Nat.sub_zero] at hget
      rw [hj] at hget
      injection hget with hget
      exact hget.symm
    subst hfx
    obtain ⟨_, _, hng3⟩ := gateReason_none_parts hnone
    exact hng3 hjid

/-- C10 witness: unsafe first claimant, later safe fix on the same path
under `safe_only=true`: the later fix is skipped as a conflict and
neither fix is applied. -/
theorem c10_conflicts_precede_filtering_witness :
    (1, "conflicts with another fix") ∈
      (apply_fixes (.obj [("a", .num 1)])
        ([] ++ (⟨"r1", [⟨.set_value, [.k "a"], .num 2, "", ""⟩], false, none⟩ : Fix) ::
          [⟨"r2", [⟨.set_value, [.k "a"], .num 3, "", ""⟩], true, none⟩])
        true []).result.skipped ∧
    ([] : List Fix).length ∉
      (apply_fixes (.obj [("a", .num 1)])
        ([] ++ (⟨"r1", [⟨.set_value, [.k "a"], .num 2, "", ""⟩], false, none⟩ : Fix) ::
          [⟨"r2", [⟨.set_value, [.k "a"], .num 3, "", ""⟩], true, none⟩])
        true []).result.applied ∧
    1 ∉ (apply_fixes (.obj [("a", .num 1)])
        ([] ++ (⟨"r1", [⟨.set_value, [.k "a"], .num 2, "", ""⟩], false, none⟩ : Fix) ::
          [⟨"r2", [⟨.set_value, [.k "a"], .num 3, "", ""⟩], true, none⟩])
        true []).result.applied :=
  c10_conflicts_precede_filtering (.obj [("a", .num 1)]) []
    ⟨"r1", [⟨.set_value, [.k "a"], .num 2, "", ""⟩], false, none⟩
    [⟨"r2", [⟨.set_value, [.k "a"], .num 3, "", ""⟩], true, none⟩]
    [.k "a"] true [] 1
    ⟨"r2", [⟨.set_value, [.k "a"], .num 3, "", ""⟩], true, none⟩
    (by decide) (by intro f hf; simp at hf) rfl rfl (by decide) (by decide)
    ⟨by simp, by simp⟩ (Or.inr ⟨rfl, rfl⟩)

/-- C10 counterexample: when both fixes claiming the path are unsafe
under `safe_only=true`, the later fix is skipped with an "unsafe"
reason, not "conflicts with another fix". -/
theorem c10_counterexample :
    (apply_fixes (.obj [("a", .num 1)])
        [⟨"r1", [⟨.set_value, [.k "a"], .num 2, "", ""⟩], false, none⟩,
         ⟨"r2", [⟨.set_value, [.k "a"], .num 3, "", ""⟩], false, none⟩]
        true []).result.skipped =
      [(0, "unsafe fix (use --fix-unsafe)"), (1, "unsafe fix (use --fix-unsafe)")] := by
  rfl

/-! ### Claim theorems: reference resolver -/

theorem substr_append_right {needle X Y : String} (h : needle.data <:+: X.data) :
    needle.data <:+: (X ++ Y).data := by
  rw [String.data_append]
  exact h.trans ⟨[], Y.data, by simp⟩

theorem substr_append_left {needle X Y : String} (h : needle.data <:+: Y.data) :
    needle.data <:+: (X ++ Y).data := by
  rw [String.data_append]
  exact h.trans ⟨X.data, [], by simp⟩

theorem navigate_down_single (idx : ComponentIndex) (cur name : String) :
    navigate_down_path idx cur [name] = find_child idx cur name := by
  cases hf : find_child idx cur name with
  | none => simp [navigate_down_path, hf]
  | some found => simp [navigate_down_path, hf]

/-- C8: `getSibling` lookup searches the cursor's parent's children
excluding the cursor itself, so it never resolves to the cursor; when
the cursor is named `x` and no other child of its parent is, the chained
step reports "not found as sibling" and the bare `self.getSibling` check
reports "non-existent sibling" instead of resolving. -/
theorem c8_get_sibling_excludes_self
    (idx : ComponentIndex) (script_path chain cursor x : String) (rest : List ChainStep)
    (hname : dictGet idx.component_tree cursor = some x)
    (hothers : ∀ parent, getTruthy idx.parent_map cursor = some parent →
      ∀ c ∈ (dictGet idx.children_map parent).getD [], c ≠ cursor →
        dictGet idx.component_tree c ≠ some x)
    (howner : get_component_path_from_source idx script_path = cursor) :
    (∀ cur name r, find_sibling idx cur name = some r → r ≠ cur) ∧
    find_sibling idx cursor x = none ∧
    (∃ v, stepMethods idx script_path chain cursor (.getSibling x :: rest) = some v ∧
      "not found as sibling".data <:+: v.data) ∧
    (∃ v, validate_sibling_reference idx script_path x = some v ∧
      "non-existent sibling".data <:+: v.data) := by
  have hnone : find_sibling idx cursor x = none := by
    unfold find_sibling
    cases hgp : getTruthy idx.parent_map cursor with
    | none => rfl
    | some parent =>
      rw [List.find?_eq_none]
      intro c hc
      by_cases hcc : c = cursor
      · simp [hcc]
      · have := hothers parent hgp c hc hcc
        cases hdc : dictGet idx.component_tree c with
        | none => simp [hcc, hdc]
        | some nm =>
          have hne : nm ≠ x := by
            intro hh
            exact this (by rw [hdc, hh])
          simp [hcc, hdc, hne]
  refine ⟨?_, hnone, ?_, ?_⟩
  · intro cur name r h
    unfold find_sibling at h
    cases hgp : getTruthy idx.parent_map cur with
    | none => rw [hgp] at h; exact absurd h (by simp)
    | some parent =>
      rw [hgp] at h
      have hp := List.find?_some h
      intro hrc
      rw [if_pos hrc] at hp
      exact absurd hp (by simp)
  · simp only [stepMethods, hnone]
    refine ⟨_, rfl, ?_⟩
    exact substr_append_right (substr_append_left (by decide))
  · simp only [validate_sibling_reference, howner, hnone]
    refine ⟨_, rfl, ?_⟩
    exact substr_append_right (substr_append_right (substr_append_left (by decide)))

/-- C8 witness: component `A` under `root` with one sibling named `B`;
`getSibling("A")` from `A` does not resolve to `A` itself. -/
theorem c8_get_sibling_excludes_self_witness :
    find_sibling
      ⟨[("root", "root"), ("root.children[0].A", "A"), ("root.children[0].B", "B")],
       [("root.children[0].A", "root"), ("root.children[0].B", "root")],
       [("root", ["root.children[0].A", "root.children[0].B"])]⟩
      "root.children[0].A" "A" = none :=
  (c8_get_sibling_excludes_self
    ⟨[("root", "root"), ("root.children[0].A", "A"), ("root.children[0].B", "B")],
     [("root.children[0].A", "root"), ("root.children[0].B", "root")],
     [("root", ["root.children[0].A", "root.children[0].B"])]⟩
    "root.children[0].A.propConfig.props.text.binding" "self.getSibling('A')"
    "root.children[0].A" "A" []
    rfl
    (by
      intro parent hp c hc hcc
      have hp' : parent = "root" := by
        have : getTruthy
            [("root.children[0].A", "root"), ("root.children[0].B", "root")]
            "root.children[0].A" = some "root" := rfl
        rw [this] at hp
        injection hp with hp
        exact hp.symm
      subst hp'
      have hc' : c ∈ ["root.children[0].A", "root.children[0].B"] := hc
      simp only [List.mem_cons, List.mem_singleton] at hc'
      rcases hc' with hc' | hc' | hc'
      · exact absurd hc' hcc
      · subst hc'
        intro hh
        have : some "B" = some "A" := hh
        simp at this
      · simp at hc'
    )
    rfl).2.1

/-! ### Claim C7: expression-reference classification -/

theorem drop_append_ge {α : Type} (l₁ l₂ : List α) {n : Nat} (h : l₁.length ≤ n) :
    (l₁ ++ l₂).drop n = l₂.drop (n - l₁.length) := by
  induction l₁ generalizing n with
  | nil => simp
  | cons a t ih =>
    cases n with
    | zero => simp at h
    | succ n => simpa using ih (Nat.le_of_succ_le_succ h)

theorem drop_append_le {α : Type} (l₁ l₂ : List α) {n : Nat} (h : n ≤ l₁.length) :
    (l₁ ++ l₂).drop n = l₁.drop n ++ l₂ := by
  induction l₁ generalizing n with
  | nil =>
    have : n = 0 := Nat.le_zero.mp h
    simp [this]
  | cons a t ih =>
    cases n with
    | zero => simp
    | succ n => simpa using ih (Nat.le_of_succ_le_succ h)

theorem takeWhile_append_not {α : Type} {p : α → Bool} {xs ys : List α} {y : α}
    (hxs : ∀ x ∈ xs, p x = true) (hy : p y = false) :
    (xs ++ y :: ys).takeWhile p = xs := by
  induction xs with
  | nil => simp [List.takeWhile_cons, hy]
  | cons a t ih =>
    have ha := hxs a (List.mem_cons_self _ _)
    simp [List.takeWhile_cons, ha, ih (fun x hx => hxs x (List.mem_cons_of_mem _ hx))]

theorem takeWhile_decomp {α : Type} (p : α → Bool) (l : List α) :
    l = l.takeWhile p ++ l.drop (l.takeWhile p).length := by
  induction l with
  | nil => rfl
  | cons a t ih =>
    by_cases ha : p a
    · simp only [List.takeWhile_cons, ha, cond_true, List.length_cons, List.cons_append,
        List.drop_succ_cons]
      exact congrArg (a :: ·) ih
    · simp [List.takeWhile_cons, ha]

theorem findIdx_append_first {α : Type} {p : α → Bool} {xs ys : List α} {y : α}
    (hxs : ∀ x ∈ xs, p x = false) (hy : p y = true) :
    (xs ++ y :: ys).findIdx p = xs.length := by
  induction xs with
  | nil => simp [List.findIdx_cons, hy]
  | cons a t ih =>
    have ha := hxs a (List.mem_cons_self _ _)
    simp [List.findIdx_cons, ha, ih (fun x hx => hxs x (List.mem_cons_of_mem _ hx))]

theorem splitDotSlash_ne_nil (cs : List Char) : splitDotSlash cs ≠ [] := by
  cases cs with
  | nil => simp [splitDotSlash]
  | cons c rest =>
    by_cases hc : c = '.' ∨ c = '/'
    · simp [splitDotSlash, hc]
    · simp only [splitDotSlash, if_neg hc]
      cases h : splitDotSlash rest with
      | nil => simp
      | cons seg segs => simp

theorem splitDotSlash_append_sep {c : Char} (hc : c = '.' ∨ c = '/') (u w : List Char) :
    splitDotSlash (u ++ c :: w) = splitDotSlash u ++ splitDotSlash w := by
  induction u with
  | nil => simp [splitDotSlash, hc]
  | cons a t ih =>
    have hcons : (a :: t) ++ c :: w = a :: (t ++ c :: w) := rfl
    rw [hcons]
    by_cases ha : a = '.' ∨ a = '/'
    · simp only [splitDotSlash, if_pos ha, ih, List.cons_append]
    · simp only [splitDotSlash, if_neg ha, ih]
      cases h : splitDotSlash t with
      | nil => exact absurd h (splitDotSlash_ne_nil t)
      | cons seg segs => simp [h]

theorem matchFromDots_some {cs2 g2 after : List Char}
    (h : matchFromDots cs2 = some (g2, after)) :
    ∃ d cl, 2 ≤ d ∧ (cl = 1 ∨ cl = 2) ∧ g2 ≠ [] ∧ (∀ c ∈ g2, c ≠ '}') ∧
      cs2 = List.replicate d '.' ++ '/' :: g2 ++ List.replicate cl '}' ++ after := by
  simp only [matchFromDots] at h
  split at h
  · exact absurd h (by simp)
  · rename_i hd
    split at h
    · rename_i c rest heq
      split at h
      · rename_i hc
        subst hc
        split at h
        · exact absurd h (by simp)
        · rename_i hg2
          split at h
          · rename_i c2 rest2 heq2
            split at h
            · rename_i hc2
              subst hc2
              split at h
              · rename_i hhead
                injection h with h
                injection h with h1 h2
                subst h1
                subst h2
                refine ⟨(cs2.takeWhile (fun c => c == '.')).length, 2, by omega,
                  Or.inr rfl, hg2, ?_, ?_⟩
                · intro c hc
                  have := List.mem_takeWhile_imp hc
                  simpa using this
                · have hrest2 : rest2 = '}' :: rest2.tail := by
                    cases rest2 with
                    | nil => simp at hhead
                    | cons a t =>
                      simp only [List.head?] at hhead
                      injection hhead with hhead
                      subst hhead
                      rfl
                  have hdots : cs2.takeWhile (fun c => c == '.') =
                      List.replicate (cs2.takeWhile (fun c => c == '.')).length '.' := by
                    rw [List.eq_replicate]
                    refine ⟨rfl, fun b hb => ?_⟩
                    have := List.mem_takeWhile_imp hb
                    simpa using this
                  have e1 := takeWhile_decomp (fun c => c == '.') cs2
                  rw [heq] at e1
                  have e2 := takeWhile_decomp (fun c => c != '}') rest
                  rw [heq2] at e2
                  conv_lhs => rw [e1, hdots, e2, hrest2]
                  simp [List.replicate_succ]
              · rename_i hhead
                injection h with h
                injection h with h1 h2
                subst h1
                subst h2
                refine ⟨(cs2.takeWhile (fun c => c == '.')).length, 1, by omega,
                  Or.inl rfl, hg2, ?_, ?_⟩
                · intro c hc
                  have := List.mem_takeWhile_imp hc
                  simpa using this
                · have hdots : cs2.takeWhile (fun c => c == '.') =
                      List.replicate (cs2.takeWhile (fun c => c == '.')).length '.' := by
                    rw [List.eq_replicate]
                    refine ⟨rfl, fun b hb => ?_⟩
                    have := List.mem_takeWhile_imp hb
                    simpa using this
                  have e1 := takeWhile_decomp (fun c => c == '.') cs2
                  rw [heq] at e1
                  have e2 := takeWhile_decomp (fun c => c != '}') rest
                  rw [heq2] at e2
                  conv_lhs => rw [e1, hdots, e2]
                  simp [List.replicate_succ]
            · exact absurd h (by simp)
          · exact absurd h (by simp)
      · exact absurd h (by simp)
    · exact absurd h (by simp)

theorem matchExprAt_some {cs g2 after : List Char}
    (h : matchExprAt cs = some (g2, after)) :
    ∃ b d cl, (b = 1 ∨ b = 2) ∧ 2 ≤ d ∧ (cl = 1 ∨ cl = 2) ∧ g2 ≠ [] ∧
      (∀ c ∈ g2, c ≠ '}') ∧
      cs = List.replicate b '{' ++ List.replicate d '.' ++ '/' :: g2 ++
        List.replicate cl '}' ++ after := by
  cases cs with
  | nil => exact absurd h (by simp [matchExprAt])
  | cons c cs1 =>
    simp only [matchExprAt] at h
    split at h
    · rename_i hc
      subst hc
      split at h
      · rename_i hhead
        obtain ⟨d, cl, hd, hcl, hg2, hgc, heq⟩ := matchFromDots_some h
        have hcs1 : cs1 = '{' :: cs1.tail := by
          cases cs1 with
          | nil => simp at hhead
          | cons a t =>
            simp only [List.head?] at hhead
            injection hhead with hhead
            subst hhead
            rfl
        refine ⟨2, d, cl, Or.inr rfl, hd, hcl, hg2, hgc, ?_⟩
        rw [show ('{' :: cs1) = '{' :: '{' :: cs1.tail from by rw [← hcs1], heq]
        rfl
      · obtain ⟨d, cl, hd, hcl, hg2, hgc, heq⟩ := matchFromDots_some h
        refine ⟨1, d, cl, Or.inl rfl, hd, hcl, hg2, hgc, ?_⟩
        rw [heq]
        rfl
    · exact absurd h (by simp)

theorem matchExprAt_head_ne {cs : List Char} (h : cs.head? ≠ some '{') :
    matchExprAt cs = none := by
  cases cs with
  | nil => rfl
  | cons c cs1 =>
    have hc : c ≠ '{' := by
      intro hh
      exact h (by simp [List.head?, hh])
    simp [matchExprAt, hc]

theorem matchFromDots_eval {d : Nat} {g tail : List Char} (hd : 2 ≤ d) (hg : g ≠ [])
    (hgc : ∀ c ∈ g, c ≠ '}') :
    ∃ aft, matchFromDots (List.replicate d '.' ++ '/' :: (g ++ '}' :: tail)) =
      some (g, aft) := by
  have htw : (List.replicate d '.' ++ '/' :: (g ++ '}' :: tail)).takeWhile
      (fun c => c == '.') = List.replicate d '.' :=
    takeWhile_append_not (fun x hx => by simp [List.eq_of_mem_replicate hx]) (by decide)
  have hdrop : (List.replicate d '.' ++ '/' :: (g ++ '}' :: tail)).drop d
      = '/' :: (g ++ '}' :: tail) := by
    have := List.drop_left (List.replicate d '.') ('/' :: (g ++ '}' :: tail))
    simpa using this
  have htw2 : (g ++ '}' :: tail).takeWhile (fun c => c != '}') = g :=
    takeWhile_append_not (fun x hx => by simp [hgc x hx]) (by decide)
  have hdrop2 : (g ++ '}' :: tail).drop g.length = '}' :: tail := List.drop_left _ _
  simp only [matchFromDots, htw, List.length_replicate, hdrop, htw2, hdrop2]
  rw [if_neg (by omega : ¬ d < 2)]
  simp only [if_true]
  rw [if_neg hg]
  by_cases ht : tail.head? = some '}'
  · rw [if_pos ht]
    exact ⟨tail.tail, rfl⟩
  · rw [if_neg ht]
    exact ⟨tail, rfl⟩

theorem append_sep_inj {α : Type} {a : α} {P₁ P₂ T₁ T₂ : List α}
    (h : P₁ ++ a :: T₁ = P₂ ++ a :: T₂)
    (h1 : ∀ c ∈ P₁, c ≠ a) (h2 : ∀ c ∈ P₂, c ≠ a) :
    P₁ = P₂ ∧ T₁ = T₂ := by
  induction P₁ generalizing P₂ with
  | nil =>
    cases P₂ with
    | nil => simpa using h
    | cons b s =>
      simp only [List.nil_append, List.cons_append] at h
      injection h with hb ht
      exact absurd hb.symm (h2 b (by simp))
  | cons c t ih =>
    cases P₂ with
    | nil =>
      simp only [List.cons_append, List.nil_append] at h
      injection h with hb ht
      exact absurd hb (h1 c (by simp))
    | cons b s =>
      simp only [List.cons_append] at h
      injection h with hb ht
      subst hb
      obtain ⟨hP, hT⟩ := ih ht (fun x hx => h1 x (by simp [hx]))
        (fun x hx => h2 x (by simp [hx]))
      exact ⟨by rw [hP], hT⟩

theorem exprMatchesF_cons_found {fuel : Nat} {c : Char} {rest g2₀ after₀ : List Char}
    (h : matchExprAt (c :: rest) = some (g2₀, after₀)) :
    exprMatchesF (fuel + 1) (c :: rest) = g2₀ :: exprMatchesF fuel after₀ := by
  simp only [exprMatchesF, h]

theorem exprMatchesF_cons_miss {fuel : Nat} {c : Char} {rest : List Char}
    (h : matchExprAt (c :: rest) = none) :
    exprMatchesF (fuel + 1) (c :: rest) = exprMatchesF fuel rest := by
  simp only [exprMatchesF, h]

theorem matchExprAt_eval {b d : Nat} {g tail : List Char} (hb : b = 1 ∨ b = 2)
    (hd : 2 ≤ d) (hg : g ≠ []) (hgc : ∀ c ∈ g, c ≠ '}') :
    ∃ aft, matchExprAt (List.replicate b '{' ++ List.replicate d '.' ++
      '/' :: (g ++ '}' :: tail)) = some (g, aft) := by
  obtain ⟨aft, hfd⟩ := @matchFromDots_eval d g tail hd hg hgc
  have hdots : List.replicate d '.' = '.' :: List.replicate (d - 1) '.' := by
    rw [show d = (d - 1) + 1 by omega, List.replicate_succ]
    simp
  cases hb with
  | inl hb1 =>
    subst hb1
    refine ⟨aft, ?_⟩
    have hshape : List.replicate 1 '{' ++ List.replicate d '.' ++
        '/' :: (g ++ '}' :: tail) =
        '{' :: (List.replicate d '.' ++ '/' :: (g ++ '}' :: tail)) := by
      simp [List.replicate]
    have hX : ¬ (List.replicate d '.' ++ '/' :: (g ++ '}' :: tail)).head? =
        some '{' := by
      rw [hdots]
      simp
    rw [hshape, matchExprAt, if_pos rfl, if_neg hX]
    exact hfd
  | inr hb2 =>
    subst hb2
    refine ⟨aft, ?_⟩
    have hshape : List.replicate 2 '{' ++ List.replicate d '.' ++
        '/' :: (g ++ '}' :: tail) =
        '{' :: '{' :: (List.replicate d '.' ++ '/' :: (g ++ '}' :: tail)) := by
      simp [List.replicate_succ]
    have hX : ('{' :: (List.replicate d '.' ++ '/' :: (g ++ '}' :: tail))).head? =
        some '{' := by simp
    rw [hshape, matchExprAt, if_pos rfl, if_pos hX]
    exact hfd

theorem matchExprAt_interior {cs g2₀ after₀ g2i aft_i : List Char} {i : Nat}
    (h0 : matchExprAt cs = some (g2₀, after₀))
    (hi : matchExprAt (cs.drop i) = some (g2i, aft_i))
    (hlb : 1 ≤ i) (hub : i + after₀.length < cs.length) :
    ∀ x, x ∈ splitDotSlash g2i → x ∈ splitDotSlash g2₀ := by
  intro x hx
  obtain ⟨b, d, cl, hb, hd, hcl, hg2, hgc, heq⟩ := matchExprAt_some h0
  have hlen : cs.length = b + d + 1 + g2₀.length + cl + after₀.length := by
    rw [heq]
    simp only [List.length_append, List.length_cons, List.length_replicate]
    omega
  have hiub : i < b + d + 1 + g2₀.length + cl := by omega
  by_cases hA : i < b
  · have hb2 : b = 2 := by rcases hb with h | h <;> omega
    have hi1 : i = 1 := by omega
    subst hb2
    subst hi1
    have hclE : List.replicate cl '}' = '}' :: List.replicate (cl - 1) '}' := by
      rw [show cl = (cl - 1) + 1 by omega, List.replicate_succ]
      simp
    have h2r : List.replicate 2 '{' = ['{', '{'] := rfl
    have h1r : List.replicate 1 '{' = ['{'] := rfl
    have hdrop : cs.drop 1 = List.replicate 1 '{' ++ List.replicate d '.' ++
        '/' :: (g2₀ ++ '}' :: (List.replicate (cl - 1) '}' ++ after₀)) := by
      rw [heq, hclE]
      simp [h2r, h1r, List.append_assoc]
    obtain ⟨aft', heval⟩ := @matchExprAt_eval 1 d g2₀
      (List.replicate (cl - 1) '}' ++ after₀) (Or.inl rfl) hd hg2 hgc
    rw [hdrop, heval] at hi
    injection hi with hi
    injection hi with hig hia
    rw [hig]
    exact hx
  · by_cases hB : i < b + d
    · have hre : cs = List.replicate b '{' ++ (List.replicate d '.' ++
          '/' :: (g2₀ ++ (List.replicate cl '}' ++ after₀))) := by
        rw [heq]
        simp [List.append_assoc]
      have hdrop1 : cs.drop i = (List.replicate d '.' ++
          '/' :: (g2₀ ++ (List.replicate cl '}' ++ after₀))).drop (i - b) := by
        rw [hre, drop_append_ge _ _ (by simp; omega)]
        simp
      have hdrop2 : (List.replicate d '.' ++
          '/' :: (g2₀ ++ (List.replicate cl '}' ++ after₀))).drop (i - b) =
          (List.replicate d '.').drop (i - b) ++
          '/' :: (g2₀ ++ (List.replicate cl '}' ++ after₀)) :=
        drop_append_le _ _ (by simp; omega)
      have hhead : (cs.drop i).head? = some '.' := by
        rw [hdrop1, hdrop2, List.drop_replicate]
        rw [show d - (i - b) = (d - (i - b) - 1) + 1 by omega, List.replicate_succ]
        simp
      have hnone := @matchExprAt_head_ne (cs.drop i) (by rw [hhead]; simp)
      rw [hnone] at hi
      exact absurd hi (by simp)
    · by_cases hC : i = b + d
      · have hre : cs = (List.replicate b '{' ++ List.replicate d '.') ++
            '/' :: (g2₀ ++ (List.replicate cl '}' ++ after₀)) := by
          rw [heq]
          simp [List.append_assoc]
        have hklen : (List.replicate b '{' ++ List.replicate d '.').length = b + d := by
          simp
        have hdrop : cs.drop i = '/' :: (g2₀ ++ (List.replicate cl '}' ++ after₀)) := by
          rw [hre, drop_append_ge _ _ (by rw [hklen]; omega), hklen, hC]
          simp
        have hnone := @matchExprAt_head_ne (cs.drop i) (by rw [hdrop]; simp)
        rw [hnone] at hi
        exact absurd hi (by simp)
      · by_cases hD : i < b + d + 1 + g2₀.length
        · obtain ⟨b', d', cl', hb', hd', hcl', hg2i, hgci, heqi⟩ := matchExprAt_some hi
          have hre : cs = (List.replicate b '{' ++ List.replicate d '.' ++ ['/']) ++
              (g2₀ ++ (List.replicate cl '}' ++ after₀)) := by
            rw [heq]
            simp [List.append_assoc]
          have hklen : (List.replicate b '{' ++ List.replicate d '.' ++ ['/']).length =
              b + d + 1 := by
            simp only [List.length_append, List.length_replicate, List.length_cons,
              List.length_nil]
          have hdrop1 : cs.drop i =
              (g2₀ ++ (List.replicate cl '}' ++ after₀)).drop (i - (b + d + 1)) := by
            rw [hre, drop_append_ge _ _ (by rw [hklen]; omega), hklen]
          have hdrop2 : (g2₀ ++ (List.replicate cl '}' ++ after₀)).drop (i - (b + d + 1)) =
              g2₀.drop (i - (b + d + 1)) ++ (List.replicate cl '}' ++ after₀) :=
            drop_append_le _ _ (by omega)
          have hEq : g2₀.drop (i - (b + d + 1)) ++ (List.replicate cl '}' ++ after₀) =
              List.replicate b' '{' ++ List.replicate d' '.' ++ '/' :: g2i ++
              List.replicate cl' '}' ++ aft_i := by
            rw [← hdrop2, ← hdrop1, heqi]
          have hclE : List.replicate cl '}' = '}' :: List.replicate (cl - 1) '}' := by
            rw [show cl = (cl - 1) + 1 by omega, List.replicate_succ]
            simp
          have hclE' : List.replicate cl' '}' = '}' :: List.replicate (cl' - 1) '}' := by
            rw [show cl' = (cl' - 1) + 1 by omega, List.replicate_succ]
            simp
          have hassoc2 : g2₀.drop (i - (b + d + 1)) ++ (List.replicate cl '}' ++ after₀) =
              g2₀.drop (i - (b + d + 1)) ++
              '}' :: (List.replicate (cl - 1) '}' ++ after₀) := by
            rw [hclE]
            simp
          have hassoc : List.replicate b' '{' ++ List.replicate d' '.' ++ '/' :: g2i ++
              List.replicate cl' '}' ++ aft_i =
              (List.replicate b' '{' ++ List.replicate d' '.' ++ '/' :: g2i) ++
              '}' :: (List.replicate (cl' - 1) '}' ++ aft_i) := by
            rw [hclE']
            simp [List.append_assoc]
          rw [hassoc2, hassoc] at hEq
          have h2side : ∀ c ∈ List.replicate b' '{' ++ List.replicate d' '.' ++
              '/' :: g2i, c ≠ '}' := by
            intro c hc
            rcases List.mem_append.mp hc with h | h
            · rcases List.mem_append.mp h with h | h
              · rw [List.eq_of_mem_replicate h]
                decide
              · rw [List.eq_of_mem_replicate h]
                decide
            · rcases List.mem_cons.mp h with h | h
              · rw [h]
                decide
              · exact hgci c h
          obtain ⟨hP, hT⟩ := append_sep_inj hEq
            (fun c hc => hgc c (List.mem_of_mem_drop hc)) h2side
          have hg2decomp : g2₀ = (g2₀.take (i - (b + d + 1)) ++
              List.replicate b' '{' ++ List.replicate d' '.') ++ '/' :: g2i := by
            conv_lhs => rw [← List.take_append_drop (i - (b + d + 1)) g2₀]
            rw [hP]
            simp [List.append_assoc]
          have hsplit := splitDotSlash_append_sep (Or.inr rfl)
            (g2₀.take (i - (b + d + 1)) ++ List.replicate b' '{' ++
              List.replicate d' '.') g2i
          rw [hg2decomp, hsplit]
          exact List.mem_append_right _ hx
        · have hre : cs = (List.replicate b '{' ++ List.replicate d '.' ++
              '/' :: g2₀) ++ (List.replicate cl '}' ++ after₀) := by
            rw [heq]
            simp [List.append_assoc]
          have hklen : (List.replicate b '{' ++ List.replicate d '.' ++
              '/' :: g2₀).length = b + d + 1 + g2₀.length := by
            simp only [List.length_append, List.length_replicate, List.length_cons]
            omega
          have hdrop1 : cs.drop i =
              (List.replicate cl '}' ++ after₀).drop (i - (b + d + 1 + g2₀.length)) := by
            rw [hre, drop_append_ge _ _ (by rw [hklen]; omega), hklen]
          have hdrop2 : (List.replicate cl '}' ++ after₀).drop
              (i - (b + d + 1 + g2₀.length)) =
              (List.replicate cl '}').drop (i - (b + d + 1 + g2₀.length)) ++ after₀ :=
            drop_append_le _ _ (by simp; omega)
          have hhead : (cs.drop i).head? = some '}' := by
            rw [hdrop1, hdrop2, List.drop_replicate]
            rw [show cl - (i - (b + d + 1 + g2₀.length)) =
              (cl - (i - (b + d + 1 + g2₀.length)) - 1) + 1 by omega,
              List.replicate_succ]
            simp
          have hnone := @matchExprAt_head_ne (cs.drop i) (by rw [hhead]; simp)
          rw [hnone] at hi
          exact absurd hi (by simp)

theorem matchExprAt_drop_consumed {cs g2₀ after₀ : List Char}
    (hm : matchExprAt cs = some (g2₀, after₀)) :
    ∃ K, 1 ≤ K ∧ cs.length = K + after₀.length ∧ cs.drop K = after₀ := by
  obtain ⟨b, d, cl, hb, hd, hcl, hg2, hgc, heq⟩ := matchExprAt_some hm
  have hb1 : 1 ≤ b := by rcases hb with h | h <;> omega
  refine ⟨b + d + 1 + g2₀.length + cl, by omega, ?_, ?_⟩
  · rw [heq]
    simp only [List.length_append, List.length_replicate, List.length_cons]
    omega
  · have hre : cs = (List.replicate b '{' ++ List.replicate d '.' ++
        '/' :: g2₀ ++ List.replicate cl '}') ++ after₀ := by
      rw [heq]
    have hklen : (List.replicate b '{' ++ List.replicate d '.' ++
        '/' :: g2₀ ++ List.replicate cl '}').length =
        b + d + 1 + g2₀.length + cl := by
      simp only [List.length_append, List.length_replicate, List.length_cons]
      omega
    rw [hre, drop_append_ge _ _ (by rw [hklen]), hklen]
    simp

theorem exprMatchesF_sound {fuel : Nat} {cs g2 : List Char}
    (h : g2 ∈ exprMatchesF fuel cs) :
    ∃ i aft, matchExprAt (cs.drop i) = some (g2, aft) := by
  induction fuel generalizing cs with
  | zero => simp [exprMatchesF] at h
  | succ fuel ih =>
    cases cs with
    | nil => simp [exprMatchesF] at h
    | cons c rest =>
      cases hm : matchExprAt (c :: rest) with
      | none =>
        rw [exprMatchesF_cons_miss hm] at h
        obtain ⟨i, aft, hia⟩ := ih h
        exact ⟨i + 1, aft, by simpa using hia⟩
      | some pr =>
        obtain ⟨g2₀, after₀⟩ := pr
        rw [exprMatchesF_cons_found hm] at h
        rcases List.mem_cons.mp h with h | h
        · exact ⟨0, after₀, by rw [List.drop_zero, hm, h]⟩
        · obtain ⟨i, aft, hia⟩ := ih h
          obtain ⟨K, hK1, hKlen, hKdrop⟩ := matchExprAt_drop_consumed hm
          refine ⟨K + i, aft, ?_⟩
          have hdi : (c :: rest).drop (K + i) = after₀.drop i := by
            rw [← List.drop_drop, hKdrop]
          rw [hdi]
          exact hia

theorem exprMatchesF_complete {fuel : Nat} {cs : List Char} {i : Nat}
    {g2 aft x : List Char}
    (h : matchExprAt (cs.drop i) = some (g2, aft)) (hx : x ∈ splitDotSlash g2)
    (hfuel : cs.length ≤ fuel) :
    ∃ g2', g2' ∈ exprMatchesF fuel cs ∧ x ∈ splitDotSlash g2' := by
  induction fuel generalizing cs i with
  | zero =>
    have hnil : cs = [] := List.eq_nil_of_length_eq_zero (Nat.le_zero.mp hfuel)
    subst hnil
    rw [List.drop_nil] at h
    exact absurd h (by simp [matchExprAt])
  | succ fuel ih =>
    cases cs with
    | nil =>
      rw [List.drop_nil] at h
      exact absurd h (by simp [matchExprAt])
    | cons c rest =>
      cases hm : matchExprAt (c :: rest) with
      | none =>
        cases i with
        | zero =>
          rw [List.drop_zero, hm] at h
          exact absurd h (by simp)
        | succ i' =>
          rw [exprMatchesF_cons_miss hm]
          have hdi : (c :: rest).drop (i' + 1) = rest.drop i' := by simp
          rw [hdi] at h
          have hflen : rest.length ≤ fuel := by
            simp only [List.length_cons] at hfuel
            omega
          exact ih h hflen
      | some pr =>
        obtain ⟨g2₀, after₀⟩ := pr
        rw [exprMatchesF_cons_found hm]
        obtain ⟨K, hK1, hKlen, hKdrop⟩ := matchExprAt_drop_consumed hm
        by_cases hi0 : i = 0
        · subst hi0
          rw [List.drop_zero, hm] at h
          injection h with h'
          injection h' with hg ha
          refine ⟨g2₀, List.mem_cons_self _ _, ?_⟩
          rw [hg]
          exact hx
        · by_cases hiK : i < K
          · have hub : i + after₀.length < (c :: rest).length := by omega
            have hxt := matchExprAt_interior hm h (by omega) hub x hx
            exact ⟨g2₀, List.mem_cons_self _ _, hxt⟩
          · have hdi : (c :: rest).drop i = after₀.drop (i - K) := by
              rw [← hKdrop, List.drop_drop]
              congr 1
              omega
            rw [hdi] at h
            have hflen : after₀.length ≤ fuel := by
              simp only [List.length_cons] at hKlen hfuel
              omega
            obtain ⟨g2', hmem, hx'⟩ := ih h hflen
            exact ⟨g2', List.mem_cons_of_mem _ hmem, hx'⟩

/-! ### Expression-binding token scan (`visit_expression_binding`) -/

theorem matchBraceTokenAt_some {cs : List Char} {d : Nat} {g2 after : List Char}
    (h : matchBraceTokenAt cs = some (d, g2, after)) :
    2 ≤ d ∧ g2 ≠ [] ∧ (∀ c ∈ g2, c ≠ '}') ∧
      cs = '{' :: (List.replicate d '.' ++ '/' :: (g2 ++ '}' :: after)) := by
  cases cs with
  | nil => exact absurd h (by simp [matchBraceTokenAt])
  | cons c cs1 =>
    simp only [matchBraceTokenAt] at h
    split at h
    · rename_i hc
      subst hc
      split at h
      · exact absurd h (by simp)
      · rename_i hd2
        split at h
        · rename_i c2 rest heq
          split at h
          · rename_i hc2
            subst hc2
            split at h
            · exact absurd h (by simp)
            · rename_i hg2
              split at h
              · rename_i c3 rest2 heq2
                split at h
                · rename_i hc3
                  subst hc3
                  injection h with h
                  injection h with h1 h2
                  injection h2 with h2 h3
                  subst h1
                  subst h2
                  subst h3
                  refine ⟨by omega, hg2, ?_, ?_⟩
                  · intro c hcm
                    have := List.mem_takeWhile_imp hcm
                    simpa using this
                  · have hdots : cs1.takeWhile (fun c => c == '.') =
                        List.replicate (cs1.takeWhile (fun c => c == '.')).length '.' := by
                      rw [List.eq_replicate]
                      refine ⟨rfl, fun b hb => ?_⟩
                      have := List.mem_takeWhile_imp hb
                      simpa using this
                    have e1 := takeWhile_decomp (fun c => c == '.') cs1
                    rw [heq] at e1
                    have e2 := takeWhile_decomp (fun c => c != '}') rest
                    rw [heq2] at e2
                    congr 1
                    conv_lhs => rw [e1, hdots, e2]
                · exact absurd h (by simp)
              · exact absurd h (by simp)
          · exact absurd h (by simp)
        · exact absurd h (by simp)
    · exact absurd h (by simp)

theorem matchBraceTokenAt_consumed {cs : List Char} {d : Nat} {g2 after : List Char}
    (h : matchBraceTokenAt cs = some (d, g2, after)) :
    ∃ K, 1 ≤ K ∧ cs.length = K + after.length ∧ cs.drop K = after := by
  obtain ⟨hd2, hg2, hgc, heq⟩ := matchBraceTokenAt_some h
  refine ⟨1 + d + 1 + g2.length + 1, by omega, ?_, ?_⟩
  · rw [heq]
    simp only [List.length_cons, List.length_append, List.length_replicate]
    omega
  · have hre : cs = ('{' :: (List.replicate d '.' ++ '/' :: (g2 ++ ['}']))) ++ after := by
      rw [heq]
      simp
    have hklen : ('{' :: (List.replicate d '.' ++ '/' :: (g2 ++ ['}']))).length =
        1 + d + 1 + g2.length + 1 := by
      simp only [List.length_cons, List.length_append, List.length_replicate,
        List.length_nil]
      omega
    rw [hre, drop_append_ge _ _ (by rw [hklen]), hklen]
    simp

theorem braceTokensF_cons_found {fuel : Nat} {c : Char} {rest : List Char} {d : Nat}
    {g2 after : List Char} (h : matchBraceTokenAt (c :: rest) = some (d, g2, after)) :
    braceTokensF (fuel + 1) (c :: rest) = (d, g2) :: braceTokensF fuel after := by
  simp only [braceTokensF, h]

theorem braceTokensF_cons_miss {fuel : Nat} {c : Char} {rest : List Char}
    (h : matchBraceTokenAt (c :: rest) = none) :
    braceTokensF (fuel + 1) (c :: rest) = braceTokensF fuel rest := by
  simp only [braceTokensF, h]

theorem braceTokensF_sound {fuel : Nat} {cs : List Char} {d : Nat} {g2 : List Char}
    (h : (d, g2) ∈ braceTokensF fuel cs) :
    ∃ i after, matchBraceTokenAt (cs.drop i) = some (d, g2, after) := by
  induction fuel generalizing cs with
  | zero => simp [braceTokensF] at h
  | succ fuel ih =>
    cases cs with
    | nil => simp [braceTokensF] at h
    | cons c rest =>
      cases hm : matchBraceTokenAt (c :: rest) with
      | none =>
        rw [braceTokensF_cons_miss hm] at h
        obtain ⟨i, aft, hia⟩ := ih h
        exact ⟨i + 1, aft, by simpa using hia⟩
      | some tr =>
        obtain ⟨d₀, g2₀, after₀⟩ := tr
        rw [braceTokensF_cons_found hm] at h
        rcases List.mem_cons.mp h with h | h
        · injection h with h1 h2
          exact ⟨0, after₀, by rw [List.drop_zero, hm, h1, h2]⟩
        · obtain ⟨i, aft, hia⟩ := ih h
          obtain ⟨K, hK1, hKlen, hKdrop⟩ := matchBraceTokenAt_consumed hm
          refine ⟨K + i, aft, ?_⟩
          have hdi : (c :: rest).drop (K + i) = after₀.drop i := by
            rw [← List.drop_drop, hKdrop]
          rw [hdi]
          exact hia

/-- C2: every relative reference token validates with `levelsUp = d - 1`
parent steps from the owning component of the referencing value: a
missing parent yields one violation containing "navigates above root", a
failed descent yields one violation containing "references non-existent
component" at the first name with no matching child, and full success
yields no violation.  The property-binding visitor parses its single
`^(\.\.+)/(.+)$` token; the expression visitor scans the expression with
`\x7b(\.\.+)/([^\x7d]+)\x7d` and validates every found token — each of
which the scan guarantees carries at least two dots — through the same
parent walk and descent, with reference type `"expression"`. -/
theorem c2_relative_reference_validation
    (idx : ComponentIndex) (source_path token : String) (d : Nat) (body : String)
    (hparse : parse_relative_token token = some (d, body)) :
    visit_property_binding idx source_path token =
      validate_relative_reference idx source_path (extract_component_reference body)
        (d - 1) token "property binding" ∧
    (∀ cur seg rest, find_child idx cur seg = none →
      navigate_down_path idx cur (seg :: rest) = none) ∧
    (∀ cur seg rest found, find_child idx cur seg = some found →
      navigate_down_path idx cur (seg :: rest) = navigate_down_path idx found rest) ∧
    (walkUp idx (d - 1) (get_component_path_from_source idx source_path) = none →
      ∃ v, visit_property_binding idx source_path token = some v ∧
        "navigates above root".data <:+: v.data) ∧
    (∀ anc, walkUp idx (d - 1) (get_component_path_from_source idx source_path) = some anc →
      resolve_descent idx anc (extract_component_reference body) = none →
      ∃ v, visit_property_binding idx source_path token = some v ∧
        "references non-existent component".data <:+: v.data) ∧
    (∀ anc r, walkUp idx (d - 1) (get_component_path_from_source idx source_path) = some anc →
      resolve_descent idx anc (extract_component_reference body) = some r →
      visit_property_binding idx source_path token = none) ∧
    (∀ expr : String, visit_expression_binding idx source_path expr =
      (braceTokensF expr.data.length expr.data).map (fun t =>
        validate_relative_reference idx source_path
          (extract_component_reference (String.mk t.2)) (t.1 - 1) expr "expression")) ∧
    (∀ (expr : String) (de : Nat) (g2 : List Char),
      (de, g2) ∈ braceTokensF expr.data.length expr.data →
      2 ≤ de ∧ g2 ≠ [] ∧ (∀ c ∈ g2, c ≠ '}') ∧
      ∃ i after, matchBraceTokenAt (expr.data.drop i) = some (de, g2, after)) ∧
    (∀ cr lu fr, walkUp idx lu (get_component_path_from_source idx source_path) = none →
      ∃ v, validate_relative_reference idx source_path cr lu fr "expression" = some v ∧
        "navigates above root".data <:+: v.data) ∧
    (∀ cr lu fr anc,
      walkUp idx lu (get_component_path_from_source idx source_path) = some anc →
      resolve_descent idx anc cr = none →
      ∃ v, validate_relative_reference idx source_path cr lu fr "expression" = some v ∧
        "references non-existent component".data <:+: v.data) ∧
    (∀ cr lu fr anc r,
      walkUp idx lu (get_component_path_from_source idx source_path) = some anc →
      resolve_descent idx anc cr = some r →
      validate_relative_reference idx source_path cr lu fr "expression" = none) := by
  have hv : visit_property_binding idx source_path token =
      validate_relative_reference idx source_path (extract_component_reference body)
        (d - 1) token "property binding" := by
    simp only [visit_property_binding, hparse]
  refine ⟨hv, ?_, ?_, ?_, ?_, ?_, ?_, ?_, ?_, ?_, ?_⟩
  · intro cur seg rest hf
    simp [navigate_down_path, hf]
  · intro cur seg rest found hf
    simp [navigate_down_path, hf]
  · intro hwalk
    rw [hv]
    simp only [validate_relative_reference, hwalk]
    exact ⟨_, rfl, substr_append_left (by decide)⟩
  · intro anc hwalk hres
    rw [hv]
    simp only [validate_relative_reference, hwalk, hres]
    refine ⟨_, rfl, ?_⟩
    exact substr_append_right
      (substr_append_right (substr_append_right (substr_append_left (by decide))))
  · intro anc r hwalk hres
    rw [hv]
    simp only [validate_relative_reference, hwalk, hres]
  · intro expr
    rfl
  · intro expr de g2 hmem
    obtain ⟨i, aft, hia⟩ := braceTokensF_sound hmem
    obtain ⟨hd2, hg2, hgc, _⟩ := matchBraceTokenAt_some hia
    exact ⟨hd2, hg2, hgc, i, aft, hia⟩
  · intro cr lu fr hwalk
    simp only [validate_relative_reference, hwalk]
    exact ⟨_, rfl, substr_append_left (by decide)⟩
  · intro cr lu fr anc hwalk hres
    simp only [validate_relative_reference, hwalk, hres]
    refine ⟨_, rfl, ?_⟩
    exact substr_append_right
      (substr_append_right (substr_append_right (substr_append_left (by decide))))
  · intro cr lu fr anc r hwalk hres
    simp only [validate_relative_reference, hwalk, hres]

/-- C2 witness: `../B.props.text` as a property binding from a binding of
component `A` (depth 1) resolves against sibling `B` with no violation,
and the same reference wrapped as the expression token
`\x7b../B.props.text\x7d` scans to one token that also validates with no
violation. -/
theorem c2_relative_reference_validation_witness :
    visit_property_binding
      ⟨[("root", "root"), ("root.children[0].A", "A"), ("root.children[0].B", "B")],
       [("root.children[0].A", "root"), ("root.children[0].B", "root")],
       [("root", ["root.children[0].A", "root.children[0].B"])]⟩
      "root.children[0].A.propConfig.props.text.binding" "../B.props.text" = none ∧
    visit_expression_binding
      ⟨[("root", "root"), ("root.children[0].A", "A"), ("root.children[0].B", "B")],
       [("root.children[0].A", "root"), ("root.children[0].B", "root")],
       [("root", ["root.children[0].A", "root.children[0].B"])]⟩
      "root.children[0].A.propConfig.props.text.binding" "\x7b../B.props.text\x7d" =
      [none] := by
  have h := c2_relative_reference_validation
    ⟨[("root", "root"), ("root.children[0].A", "A"), ("root.children[0].B", "B")],
     [("root.children[0].A", "root"), ("root.children[0].B", "root")],
     [("root", ["root.children[0].A", "root.children[0].B"])]⟩
    "root.children[0].A.propConfig.props.text.binding" "../B.props.text"
    2 "B.props.text" rfl
  refine ⟨h.2.2.2.2.2.1 "root" "root.children[0].B" (by rfl) (by rfl), ?_⟩
  rw [h.2.2.2.2.2.2.1 "\x7b../B.props.text\x7d"]
  rw [show braceTokensF ("\x7b../B.props.text\x7d" : String).data.length
      ("\x7b../B.props.text\x7d" : String).data = [(2, ("B.props.text" : String).data)]
    from rfl]
  simp only [List.map_cons, List.map_nil]
  rw [h.2.2.2.2.2.2.2.2.2.2
    (extract_component_reference (String.mk ("B.props.text" : String).data)) (2 - 1)
    "\x7b../B.props.text\x7d" "root" "root.children[0].B" (by rfl) (by rfl)]


/-- C7 (amended): `_has_expression_reference` classifies a value as an
expression reference to `component_name` exactly when some position of
the value matches `EXPRESSION_PATTERN` and the name is one of the
dot-or-slash-delimited segments of the raw captured path — the code
splits `group(2)` with `re.split(r'[./]')` and applies no property-suffix
stripping, so a name inside the suffix (the `x` of `Foo.props.x`) does
match, contrary to the spec's stripping description. -/
theorem c7_expression_reference_segments (value component_name : String) :
    has_expression_reference value component_name = true ↔
    ∃ i g2 aft, matchExprAt (value.data.drop i) = some (g2, aft) ∧
      component_name.data ∈ splitDotSlash g2 := by
  constructor
  · intro h
    rw [has_expression_reference, List.any_eq_true] at h
    obtain ⟨g2, hmem, hcon⟩ := h
    obtain ⟨i, aft, hia⟩ := exprMatchesF_sound hmem
    exact ⟨i, g2, aft, hia, by simpa using hcon⟩
  · rintro ⟨i, g2, aft, hia, hmem⟩
    obtain ⟨g2', hmem', hx'⟩ := exprMatchesF_complete hia hmem (Nat.le_refl _)
    rw [has_expression_reference, List.any_eq_true]
    exact ⟨g2', hmem', by simpa using hx'⟩

/-- C7 witness: in `\x7b.../A/Foo\x7d` the name `Foo` is a slash segment
of the captured path `A/Foo`, and the characterization instantiates to
the code's verdict `true` on this input. -/
theorem c7_expression_reference_segments_witness :
    has_expression_reference "\x7b.../A/Foo\x7d" "Foo" = true :=
  (c7_expression_reference_segments "\x7b.../A/Foo\x7d" "Foo").mpr
    ⟨0, "A/Foo".data, [], by rfl, by decide⟩

/-- C7 counterexample: on `\x7b../Foo.props.x\x7d` the code reports a
reference to `x` — it splits the raw captured path `Foo.props.x` on dots
and slashes without stripping `.props.x` — while the spec's
suffix-stripping description admits only `Foo`, so the two classifiers
disagree on this input. -/
theorem c7_counterexample :
    has_expression_reference "\x7b../Foo.props.x\x7d" "x" = true ∧
    spec_expression_reference "\x7b../Foo.props.x\x7d" "x" = false := by
  exact ⟨rfl, rfl⟩

/-! ### Decimal representation: `f"{index}"` segments are digit strings
and distinct indices give distinct segments -/

theorem digitChar_toNat {n : Nat} (h : n < 10) : (Nat.digitChar n).toNat = 48 + n := by
  interval_cases n <;> rfl

theorem toDigitsCore_spec : ∀ (fuel n : Nat) (ds : List Char), 1 ≤ fuel →
    n < 10 ^ fuel →
    ∃ pre, Nat.toDigitsCore 10 fuel n ds = pre ++ ds ∧ pre ≠ [] ∧
      (∀ c ∈ pre, 48 ≤ c.toNat ∧ c.toNat ≤ 57) ∧
      (∀ a : Nat, pre.foldl (fun a c => 10 * a + (c.toNat - 48)) a =
        a * 10 ^ pre.length + n) := by
  intro fuel
  induction fuel with
  | zero =>
    intro n ds h1 h
    omega
  | succ fuel ih =>
    intro n ds h1 h
    by_cases hz : n / 10 = 0
    · refine ⟨[Nat.digitChar (n % 10)], ?_, by simp, ?_, ?_⟩
      · show (if n / 10 = 0 then _ else _) = _
        rw [if_pos hz]
        rfl
      · intro c hc
        rw [List.mem_singleton] at hc
        subst hc
        rw [digitChar_toNat (Nat.mod_lt _ (by omega))]
        omega
      · intro a
        have hn : n % 10 = n := by omega
        simp only [List.foldl_cons, List.foldl_nil, List.length_cons, List.length_nil]
        rw [digitChar_toNat (Nat.mod_lt _ (by omega)), hn]
        ring_nf
        omega
    · have hlt : n / 10 < 10 ^ fuel := by
        rw [Nat.div_lt_iff_lt_mul (by omega : 0 < 10)]
        calc n < 10 ^ (fuel + 1) := h
        _ = 10 ^ fuel * 10 := by rw [Nat.pow_succ]
      have hf1 : 1 ≤ fuel := by
        rcases Nat.eq_zero_or_pos fuel with h0 | h0
        · subst h0
          simp only [Nat.pow_zero] at hlt
          omega
        · exact h0
      obtain ⟨pre', heq', hne', hdig', hval'⟩ :=
        ih (n / 10) (Nat.digitChar (n % 10) :: ds) hf1 hlt
      refine ⟨pre' ++ [Nat.digitChar (n % 10)], ?_, by simp, ?_, ?_⟩
      · show (if n / 10 = 0 then _ else _) = _
        rw [if_neg hz]
        rw [heq']
        simp
      · intro c hc
        rcases List.mem_append.mp hc with h | h
        · exact hdig' c h
        · rw [List.mem_singleton] at h
          subst h
          rw [digitChar_toNat (Nat.mod_lt _ (by omega))]
          omega
      · intro a
        rw [List.foldl_append, hval' a]
        simp only [List.foldl_cons, List.foldl_nil, List.length_append,
          List.length_cons, List.length_nil]
        rw [digitChar_toNat (Nat.mod_lt _ (by omega))]
        have hmod : 48 + n % 10 - 48 = n % 10 := by omega
        rw [hmod, Nat.pow_succ]
        have : 10 * (n / 10) + n % 10 = n := Nat.div_add_mod n 10
        ring_nf
        omega

theorem repr_data_spec (n : Nat) :
    (∀ c ∈ (Nat.repr n).data, 48 ≤ c.toNat ∧ c.toNat ≤ 57) ∧
    ((Nat.repr n).data.foldl (fun a c => 10 * a + (c.toNat - 48)) 0 = n) := by
  have hpow : n < 10 ^ (n + 1) := by
    calc n < 10 ^ n := Nat.lt_pow_self (by omega) n
    _ ≤ 10 ^ (n + 1) := Nat.pow_le_pow_right (by omega) (Nat.le_succ n)
  obtain ⟨pre, heq, hne, hdig, hval⟩ := toDigitsCore_spec (n + 1) n [] (by omega) hpow
  have hdata : (Nat.repr n).data = pre := by
    show Nat.toDigitsCore 10 (n + 1) n [] = pre
    rw [heq]
    simp
  rw [hdata]
  refine ⟨hdig, ?_⟩
  rw [hval 0]
  omega

theorem nat_repr_no_sep (n : Nat) :
    ∀ c ∈ (Nat.repr n).data, c ≠ ']' ∧ c ≠ '.' ∧ c ≠ '[' := by
  intro c hc
  have hb := (repr_data_spec n).1 c hc
  refine ⟨?_, ?_, ?_⟩ <;> intro h <;> subst h <;> revert hb <;> decide

theorem nat_repr_inj {m n : Nat} (h : (Nat.repr m).data = (Nat.repr n).data) :
    m = n := by
  have hm := (repr_data_spec m).2
  have hn := (repr_data_spec n).2
  rw [h] at hm
  rw [hm] at hn
  exact hn

/-! ### Model-path string disambiguation -/

/-- Two separator-free segments followed by separator-headed (or empty)
tails concatenate to the same string only if they agree. -/
theorem seg_ext_inj : ∀ (k1 k2 t1 t2 : List Char),
    k1 ++ t1 = k2 ++ t2 →
    (∀ c ∈ k1, ¬(c = '.' ∨ c = '[')) → (∀ c ∈ k2, ¬(c = '.' ∨ c = '[')) →
    (t1 = [] ∨ t1.head? = some '.' ∨ t1.head? = some '[') →
    (t2 = [] ∨ t2.head? = some '.' ∨ t2.head? = some '[') →
    k1 = k2 ∧ t1 = t2 := by
  intro k1
  induction k1 with
  | nil =>
    intro k2 t1 t2 h hc1 hc2 ht1 ht2
    cases k2 with
    | nil => exact ⟨rfl, by simpa using h⟩
    | cons b k2' =>
      simp only [List.nil_append, List.cons_append] at h
      rcases ht1 with h1 | h1 | h1
      · rw [h1] at h
        exact absurd h (by simp)
      · rw [h] at h1
        simp only [List.head?_cons] at h1
        injection h1 with h1
        exact absurd (Or.inl h1) (hc2 b (by simp))
      · rw [h] at h1
        simp only [List.head?_cons] at h1
        injection h1 with h1
        exact absurd (Or.inr h1) (hc2 b (by simp))
  | cons a k1' ih =>
    intro k2 t1 t2 h hc1 hc2 ht1 ht2
    cases k2 with
    | nil =>
      simp only [List.cons_append, List.nil_append] at h
      rcases ht2 with h2 | h2 | h2
      · rw [h2] at h
        exact absurd h (by simp)
      · rw [← h] at h2
        simp only [List.head?_cons] at h2
        injection h2 with h2
        exact absurd (Or.inl h2) (hc1 a (by simp))
      · rw [← h] at h2
        simp only [List.head?_cons] at h2
        injection h2 with h2
        exact absurd (Or.inr h2) (hc1 a (by simp))
    | cons b k2' =>
      simp only [List.cons_append] at h
      injection h with hab h
      subst hab
      obtain ⟨hk, ht⟩ := ih k2' t1 t2 h (fun c hc => hc1 c (by simp [hc]))
        (fun c hc => hc2 c (by simp [hc])) ht1 ht2
      exact ⟨by rw [hk], ht⟩

/-! ### Last-write-wins dictionary lookup -/

theorem dictGet_cons {α : Type} (k' : String) (v' : α) (rest : List (String × α))
    (k : String) :
    dictGet ((k', v') :: rest) k =
      match dictGet rest k with
      | some w => some w
      | none => if k' = k then some v' else none := by
  simp only [dictGet, List.reverse_cons, List.find?_append]
  cases hfind : rest.reverse.find? (fun e => decide (e.1 = k)) with
  | some e => simp [Option.or]
  | none =>
    simp only [Option.or, Option.map]
    by_cases hk : k' = k
    · simp [List.find?, hk]
    · simp [List.find?, hk]

theorem dictGet_eq_none {α : Type} {l : List (String × α)} {k : String}
    (h : k ∉ l.map Prod.fst) : dictGet l k = none := by
  induction l with
  | nil => rfl
  | cons e rest ih =>
    obtain ⟨k', v'⟩ := e
    rw [dictGet_cons, ih (fun hm => h (by simp [hm]))]
    simp only [List.map_cons, List.mem_cons] at h
    rw [if_neg (fun hh => h (Or.inl hh.symm))]

theorem dictGet_eq_of_mem {α : Type} {l : List (String × α)} {k : String} {v : α}
    (hmem : (k, v) ∈ l) (hnd : (l.map Prod.fst).Nodup) :
    dictGet l k = some v := by
  induction l with
  | nil => exact absurd hmem (by simp)
  | cons e rest ih =>
    obtain ⟨k', v'⟩ := e
    simp only [List.map_cons, List.nodup_cons] at hnd
    rcases List.mem_cons.mp hmem with h | h
    · injection h with h1 h2
      subst h1
      subst h2
      rw [dictGet_cons, dictGet_eq_none hnd.1]
      simp
    · rw [dictGet_cons, ih h hnd.2]

/-! ### The build walk appends a state-independent write list -/

theorem build_appends : ∀ fuel : Nat,
    (∀ j mp jp, ∃ w c, ∀ st, buildM fuel j mp jp st =
      ⟨st.model_to_json ++ w, st.components ++ c⟩) ∧
    (∀ fields mp jp, ∃ w c, ∀ st : BuildState, buildFieldsM fuel fields mp jp st =
      ⟨st.model_to_json ++ w, st.components ++ c⟩) ∧
    (∀ i items mp jp, ∃ w c, ∀ st : BuildState, buildItemsM fuel i items mp jp st =
      ⟨st.model_to_json ++ w, st.components ++ c⟩) := by
  intro fuel
  induction fuel with
  | zero =>
    refine ⟨fun j mp jp => ⟨[], [], fun st => ?_⟩,
            fun fields mp jp => ⟨[], [], fun st => ?_⟩,
            fun i items mp jp => ⟨[], [], fun st => ?_⟩⟩ <;>
      · obtain ⟨a, b⟩ := st
        simp [buildM, buildFieldsM, buildItemsM]
  | succ fuel ih =>
    obtain ⟨ihm, ihf, ihi⟩ := ih
    refine ⟨?_, ?_, ?_⟩
    · intro j mp jp
      cases j with
      | obj fields =>
        cases hmn : metaName fields with
        | some name =>
          obtain ⟨w, c, hall⟩ := ihf fields (joinDot mp name) jp
          refine ⟨(joinDot mp name, jp) :: w,
            (joinDot mp name, jp, .obj fields) :: c, fun st => ?_⟩
          have hstep : buildM (fuel + 1) (.obj fields) mp jp st =
              buildFieldsM fuel fields (joinDot mp name) jp
                ⟨st.model_to_json ++ [(joinDot mp name, jp)],
                 st.components ++ [(joinDot mp name, jp, .obj fields)]⟩ := by
            simp only [buildM, hmn]
          rw [hstep, hall]
          simp
        | none =>
          obtain ⟨w, c, hall⟩ := ihf fields mp jp
          refine ⟨w, c, fun st => ?_⟩
          have hstep : buildM (fuel + 1) (.obj fields) mp jp st =
              buildFieldsM fuel fields mp jp st := by
            simp only [buildM, hmn]
          rw [hstep, hall]
      | arr items =>
        obtain ⟨w, c, hall⟩ := ihi 0 items mp jp
        refine ⟨w, c, fun st => ?_⟩
        have hstep : buildM (fuel + 1) (.arr items) mp jp st =
            buildItemsM fuel 0 items mp jp st := by
          simp only [buildM]
        rw [hstep, hall]
      | null =>
        refine ⟨[], [], fun st => ?_⟩
        obtain ⟨a, b⟩ := st
        simp [buildM]
      | bool bv =>
        refine ⟨[], [], fun st => ?_⟩
        obtain ⟨a, b⟩ := st
        simp [buildM]
      | num nv =>
        refine ⟨[], [], fun st => ?_⟩
        obtain ⟨a, b⟩ := st
        simp [buildM]
      | str sv =>
        refine ⟨[], [], fun st => ?_⟩
        obtain ⟨a, b⟩ := st
        simp [buildM]
    · intro fields mp jp
      cases fields with
      | nil =>
        refine ⟨[], [], fun st => ?_⟩
        obtain ⟨a, b⟩ := st
        simp [buildFieldsM]
      | cons e rest =>
        obtain ⟨k, v⟩ := e
        obtain ⟨wr, cr, hallr⟩ := ihf rest mp jp
        cases v with
        | obj f2 =>
          obtain ⟨wh, ch, hallh⟩ := ihm (.obj f2) (joinDot mp k) (jp ++ [.k k])
          refine ⟨wh ++ wr, ch ++ cr, fun st => ?_⟩
          simp only [buildFieldsM]
          rw [hallr, hallh]
          simp
        | arr l2 =>
          obtain ⟨wh, ch, hallh⟩ := ihm (.arr l2) (joinDot mp k) (jp ++ [.k k])
          refine ⟨wh ++ wr, ch ++ cr, fun st => ?_⟩
          simp only [buildFieldsM]
          rw [hallr, hallh]
          simp
        | null =>
          refine ⟨(joinDot mp k, jp ++ [.k k]) :: wr, cr, fun st => ?_⟩
          simp only [buildFieldsM]
          rw [hallr]
          simp
        | bool bv =>
          refine ⟨(joinDot mp k, jp ++ [.k k]) :: wr, cr, fun st => ?_⟩
          simp only [buildFieldsM]
          rw [hallr]
          simp
        | num nv =>
          refine ⟨(joinDot mp k, jp ++ [.k k]) :: wr, cr, fun st => ?_⟩
          simp only [buildFieldsM]
          rw [hallr]
          simp
        | str sv =>
          refine ⟨(joinDot mp k, jp ++ [.k k]) :: wr, cr, fun st => ?_⟩
          simp only [buildFieldsM]
          rw [hallr]
          simp
    · intro i items mp jp
      cases items with
      | nil =>
        refine ⟨[], [], fun st => ?_⟩
        obtain ⟨a, b⟩ := st
        simp [buildItemsM]
      | cons item rest =>
        obtain ⟨wr, cr, hallr⟩ := ihi (i + 1) rest mp jp
        cases item with
        | obj f2 =>
          obtain ⟨wh, ch, hallh⟩ := ihm (.obj f2) (idxSeg mp i) (jp ++ [.i i])
          refine ⟨wh ++ wr, ch ++ cr, fun st => ?_⟩
          simp only [buildItemsM]
          rw [hallr, hallh]
          simp
        | arr l2 =>
          obtain ⟨wh, ch, hallh⟩ := ihm (.arr l2) (idxSeg mp i) (jp ++ [.i i])
          refine ⟨wh ++ wr, ch ++ cr, fun st => ?_⟩
          simp only [buildItemsM]
          rw [hallr, hallh]
          simp
        | null =>
          refine ⟨(idxSeg mp i, jp ++ [.i i]) :: wr, cr, fun st => ?_⟩
          simp only [buildItemsM]
          rw [hallr]
          simp
        | bool bv =>
          refine ⟨(idxSeg mp i, jp ++ [.i i]) :: wr, cr, fun st => ?_⟩
          simp only [buildItemsM]
          rw [hallr]
          simp
        | num nv =>
          refine ⟨(idxSeg mp i, jp ++ [.i i]) :: wr, cr, fun st => ?_⟩
          simp only [buildItemsM]
          rw [hallr]
          simp
        | str sv =>
          refine ⟨(idxSeg mp i, jp ++ [.i i]) :: wr, cr, fun st => ?_⟩
          simp only [buildItemsM]
          rw [hallr]
          simp

theorem buildM_hom (fuel : Nat) (j : Json) (mp : String) (jp : DocPath)
    (st : BuildState) :
    buildM fuel j mp jp st =
      ⟨st.model_to_json ++ (buildM fuel j mp jp ⟨[], []⟩).model_to_json,
       st.components ++ (buildM fuel j mp jp ⟨[], []⟩).components⟩ := by
  obtain ⟨w, c, hall⟩ := (build_appends fuel).1 j mp jp
  rw [hall st, hall ⟨[], []⟩]
  simp

theorem buildFieldsM_hom (fuel : Nat) (fields : List (String × Json)) (mp : String)
    (jp : DocPath) (st : BuildState) :
    buildFieldsM fuel fields mp jp st =
      ⟨st.model_to_json ++ (buildFieldsM fuel fields mp jp ⟨[], []⟩).model_to_json,
       st.components ++ (buildFieldsM fuel fields mp jp ⟨[], []⟩).components⟩ := by
  obtain ⟨w, c, hall⟩ := (build_appends fuel).2.1 fields mp jp
  rw [hall st, hall ⟨[], []⟩]
  simp

theorem buildItemsM_hom (fuel i : Nat) (items : List Json) (mp : String)
    (jp : DocPath) (st : BuildState) :
    buildItemsM fuel i items mp jp st =
      ⟨st.model_to_json ++ (buildItemsM fuel i items mp jp ⟨[], []⟩).model_to_json,
       st.components ++ (buildItemsM fuel i items mp jp ⟨[], []⟩).components⟩ := by
  obtain ⟨w, c, hall⟩ := (build_appends fuel).2.2 i items mp jp
  rw [hall st, hall ⟨[], []⟩]
  simp

/-! ### Segment and shape helper lemmas -/

theorem string_eq_of_data {s t : String} (h : s.data = t.data) : s = t := by
  ext1
  exact h

theorem string_ne_of_data {s t : String} (h : s.data ≠ t.data) : s ≠ t :=
  fun he => h (by rw [he])

theorem joinDot_data_of_ne {mp : String} (k : String) (h : mp ≠ "") :
    (joinDot mp k).data = mp.data ++ '.' :: k.data := by
  rw [joinDot, if_neg h]
  rw [String.data_append, String.data_append]
  simp

theorem joinDot_data_of_empty (k : String) : (joinDot "" k).data = k.data := by
  rw [joinDot, if_pos rfl]

theorem idxSeg_data (mp : String) (i : Nat) :
    (idxSeg mp i).data = mp.data ++ '[' :: ((Nat.repr i).data ++ [']']) := by
  rw [idxSeg]
  rw [String.data_append, String.data_append, String.data_append]
  simp

theorem data_eq_nil_iff {s : String} : s.data = [] ↔ s = "" := by
  constructor
  · intro h
    exact string_eq_of_data h
  · intro h
    rw [h]

theorem joinDot_ne_empty {mp k : String} (h : k ≠ "") : joinDot mp k ≠ "" := by
  by_cases hmp : mp = ""
  · subst hmp
    rw [joinDot, if_pos rfl]
    exact h
  · apply string_ne_of_data
    rw [joinDot_data_of_ne _ hmp]
    simp

theorem idxSeg_ne_empty (mp : String) (i : Nat) : idxSeg mp i ≠ "" := by
  apply string_ne_of_data
  rw [idxSeg_data]
  simp

theorem sepExt_refl (mp : String) : sepExt mp mp :=
  ⟨[], by simp, Or.inl rfl⟩

theorem sepExtS_weaken {mp key : String} (h : sepExtS mp key) : sepExt mp key := by
  obtain ⟨t, ht, _, hh⟩ := h
  exact ⟨t, ht, Or.inr hh⟩

theorem sepExtS_ne {mp key : String} (h : sepExtS mp key) : key ≠ mp := by
  obtain ⟨t, ht, htne, _⟩ := h
  apply string_ne_of_data
  rw [ht]
  intro he
  have : mp.data.length + t.length = mp.data.length := by
    conv_rhs => rw [← he]
    simp
  have : t.length = 0 := by omega
  exact htne (List.eq_nil_of_length_eq_zero this)

theorem sepExt_joinDot {mp k key : String} (hmp : mp ≠ "")
    (h : sepExt (joinDot mp k) key) : sepExtS mp key := by
  obtain ⟨t, ht, _⟩ := h
  rw [joinDot_data_of_ne _ hmp] at ht
  exact ⟨'.' :: k.data ++ t, by simpa using ht, by simp, by simp⟩

theorem sepExt_idxSeg {mp key : String} {i : Nat}
    (h : sepExt (idxSeg mp i) key) : sepExtS mp key := by
  obtain ⟨t, ht, _⟩ := h
  rw [idxSeg_data] at ht
  exact ⟨'[' :: (((Nat.repr i).data ++ [']']) ++ t), by simpa using ht, by simp,
    by simp⟩

theorem sepExtS_joinDot_step {mp k key : String} (hmp : mp ≠ "")
    (h : sepExtS (joinDot mp k) key) : sepExtS mp key :=
  sepExt_joinDot hmp (sepExtS_weaken h)

theorem cleanSeg_chars {k : String} (h : cleanSeg k = true) :
    ∀ c ∈ k.data, ¬(c = '.' ∨ c = '[') := by
  intro c hc
  rw [cleanSeg, Bool.and_eq_true] at h
  have := List.all_eq_true.mp h.2 c hc
  simp only [Bool.not_eq_true', Bool.or_eq_false_iff, decide_eq_false_iff_not] at this
  intro hor
  rcases hor with h1 | h1
  · exact this.1 h1
  · exact this.2 h1

theorem cleanSeg_ne_empty {k : String} (h : cleanSeg k = true) : k ≠ "" := by
  rw [cleanSeg, Bool.and_eq_true] at h
  intro he
  subst he
  simp at h

theorem joinDot_sepExt_inj {mp k0 k1 key : String}
    (hc0 : cleanSeg k0 = true) (hc1 : cleanSeg k1 = true)
    (h0 : sepExt (joinDot mp k0) key) (h1 : sepExt (joinDot mp k1) key) :
    k0 = k1 := by
  obtain ⟨t0, ht0, hh0⟩ := h0
  obtain ⟨t1, ht1, hh1⟩ := h1
  by_cases hmp : mp = ""
  · subst hmp
    rw [joinDot_data_of_empty] at ht0 ht1
    have heq : k0.data ++ t0 = k1.data ++ t1 := by rw [← ht0, ← ht1]
    obtain ⟨hk, _⟩ := seg_ext_inj _ _ _ _ heq (cleanSeg_chars hc0)
      (cleanSeg_chars hc1) hh0 hh1
    exact string_eq_of_data hk
  · rw [joinDot_data_of_ne _ hmp] at ht0 ht1
    have heq : mp.data ++ '.' :: (k0.data ++ t0) =
        mp.data ++ '.' :: (k1.data ++ t1) := by
      have e0 : mp.data ++ '.' :: (k0.data ++ t0) = (mp.data ++ '.' :: k0.data) ++ t0 := by
        simp
      have e1 : mp.data ++ '.' :: (k1.data ++ t1) = (mp.data ++ '.' :: k1.data) ++ t1 := by
        simp
      rw [e0, e1, ← ht0, ← ht1]
    have heq2 : k0.data ++ t0 = k1.data ++ t1 := by
      have := List.append_cancel_left heq
      injection this
    obtain ⟨hk, _⟩ := seg_ext_inj _ _ _ _ heq2 (cleanSeg_chars hc0)
      (cleanSeg_chars hc1) hh0 hh1
    exact string_eq_of_data hk

theorem idxSeg_sepExt_inj {mp key : String} {i n : Nat}
    (hi : sepExt (idxSeg mp i) key) (hn : sepExt (idxSeg mp n) key) :
    i = n := by
  obtain ⟨t0, ht0, _⟩ := hi
  obtain ⟨t1, ht1, _⟩ := hn
  rw [idxSeg_data] at ht0 ht1
  have heq : mp.data ++ '[' :: ((Nat.repr i).data ++ ']' :: t0) =
      mp.data ++ '[' :: ((Nat.repr n).data ++ ']' :: t1) := by
    have e0 : mp.data ++ '[' :: ((Nat.repr i).data ++ ']' :: t0) =
        (mp.data ++ '[' :: ((Nat.repr i).data ++ [']'])) ++ t0 := by simp
    have e1 : mp.data ++ '[' :: ((Nat.repr n).data ++ ']' :: t1) =
        (mp.data ++ '[' :: ((Nat.repr n).data ++ [']'])) ++ t1 := by simp
    rw [e0, e1, ← ht0, ← ht1]
  have heq2 : (Nat.repr i).data ++ ']' :: t0 = (Nat.repr n).data ++ ']' :: t1 := by
    have := List.append_cancel_left heq
    injection this
  obtain ⟨hr, _⟩ := append_sep_inj heq2
    (fun c hc => ((nat_repr_no_sep i) c hc).1)
    (fun c hc => ((nat_repr_no_sep n) c hc).1)
  exact nat_repr_inj hr

theorem lookupField_mem {l : List (String × Json)} {k : String} {v : Json}
    (h : lookupField l k = some v) : k ∈ l.map Prod.fst := by
  induction l with
  | nil => exact absurd h (by simp [lookupField])
  | cons e rest ih =>
    obtain ⟨k', v'⟩ := e
    rw [lookupField] at h
    by_cases hk : k' = k
    · simp [hk]
    · rw [if_neg hk] at h
      simp [ih h]

theorem metaName_ne_empty {fields : List (String × Json)} {name : String}
    (h : metaName fields = some name) : name ≠ "" := by
  rw [metaName] at h
  split at h
  · split at h
    · split at h
      · exact absurd h (by simp)
      · rename_i hs
        injection h with h
        subst h
        exact hs
    · exact absurd h (by simp)
  · exact absurd h (by simp)

theorem metaName_clean {fields : List (String × Json)} {name : String}
    (hok : metaOK fields = true) (h : metaName fields = some name) :
    ∀ c ∈ name.data, ¬(c = '.' ∨ c = '[') := by
  rw [metaName] at h
  rw [metaOK] at hok
  split at h
  · rename_i j hmf
    simp only [hmf] at hok
    split at h
    · rename_i s hnf
      simp only [hnf] at hok
      split at h
      · exact absurd h (by simp)
      · injection h with h
        subst h
        intro c hc hor
        have := List.all_eq_true.mp hok c hc
        simp only [Bool.not_eq_true', Bool.or_eq_false_iff,
          decide_eq_false_iff_not] at this
        rcases hor with h1 | h1
        · exact this.1 h1
        · exact this.2 h1
    · exact absurd h (by simp)
  · rename_i hne
    exact absurd h (by simp)

theorem nodupKeys_nodup : ∀ {l : List String}, nodupKeys l = true → l.Nodup := by
  intro l
  induction l with
  | nil =>
    intro _
    exact List.nodup_nil
  | cons k rest ih =>
    intro h
    rw [nodupKeys, Bool.and_eq_true, Bool.not_eq_true'] at h
    rw [List.nodup_cons]
    exact ⟨by simpa using h.1, ih h.2⟩

/-! ### Every write of the walk extends its model-path argument -/

theorem build_key_shape : ∀ fuel : Nat,
    (∀ j mp jp, wfM fuel j = true → mp ≠ "" →
      ∀ key ∈ (buildM fuel j mp jp ⟨[], []⟩).model_to_json.map Prod.fst,
        sepExtS mp key) ∧
    (∀ fields mp jp, wfFieldsM fuel fields = true →
      (∀ k ∈ fields.map Prod.fst, k ≠ "") →
      ∀ key ∈ (buildFieldsM fuel fields mp jp ⟨[], []⟩).model_to_json.map Prod.fst,
        ∃ k, k ∈ fields.map Prod.fst ∧ sepExt (joinDot mp k) key) ∧
    (∀ i items mp jp, wfItemsM fuel items = true →
      ∀ key ∈ (buildItemsM fuel i items mp jp ⟨[], []⟩).model_to_json.map Prod.fst,
        ∃ n, i ≤ n ∧ n < i + items.length ∧ sepExt (idxSeg mp n) key) := by
  intro fuel
  induction fuel with
  | zero =>
    refine ⟨fun j mp jp hwf => ?_, fun fields mp jp hwf => ?_,
            fun i items mp jp hwf => ?_⟩ <;> simp [wfM, wfFieldsM, wfItemsM] at hwf
  | succ fuel ih =>
    obtain ⟨ihm, ihf, ihi⟩ := ih
    refine ⟨?_, ?_, ?_⟩
    · intro j mp jp hwf hmp key hkey
      cases j with
      | obj fields =>
        simp only [wfM, Bool.and_eq_true] at hwf
        obtain ⟨⟨⟨hok, hnd⟩, hclean⟩, hwff⟩ := hwf
        cases hmn : metaName fields with
        | some name =>
          rw [show buildM (fuel + 1) (.obj fields) mp jp ⟨[], []⟩ =
              buildFieldsM fuel fields (joinDot mp name) jp
                ⟨[(joinDot mp name, jp)], [(joinDot mp name, jp, .obj fields)]⟩ from by
            simp only [buildM, hmn]
            rfl] at hkey
          rw [buildFieldsM_hom] at hkey
          simp only [List.map_cons, List.map_append, List.mem_cons,
            List.mem_append, List.map_nil, List.not_mem_nil, or_false] at hkey
          rcases hkey with hkey | hkey
          · subst hkey
            exact ⟨'.' :: name.data, by rw [joinDot_data_of_ne _ hmp], by simp, by simp⟩
          · obtain ⟨k, hkmem, hsep⟩ := ihf fields (joinDot mp name) jp hwff
              (fun k hk => cleanSeg_ne_empty (List.all_eq_true.mp hclean k hk)) key
              (by simpa using hkey)
            exact sepExtS_joinDot_step hmp
              (sepExt_joinDot (joinDot_ne_empty (metaName_ne_empty hmn)) hsep)
        | none =>
          rw [show buildM (fuel + 1) (.obj fields) mp jp ⟨[], []⟩ =
              buildFieldsM fuel fields mp jp ⟨[], []⟩ from by
            simp only [buildM, hmn]] at hkey
          obtain ⟨k, hkmem, hsep⟩ := ihf fields mp jp hwff
            (fun k hk => cleanSeg_ne_empty (List.all_eq_true.mp hclean k hk)) key hkey
          exact sepExt_joinDot hmp hsep
      | arr items =>
        simp only [wfM] at hwf
        rw [show buildM (fuel + 1) (.arr items) mp jp ⟨[], []⟩ =
            buildItemsM fuel 0 items mp jp ⟨[], []⟩ from by
          simp only [buildM]] at hkey
        obtain ⟨n, _, _, hsep⟩ := ihi 0 items mp jp hwf key hkey
        exact sepExt_idxSeg hsep
      | null =>
        simp only [buildM] at hkey
        simp at hkey
      | bool bv =>
        simp only [buildM] at hkey
        simp at hkey
      | num nv =>
        simp only [buildM] at hkey
        simp at hkey
      | str sv =>
        simp only [buildM] at hkey
        simp at hkey
    · intro fields mp jp hwf hne key hkey
      cases fields with
      | nil =>
        simp only [buildFieldsM] at hkey
        simp at hkey
      | cons e rest =>
        obtain ⟨k0, v0⟩ := e
        simp only [wfFieldsM, Bool.and_eq_true] at hwf
        obtain ⟨hwfv, hwfr⟩ := hwf
        have hk0ne : k0 ≠ "" := hne k0 (by simp)
        have hnetail : ∀ k ∈ rest.map Prod.fst, k ≠ "" :=
          fun k hk => hne k (by simp [hk])
        cases v0 with
        | obj f2 =>
          simp only [buildFieldsM] at hkey
          rw [buildFieldsM_hom] at hkey
          simp only [List.map_append, List.mem_append] at hkey
          rcases hkey with hkey | hkey
          · have := ihm (.obj f2) (joinDot mp k0) (jp ++ [.k k0]) hwfv
              (joinDot_ne_empty hk0ne) key hkey
            exact ⟨k0, by simp, sepExtS_weaken this⟩
          · obtain ⟨k, hkmem, hsep⟩ := ihf rest mp jp hwfr hnetail key hkey
            exact ⟨k, by simp [hkmem], hsep⟩
        | arr l2 =>
          simp only [buildFieldsM] at hkey
          rw [buildFieldsM_hom] at hkey
          simp only [List.map_append, List.mem_append] at hkey
          rcases hkey with hkey | hkey
          · have := ihm (.arr l2) (joinDot mp k0) (jp ++ [.k k0]) hwfv
              (joinDot_ne_empty hk0ne) key hkey
            exact ⟨k0, by simp, sepExtS_weaken this⟩
          · obtain ⟨k, hkmem, hsep⟩ := ihf rest mp jp hwfr hnetail key hkey
            exact ⟨k, by simp [hkmem], hsep⟩
        | null =>
          simp only [buildFieldsM] at hkey
          rw [buildFieldsM_hom] at hkey
          simp only [List.map_append, List.mem_append, List.nil_append,
            List.map_cons, List.map_nil, List.mem_cons, List.not_mem_nil,
            or_false] at hkey
          rcases hkey with hkey | hkey
          · subst hkey
            exact ⟨k0, by simp, sepExt_refl _⟩
          · obtain ⟨k, hkmem, hsep⟩ := ihf rest mp jp hwfr hnetail key hkey
            exact ⟨k, by simp [hkmem], hsep⟩
        | bool bv =>
          simp only [buildFieldsM] at hkey
          rw [buildFieldsM_hom] at hkey
          simp only [List.map_append, List.mem_append, List.nil_append,
            List.map_cons, List.map_nil, List.mem_cons, List.not_mem_nil,
            or_false] at hkey
          rcases hkey with hkey | hkey
          · subst hkey
            exact ⟨k0, by simp, sepExt_refl _⟩
          · obtain ⟨k, hkmem, hsep⟩ := ihf rest mp jp hwfr hnetail key hkey
            exact ⟨k, by simp [hkmem], hsep⟩
        | num nv =>
          simp only [buildFieldsM] at hkey
          rw [buildFieldsM_hom] at hkey
          simp only [List.map_append, List.mem_append, List.nil_append,
            List.map_cons, List.map_nil, List.mem_cons, List.not_mem_nil,
            or_false] at hkey
          rcases hkey with hkey | hkey
          · subst hkey
            exact ⟨k0, by simp, sepExt_refl _⟩
          · obtain ⟨k, hkmem, hsep⟩ := ihf rest mp jp hwfr hnetail key hkey
            exact ⟨k, by simp [hkmem], hsep⟩
        | str sv =>
          simp only [buildFieldsM] at hkey
          rw [buildFieldsM_hom] at hkey
          simp only [List.map_append, List.mem_append, List.nil_append,
            List.map_cons, List.map_nil, List.mem_cons, List.not_mem_nil,
            or_false] at hkey
          rcases hkey with hkey | hkey
          · subst hkey
            exact ⟨k0, by simp, sepExt_refl _⟩
          · obtain ⟨k, hkmem, hsep⟩ := ihf rest mp jp hwfr hnetail key hkey
            exact ⟨k, by simp [hkmem], hsep⟩
    · intro i items mp jp hwf key hkey
      cases items with
      | nil =>
        simp only [buildItemsM] at hkey
        simp at hkey
      | cons item rest =>
        simp only [wfItemsM, Bool.and_eq_true] at hwf
        obtain ⟨hwfv, hwfr⟩ := hwf
        cases item with
        | obj f2 =>
          simp only [buildItemsM] at hkey
          rw [buildItemsM_hom] at hkey
          simp only [List.map_append, List.mem_append] at hkey
          rcases hkey with hkey | hkey
          · have := ihm (.obj f2) (idxSeg mp i) (jp ++ [.i i]) hwfv
              (idxSeg_ne_empty mp i) key hkey
            exact ⟨i, Nat.le_refl i, by simp, sepExtS_weaken this⟩
          · obtain ⟨n, hn1, hn2, hsep⟩ := ihi (i + 1) rest mp jp hwfr key hkey
            exact ⟨n, by omega, by simp only [List.length_cons]; omega, hsep⟩
        | arr l2 =>
          simp only [buildItemsM] at hkey
          rw [buildItemsM_hom] at hkey
          simp only [List.map_append, List.mem_append] at hkey
          rcases hkey with hkey | hkey
          · have := ihm (.arr l2) (idxSeg mp i) (jp ++ [.i i]) hwfv
              (idxSeg_ne_empty mp i) key hkey
            exact ⟨i, Nat.le_refl i, by simp, sepExtS_weaken this⟩
          · obtain ⟨n, hn1, hn2, hsep⟩ := ihi (i + 1) rest mp jp hwfr key hkey
            exact ⟨n, by omega, by simp only [List.length_cons]; omega, hsep⟩
        | null =>
          simp only [buildItemsM] at hkey
          rw [buildItemsM_hom] at hkey
          simp only [List.map_append, List.mem_append, List.nil_append,
            List.map_cons, List.map_nil, List.mem_cons, List.not_mem_nil,
            or_false] at hkey
          rcases hkey with hkey | hkey
          · subst hkey
            exact ⟨i, Nat.le_refl i, by simp, sepExt_refl _⟩
          · obtain ⟨n, hn1, hn2, hsep⟩ := ihi (i + 1) rest mp jp hwfr key hkey
            exact ⟨n, by omega, by simp only [List.length_cons]; omega, hsep⟩
        | bool bv =>
          simp only [buildItemsM] at hkey
          rw [buildItemsM_hom] at hkey
          simp only [List.map_append, List.mem_append, List.nil_append,
            List.map_cons, List.map_nil, List.mem_cons, List.not_mem_nil,
            or_false] at hkey
          rcases hkey with hkey | hkey
          · subst hkey
            exact ⟨i, Nat.le_refl i, by simp, sepExt_refl _⟩
          · obtain ⟨n, hn1, hn2, hsep⟩ := ihi (i + 1) rest mp jp hwfr key hkey
            exact ⟨n, by omega, by simp only [List.length_cons]; omega, hsep⟩
        | num nv =>
          simp only [buildItemsM] at hkey
          rw [buildItemsM_hom] at hkey
          simp only [List.map_append, List.mem_append, List.nil_append,
            List.map_cons, List.map_nil, List.mem_cons, List.not_mem_nil,
            or_false] at hkey
          rcases hkey with hkey | hkey
          · subst hkey
            exact ⟨i, Nat.le_refl i, by simp, sepExt_refl _⟩
          · obtain ⟨n, hn1, hn2, hsep⟩ := ihi (i + 1) rest mp jp hwfr key hkey
            exact ⟨n, by omega, by simp only [List.length_cons]; omega, hsep⟩
        | str sv =>
          simp only [buildItemsM] at hkey
          rw [buildItemsM_hom] at hkey
          simp only [List.map_append, List.mem_append, List.nil_append,
            List.map_cons, List.map_nil, List.mem_cons, List.not_mem_nil,
            or_false] at hkey
          rcases hkey with hkey | hkey
          · subst hkey
            exact ⟨i, Nat.le_refl i, by simp, sepExt_refl _⟩
          · obtain ⟨n, hn1, hn2, hsep⟩ := ihi (i + 1) rest mp jp hwfr key hkey
            exact ⟨n, by omega, by simp only [List.length_cons]; omega, hsep⟩

/-! ### Every component record is mirrored in `_model_to_json` and
reaches its dict by a direct document walk -/

theorem build_comps_sound : ∀ fuel : Nat,
    (∀ j mp jp, wfM fuel j = true →
      ∀ e ∈ (buildM fuel j mp jp ⟨[], []⟩).components,
        (e.1, e.2.1) ∈ (buildM fuel j mp jp ⟨[], []⟩).model_to_json ∧
        ∃ q, e.2.1 = jp ++ q ∧ getValue j q = .ok e.2.2) ∧
    (∀ fields mp jp, wfFieldsM fuel fields = true →
      nodupKeys (fields.map Prod.fst) = true →
      ∀ e ∈ (buildFieldsM fuel fields mp jp ⟨[], []⟩).components,
        (e.1, e.2.1) ∈ (buildFieldsM fuel fields mp jp ⟨[], []⟩).model_to_json ∧
        ∃ k v q', lookupField fields k = some v ∧ e.2.1 = jp ++ .k k :: q' ∧
          getValue v q' = .ok e.2.2) ∧
    (∀ i items mp jp, wfItemsM fuel items = true →
      ∀ e ∈ (buildItemsM fuel i items mp jp ⟨[], []⟩).components,
        (e.1, e.2.1) ∈ (buildItemsM fuel i items mp jp ⟨[], []⟩).model_to_json ∧
        ∃ p v q', items[p]? = some v ∧ e.2.1 = jp ++ .i (i + p) :: q' ∧
          getValue v q' = .ok e.2.2) := by
  intro fuel
  induction fuel with
  | zero =>
    refine ⟨fun j mp jp hwf => ?_, fun fields mp jp hwf => ?_,
            fun i items mp jp hwf => ?_⟩ <;> simp [wfM, wfFieldsM, wfItemsM] at hwf
  | succ fuel ih =>
    obtain ⟨ihm, ihf, ihi⟩ := ih
    refine ⟨?_, ?_, ?_⟩
    · intro j mp jp hwf e he
      cases j with
      | obj fields =>
        simp only [wfM, Bool.and_eq_true] at hwf
        obtain ⟨⟨⟨hok, hnd⟩, hclean⟩, hwff⟩ := hwf
        cases hmn : metaName fields with
        | some name =>
          rw [show buildM (fuel + 1) (.obj fields) mp jp ⟨[], []⟩ =
              buildFieldsM fuel fields (joinDot mp name) jp
                ⟨[(joinDot mp name, jp)], [(joinDot mp name, jp, .obj fields)]⟩ from by
            simp only [buildM, hmn]
            rfl] at he ⊢
          rw [buildFieldsM_hom] at he ⊢
          simp only [List.mem_cons, List.mem_append, List.not_mem_nil,
            or_false, List.nil_append] at he
          rcases he with he | he
          · subst he
            refine ⟨by simp, [], by simp, rfl⟩
          · obtain ⟨hm2j, k, v, q', hlk, hpath, hget⟩ :=
              ihf fields (joinDot mp name) jp hwff hnd e he
            refine ⟨by simp [hm2j], .k k :: q', hpath, ?_⟩
            simp only [getValue, hlk]
            exact hget
        | none =>
          rw [show buildM (fuel + 1) (.obj fields) mp jp ⟨[], []⟩ =
              buildFieldsM fuel fields mp jp ⟨[], []⟩ from by
            simp only [buildM, hmn]] at he ⊢
          obtain ⟨hm2j, k, v, q', hlk, hpath, hget⟩ := ihf fields mp jp hwff hnd e he
          refine ⟨hm2j, .k k :: q', hpath, ?_⟩
          simp only [getValue, hlk]
          exact hget
      | arr items =>
        simp only [wfM] at hwf
        rw [show buildM (fuel + 1) (.arr items) mp jp ⟨[], []⟩ =
            buildItemsM fuel 0 items mp jp ⟨[], []⟩ from by
          simp only [buildM]] at he ⊢
        obtain ⟨hm2j, p, v, q', hin, hpath, hget⟩ := ihi 0 items mp jp hwf e he
        refine ⟨hm2j, .i (0 + p) :: q', hpath, ?_⟩
        rw [show (0 + p) = p by omega]
        simp only [getValue, hin]
        exact hget
      | null =>
        simp only [buildM] at he
        simp at he
      | bool bv =>
        simp only [buildM] at he
        simp at he
      | num nv =>
        simp only [buildM] at he
        simp at he
      | str sv =>
        simp only [buildM] at he
        simp at he
    · intro fields mp jp hwf hnd e he
      cases fields with
      | nil =>
        simp only [buildFieldsM] at he
        simp at he
      | cons ep rest =>
        obtain ⟨k0, v0⟩ := ep
        simp only [wfFieldsM, Bool.and_eq_true] at hwf
        obtain ⟨hwfv, hwfr⟩ := hwf
        simp only [List.map_cons, nodupKeys, Bool.and_eq_true,
          Bool.not_eq_true'] at hnd
        obtain ⟨hk0nin, hndr⟩ := hnd
        have hk0nin' : k0 ∉ rest.map Prod.fst := by simpa using hk0nin
        cases v0 with
        | obj f2 =>
          simp only [buildFieldsM] at he ⊢
          rw [buildFieldsM_hom] at he ⊢
          simp only [List.mem_append] at he
          rcases he with he | he
          · obtain ⟨hm2j, q, hpath, hget⟩ :=
              ihm (.obj f2) (joinDot mp k0) (jp ++ [.k k0]) hwfv e he
            refine ⟨by simp [hm2j], k0, .obj f2, q, ?_, by simp [hpath], hget⟩
            rw [lookupField, if_pos rfl]
          · obtain ⟨hm2j, k, v, q', hlk, hpath, hget⟩ :=
              ihf rest mp jp hwfr hndr e he
            have hkne : k0 ≠ k := fun hh => hk0nin' (hh ▸ lookupField_mem hlk)
            refine ⟨by simp [hm2j], k, v, q', ?_, hpath, hget⟩
            rw [lookupField, if_neg hkne]
            exact hlk
        | arr l2 =>
          simp only [buildFieldsM] at he ⊢
          rw [buildFieldsM_hom] at he ⊢
          simp only [List.mem_append] at he
          rcases he with he | he
          · obtain ⟨hm2j, q, hpath, hget⟩ :=
              ihm (.arr l2) (joinDot mp k0) (jp ++ [.k k0]) hwfv e he
            refine ⟨by simp [hm2j], k0, .arr l2, q, ?_, by simp [hpath], hget⟩
            rw [lookupField, if_pos rfl]
          · obtain ⟨hm2j, k, v, q', hlk, hpath, hget⟩ :=
              ihf rest mp jp hwfr hndr e he
            have hkne : k0 ≠ k := fun hh => hk0nin' (hh ▸ lookupField_mem hlk)
            refine ⟨by simp [hm2j], k, v, q', ?_, hpath, hget⟩
            rw [lookupField, if_neg hkne]
            exact hlk
        | null =>
          simp only [buildFieldsM] at he ⊢
          rw [buildFieldsM_hom] at he ⊢
          simp only [List.mem_append, List.not_mem_nil, List.nil_append,
            false_or] at he
          obtain ⟨hm2j, k, v, q', hlk, hpath, hget⟩ := ihf rest mp jp hwfr hndr e he
          have hkne : k0 ≠ k := fun hh => hk0nin' (hh ▸ lookupField_mem hlk)
          refine ⟨by simp [hm2j], k, v, q', ?_, hpath, hget⟩
          rw [lookupField, if_neg hkne]
          exact hlk
        | bool bv =>
          simp only [buildFieldsM] at he ⊢
          rw [buildFieldsM_hom] at he ⊢
          simp only [List.mem_append, List.not_mem_nil, List.nil_append,
            false_or] at he
          obtain ⟨hm2j, k, v, q', hlk, hpath, hget⟩ := ihf rest mp jp hwfr hndr e he
          have hkne : k0 ≠ k := fun hh => hk0nin' (hh ▸ lookupField_mem hlk)
          refine ⟨by simp [hm2j], k, v, q', ?_, hpath, hget⟩
          rw [lookupField, if_neg hkne]
          exact hlk
        | num nv =>
          simp only [buildFieldsM] at he ⊢
          rw [buildFieldsM_hom] at he ⊢
          simp only [List.mem_append, List.not_mem_nil, List.nil_append,
            false_or] at he
          obtain ⟨hm2j, k, v, q', hlk, hpath, hget⟩ := ihf rest mp jp hwfr hndr e he
          have hkne : k0 ≠ k := fun hh => hk0nin' (hh ▸ lookupField_mem hlk)
          refine ⟨by simp [hm2j], k, v, q', ?_, hpath, hget⟩
          rw [lookupField, if_neg hkne]
          exact hlk
        | str sv =>
          simp only [buildFieldsM] at he ⊢
          rw [buildFieldsM_hom] at he ⊢
          simp only [List.mem_append, List.not_mem_nil, List.nil_append,
            false_or] at he
          obtain ⟨hm2j, k, v, q', hlk, hpath, hget⟩ := ihf rest mp jp hwfr hndr e he
          have hkne : k0 ≠ k := fun hh => hk0nin' (hh ▸ lookupField_mem hlk)
          refine ⟨by simp [hm2j], k, v, q', ?_, hpath, hget⟩
          rw [lookupField, if_neg hkne]
          exact hlk
    · intro i items mp jp hwf e he
      cases items with
      | nil =>
        simp only [buildItemsM] at he
        simp at he
      | cons item rest =>
        simp only [wfItemsM, Bool.and_eq_true] at hwf
        obtain ⟨hwfv, hwfr⟩ := hwf
        cases item with
        | obj f2 =>
          simp only [buildItemsM] at he ⊢
          rw [buildItemsM_hom] at he ⊢
          simp only [List.mem_append] at he
          rcases he with he | he
          · obtain ⟨hm2j, q, hpath, hget⟩ :=
              ihm (.obj f2) (idxSeg mp i) (jp ++ [.i i]) hwfv e he
            refine ⟨by simp [hm2j], 0, .obj f2, q, by simp, ?_, hget⟩
            rw [show i + 0 = i by omega]
            simp [hpath]
          · obtain ⟨hm2j, p, v, q', hin, hpath, hget⟩ :=
              ihi (i + 1) rest mp jp hwfr e he
            refine ⟨by simp [hm2j], p + 1, v, q', by simpa using hin, ?_, hget⟩
            rw [show i + (p + 1) = i + 1 + p by omega]
            exact hpath
        | arr l2 =>
          simp only [buildItemsM] at he ⊢
          rw [buildItemsM_hom] at he ⊢
          simp only [List.mem_append] at he
          rcases he with he | he
          · obtain ⟨hm2j, q, hpath, hget⟩ :=
              ihm (.arr l2) (idxSeg mp i) (jp ++ [.i i]) hwfv e he
            refine ⟨by simp [hm2j], 0, .arr l2, q, by simp, ?_, hget⟩
            rw [show i + 0 = i by omega]
            simp [hpath]
          · obtain ⟨hm2j, p, v, q', hin, hpath, hget⟩ :=
              ihi (i + 1) rest mp jp hwfr e he
            refine ⟨by simp [hm2j], p + 1, v, q', by simpa using hin, ?_, hget⟩
            rw [show i + (p + 1) = i + 1 + p by omega]
            exact hpath
        | null =>
          simp only [buildItemsM] at he ⊢
          rw [buildItemsM_hom] at he ⊢
          simp only [List.mem_append, List.not_mem_nil, false_or] at he
          obtain ⟨hm2j, p, v, q', hin, hpath, hget⟩ := ihi (i + 1) rest mp jp hwfr e he
          refine ⟨by simp [hm2j], p + 1, v, q', by simpa using hin, ?_, hget⟩
          rw [show i + (p + 1) = i + 1 + p by omega]
          exact hpath
        | bool bv =>
          simp only [buildItemsM] at he ⊢
          rw [buildItemsM_hom] at he ⊢
          simp only [List.mem_append, List.not_mem_nil, false_or] at he
          obtain ⟨hm2j, p, v, q', hin, hpath, hget⟩ := ihi (i + 1) rest mp jp hwfr e he
          refine ⟨by simp [hm2j], p + 1, v, q', by simpa using hin, ?_, hget⟩
          rw [show i + (p + 1) = i + 1 + p by omega]
          exact hpath
        | num nv =>
          simp only [buildItemsM] at he ⊢
          rw [buildItemsM_hom] at he ⊢
          simp only [List.mem_append, List.not_mem_nil, false_or] at he
          obtain ⟨hm2j, p, v, q', hin, hpath, hget⟩ := ihi (i + 1) rest mp jp hwfr e he
          refine ⟨by simp [hm2j], p + 1, v, q', by simpa using hin, ?_, hget⟩
          rw [show i + (p + 1) = i + 1 + p by omega]
          exact hpath
        | str sv =>
          simp only [buildItemsM] at he ⊢
          rw [buildItemsM_hom] at he ⊢
          simp only [List.mem_append, List.not_mem_nil, false_or] at he
          obtain ⟨hm2j, p, v, q', hin, hpath, hget⟩ := ihi (i + 1) rest mp jp hwfr e he
          refine ⟨by simp [hm2j], p + 1, v, q', by simpa using hin, ?_, hget⟩
          rw [show i + (p + 1) = i + 1 + p by omega]
          exact hpath

/-! ### Distinct walk positions write distinct model-path keys -/

theorem build_nodup : ∀ fuel : Nat,
    (∀ j mp jp, wfM fuel j = true →
      ((buildM fuel j mp jp ⟨[], []⟩).model_to_json.map Prod.fst).Nodup) ∧
    (∀ fields mp jp, wfFieldsM fuel fields = true →
      (fields.map Prod.fst).all cleanSeg = true →
      nodupKeys (fields.map Prod.fst) = true →
      ((buildFieldsM fuel fields mp jp ⟨[], []⟩).model_to_json.map Prod.fst).Nodup) ∧
    (∀ i items mp jp, wfItemsM fuel items = true →
      ((buildItemsM fuel i items mp jp ⟨[], []⟩).model_to_json.map Prod.fst).Nodup) := by
  intro fuel
  induction fuel with
  | zero =>
    refine ⟨fun j mp jp hwf => ?_, fun fields mp jp hwf => ?_,
            fun i items mp jp hwf => ?_⟩ <;> simp [wfM, wfFieldsM, wfItemsM] at hwf
  | succ fuel ih =>
    obtain ⟨ihm, ihf, ihi⟩ := ih
    refine ⟨?_, ?_, ?_⟩
    · intro j mp jp hwf
      cases j with
      | obj fields =>
        simp only [wfM, Bool.and_eq_true] at hwf
        obtain ⟨⟨⟨hok, hnd⟩, hclean⟩, hwff⟩ := hwf
        cases hmn : metaName fields with
        | some name =>
          rw [show buildM (fuel + 1) (.obj fields) mp jp ⟨[], []⟩ =
              buildFieldsM fuel fields (joinDot mp name) jp
                ⟨[(joinDot mp name, jp)], [(joinDot mp name, jp, .obj fields)]⟩ from by
            simp only [buildM, hmn]
            rfl]
          rw [buildFieldsM_hom]
          simp only [List.map_cons, List.map_append, List.nil_append,
            List.map_nil, List.singleton_append]
          rw [List.nodup_cons]
          constructor
          · intro hmem
            obtain ⟨k, hkmem, hsep⟩ := (build_key_shape fuel).2.1 fields
              (joinDot mp name) jp hwff
              (fun k hk => cleanSeg_ne_empty (List.all_eq_true.mp hclean k hk))
              (joinDot mp name) hmem
            exact sepExtS_ne
              (sepExt_joinDot (joinDot_ne_empty (metaName_ne_empty hmn)) hsep) rfl
          · exact ihf fields (joinDot mp name) jp hwff hclean hnd
        | none =>
          rw [show buildM (fuel + 1) (.obj fields) mp jp ⟨[], []⟩ =
              buildFieldsM fuel fields mp jp ⟨[], []⟩ from by
            simp only [buildM, hmn]]
          exact ihf fields mp jp hwff hclean hnd
      | arr items =>
        simp only [wfM] at hwf
        rw [show buildM (fuel + 1) (.arr items) mp jp ⟨[], []⟩ =
            buildItemsM fuel 0 items mp jp ⟨[], []⟩ from by
          simp only [buildM]]
        exact ihi 0 items mp jp hwf
      | null =>
        simp only [buildM]
        simp
      | bool bv =>
        simp only [buildM]
        simp
      | num nv =>
        simp only [buildM]
        simp
      | str sv =>
        simp only [buildM]
        simp
    · intro fields mp jp hwf hclean hnd
      cases fields with
      | nil =>
        simp only [buildFieldsM]
        simp
      | cons ep rest =>
        obtain ⟨k0, v0⟩ := ep
        simp only [wfFieldsM, Bool.and_eq_true] at hwf
        obtain ⟨hwfv, hwfr⟩ := hwf
        simp only [List.map_cons, List.all_cons, Bool.and_eq_true] at hclean
        obtain ⟨hck0, hcrest⟩ := hclean
        simp only [List.map_cons, nodupKeys, Bool.and_eq_true,
          Bool.not_eq_true'] at hnd
        obtain ⟨hk0nin, hndr⟩ := hnd
        have hk0nin' : k0 ∉ rest.map Prod.fst := by simpa using hk0nin
        have hnetail : ∀ k ∈ rest.map Prod.fst, k ≠ "" :=
          fun k hk => cleanSeg_ne_empty (List.all_eq_true.mp hcrest k hk)
        have hdisj : ∀ key, sepExt (joinDot mp k0) key →
            key ∉ (buildFieldsM fuel rest mp jp ⟨[], []⟩).model_to_json.map Prod.fst := by
          intro key hsep0 hmem
          obtain ⟨k', hk'mem, hsep'⟩ := (build_key_shape fuel).2.1 rest mp jp
            hwfr hnetail key hmem
          have hk' : cleanSeg k' = true := List.all_eq_true.mp hcrest k' hk'mem
          have := joinDot_sepExt_inj hck0 hk' hsep0 hsep'
          exact hk0nin' (this ▸ hk'mem)
        cases v0 with
        | obj f2 =>
          simp only [buildFieldsM]
          rw [buildFieldsM_hom]
          simp only [List.map_append]
          rw [List.nodup_append]
          refine ⟨ihm (.obj f2) (joinDot mp k0) (jp ++ [.k k0]) hwfv,
            ihf rest mp jp hwfr hcrest hndr, ?_⟩
          intro key hkey
          exact hdisj key (sepExtS_weaken ((build_key_shape fuel).1 (.obj f2)
            (joinDot mp k0) (jp ++ [.k k0]) hwfv
            (joinDot_ne_empty (cleanSeg_ne_empty hck0)) key hkey))
        | arr l2 =>
          simp only [buildFieldsM]
          rw [buildFieldsM_hom]
          simp only [List.map_append]
          rw [List.nodup_append]
          refine ⟨ihm (.arr l2) (joinDot mp k0) (jp ++ [.k k0]) hwfv,
            ihf rest mp jp hwfr hcrest hndr, ?_⟩
          intro key hkey
          exact hdisj key (sepExtS_weaken ((build_key_shape fuel).1 (.arr l2)
            (joinDot mp k0) (jp ++ [.k k0]) hwfv
            (joinDot_ne_empty (cleanSeg_ne_empty hck0)) key hkey))
        | null =>
          simp only [buildFieldsM]
          rw [buildFieldsM_hom]
          simp only [List.map_append, List.nil_append, List.map_cons, List.map_nil,
            List.singleton_append]
          rw [List.nodup_cons]
          exact ⟨hdisj (joinDot mp k0) (sepExt_refl _),
            ihf rest mp jp hwfr hcrest hndr⟩
        | bool bv =>
          simp only [buildFieldsM]
          rw [buildFieldsM_hom]
          simp only [List.map_append, List.nil_append, List.map_cons, List.map_nil,
            List.singleton_append]
          rw [List.nodup_cons]
          exact ⟨hdisj (joinDot mp k0) (sepExt_refl _),
            ihf rest mp jp hwfr hcrest hndr⟩
        | num nv =>
          simp only [buildFieldsM]
          rw [buildFieldsM_hom]
          simp only [List.map_append, List.nil_append, List.map_cons, List.map_nil,
            List.singleton_append]
          rw [List.nodup_cons]
          exact ⟨hdisj (joinDot mp k0) (sepExt_refl _),
            ihf rest mp jp hwfr hcrest hndr⟩
        | str sv =>
          simp only [buildFieldsM]
          rw [buildFieldsM_hom]
          simp only [List.map_append, List.nil_append, List.map_cons, List.map_nil,
            List.singleton_append]
          rw [List.nodup_cons]
          exact ⟨hdisj (joinDot mp k0) (sepExt_refl _),
            ihf rest mp jp hwfr hcrest hndr⟩
    · intro i items mp jp hwf
      cases items with
      | nil =>
        simp only [buildItemsM]
        simp
      | cons item rest =>
        simp only [wfItemsM, Bool.and_eq_true] at hwf
        obtain ⟨hwfv, hwfr⟩ := hwf
        have hdisj : ∀ key, sepExt (idxSeg mp i) key →
            key ∉ (buildItemsM fuel (i + 1) rest mp jp ⟨[], []⟩).model_to_json.map
              Prod.fst := by
          intro key hsep0 hmem
          obtain ⟨n, hn1, _, hsep'⟩ := (build_key_shape fuel).2.2 (i + 1) rest mp jp
            hwfr key hmem
          have := idxSeg_sepExt_inj hsep0 hsep'
          omega
        cases item with
        | obj f2 =>
          simp only [buildItemsM]
          rw [buildItemsM_hom]
          simp only [List.map_append]
          rw [List.nodup_append]
          refine ⟨ihm (.obj f2) (idxSeg mp i) (jp ++ [.i i]) hwfv,
            ihi (i + 1) rest mp jp hwfr, ?_⟩
          intro key hkey
          exact hdisj key (sepExtS_weaken ((build_key_shape fuel).1 (.obj f2)
            (idxSeg mp i) (jp ++ [.i i]) hwfv (idxSeg_ne_empty mp i) key hkey))
        | arr l2 =>
          simp only [buildItemsM]
          rw [buildItemsM_hom]
          simp only [List.map_append]
          rw [List.nodup_append]
          refine ⟨ihm (.arr l2) (idxSeg mp i) (jp ++ [.i i]) hwfv,
            ihi (i + 1) rest mp jp hwfr, ?_⟩
          intro key hkey
          exact hdisj key (sepExtS_weaken ((build_key_shape fuel).1 (.arr l2)
            (idxSeg mp i) (jp ++ [.i i]) hwfv (idxSeg_ne_empty mp i) key hkey))
        | null =>
          simp only [buildItemsM]
          rw [buildItemsM_hom]
          simp only [List.map_append, List.nil_append, List.map_cons, List.map_nil,
            List.singleton_append]
          rw [List.nodup_cons]
          exact ⟨hdisj (idxSeg mp i) (sepExt_refl _), ihi (i + 1) rest mp jp hwfr⟩
        | bool bv =>
          simp only [buildItemsM]
          rw [buildItemsM_hom]
          simp only [List.map_append, List.nil_append, List.map_cons, List.map_nil,
            List.singleton_append]
          rw [List.nodup_cons]
          exact ⟨hdisj (idxSeg mp i) (sepExt_refl _), ihi (i + 1) rest mp jp hwfr⟩
        | num nv =>
          simp only [buildItemsM]
          rw [buildItemsM_hom]
          simp only [List.map_append, List.nil_append, List.map_cons, List.map_nil,
            List.singleton_append]
          rw [List.nodup_cons]
          exact ⟨hdisj (idxSeg mp i) (sepExt_refl _), ihi (i + 1) rest mp jp hwfr⟩
        | str sv =>
          simp only [buildItemsM]
          rw [buildItemsM_hom]
          simp only [List.map_append, List.nil_append, List.map_cons, List.map_nil,
            List.singleton_append]
          rw [List.nodup_cons]
          exact ⟨hdisj (idxSeg mp i) (sepExt_refl _), ihi (i + 1) rest mp jp hwfr⟩

/-- C1 (amended): on well-formed documents — every object's keys
distinct, nonempty and free of the separator characters `'.'`/`'['` the
walk splices into its model-path strings, `meta` fields objects whose
string `name`s are free of the same characters — every component
recorded by `_build_mappings` round-trips: `model_path_to_json_path`
applied to the component's model path (the path it was reached by with
the display name appended as an extra segment — in addition to, not in
place of, the JSON key or index segment) returns exactly the `json_path`
recorded for it, and walking the raw document along that path reaches
the component's dict. The fuelled walk equals Python's recursion for
every fuel exceeding the document's nesting, and the statement holds for
every fuel. -/
theorem c1_component_path_roundtrip (fuel : Nat) (doc : Json) (mp : String)
    (jp : DocPath) (sub : Json) (hwf : wfM fuel doc = true)
    (hmem : (mp, jp, sub) ∈ (build_mappings fuel doc).components) :
    model_path_to_json_path (build_mappings fuel doc) mp = some jp ∧
    getValue doc jp = .ok sub := by
  obtain ⟨hm2j, q, hq, hget⟩ :=
    (build_comps_sound fuel).1 doc "" [] hwf (mp, jp, sub) hmem
  have hndk := (build_nodup fuel).1 doc "" [] hwf
  constructor
  · exact dictGet_eq_of_mem hm2j hndk
  · simp only [List.nil_append] at hq
    rw [show jp = q from hq]
    exact hget

/-- C1 witness: a one-component document; the component reached via key
`"a"` with display name `"N"` is recorded at model path `"a.N"`, and the
lookup returns its document path `["a"]`, where the raw walk finds the
component dict. -/
theorem c1_component_path_roundtrip_witness :
    model_path_to_json_path
        (build_mappings 10 (.obj [("a", .obj [("meta", .obj [("name", .str "N")]),
          ("x", .num 1)])]))
        "a.N" = some [JKey.k "a"] ∧
    getValue (.obj [("a", .obj [("meta", .obj [("name", .str "N")]), ("x", .num 1)])])
        [JKey.k "a"] =
      .ok (.obj [("meta", .obj [("name", .str "N")]), ("x", .num 1)]) :=
  c1_component_path_roundtrip 10
    (.obj [("a", .obj [("meta", .obj [("name", .str "N")]), ("x", .num 1)])])
    "a.N" [JKey.k "a"]
    (.obj [("meta", .obj [("name", .str "N")]), ("x", .num 1)])
    rfl
    (by
      rw [show (build_mappings 10 (.obj [("a", .obj [("meta",
          .obj [("name", .str "N")]), ("x", .num 1)])])).components =
        [("a.N", [JKey.k "a"],
          Json.obj [("meta", .obj [("name", .str "N")]), ("x", .num 1)])] from rfl]
      exact List.mem_singleton_self _)

/-- C1 counterexample: on `c1Doc` the walk records the component at
`["a"]` under the model-path string `"a.b"` — the key `"a"` it was
reached by plus its display name `"b"`, the name being appended to, not
substituted for, the key segment — but the literal sibling key `"a.b"`
later assigns the same dictionary key, so the lookup returns `["a.b"]`,
a path at which the raw document holds the scalar `0`, not the
component's dict at `["a"]`; raising the fuel does not change the walk. -/
theorem c1_counterexample :
    ("a.b", [JKey.k "a"],
      Json.obj [("meta", .obj [("name", .str "b")])]) ∈
        (build_mappings 10 c1Doc).components ∧
    model_path_to_json_path (build_mappings 10 c1Doc) "a.b" = some [JKey.k "a.b"] ∧
    getValue c1Doc [JKey.k "a.b"] = .ok (.num 0) ∧
    getValue c1Doc [JKey.k "a"] =
      .ok (.obj [("meta", .obj [("name", .str "b")])]) ∧
    build_mappings 10 c1Doc = build_mappings 50 c1Doc := by
  refine ⟨?_, rfl, rfl, rfl, rfl⟩
  rw [show (build_mappings 10 c1Doc).components =
      [("a.b", [JKey.k "a"], Json.obj [("meta", Json.obj [("name", Json.str "b")])])]
    from rfl]
  exact List.mem_singleton_self _

end IgnitionLint
